import Mathlib

/-!
# Verification of `xml-pretty` (ebw44/xml-pretty)

A shallow embedding of `src/main.rs` — the command-line driver that discovers
XML files, prettifies each through the `xmlem` renderer, and writes the
result — together with models of the rendering core described by the spec
(the core itself lives in the external `xmlem` crate).

Machine integers are modelled as `Nat` (the Rust code only uses `usize`
values far from overflow: indent widths, line lengths). Fallible Rust code
(`anyhow::Result`, `std::io::Result`) is modelled with `Except`.
-/

namespace XmlPretty

/-! ## Display configuration (mirrors `xmlem::display::Config`) -/

inductive EntityMode where
  | Standard
  | Hex
  deriving DecidableEq, Repr

structure Config where
  is_pretty : Bool
  indent : Nat
  end_pad : Nat
  max_line_length : Nat
  entity_mode : EntityMode
  indent_text_nodes : Bool
  deriving DecidableEq, Repr

/-- Embedding of the `Config` value constructed inside `prettify`
(`src/main.rs` lines 135–146): `is_pretty` is the literal `true`,
the three numeric options fall back to 2 / 1 / 120 via `unwrap_or`,
and `entity_mode` is `Hex` exactly when `uses_hex_entities` holds. -/
def prettifyConfig (indent end_pad max_line_length : Option Nat)
    (uses_hex_entities indent_text_nodes : Bool) : Config :=
  { is_pretty := true
    indent := indent.getD 2
    end_pad := end_pad.getD 1
    max_line_length := max_line_length.getD 120
    entity_mode := if uses_hex_entities then EntityMode.Hex else EntityMode.Standard
    indent_text_nodes := indent_text_nodes }

/-- The command-line arguments record (`struct Args` in `src/main.rs`).
`gumdrop` fills every field from the command line; there is no field that
could influence `is_pretty`. Paths are modelled as strings. -/
structure Args where
  help : Bool
  xml_document_path : Option String
  output_path : Option String
  is_replace : Bool
  indent : Option Nat
  end_pad : Option Nat
  max_line_length : Option Nat
  uses_hex_entities : Bool
  is_no_text_indent : Bool

/-- The configuration `prettify` builds for a given set of parsed arguments:
`main` forwards `args.indent`, `args.end_pad`, `args.max_line_length`,
`args.uses_hex_entities` and `!args.is_no_text_indent` (lines 78–85). -/
def prettifyConfigOfArgs (a : Args) : Config :=
  prettifyConfig a.indent a.end_pad a.max_line_length a.uses_hex_entities !a.is_no_text_indent

/-! ## The batch driver (`fn main`, lines 56–105)

`main` discovers a list of input files, then loops: prettify the file,
pick the destination (`--replace` overrides `--output-path`, which in turn
overrides stdout), translate `\n` to `\r\n`, and write. The `?` operators
on `prettify_file` and `write` propagate any error out of `main`,
terminating the loop. We model the observable behaviour as a list of
effects plus an optional error that aborted the run. -/

inductive Effect where
  | stderrLine (s : String)
  | writeFile (path : String) (contents : String)
  | stdoutLine (s : String)
  deriving DecidableEq, Repr

/-- The single-quote character, used by the `Failed to prettify ...`
context message of line 86. -/
def squoteChar : Char := Char.ofNat 39

/-- Wraps a path in single quotes, as `format!` with a quoted `{}` does. -/
def squote (s : String) : String :=
  String.mk (squoteChar :: s.data ++ [squoteChar])

/-- Embedding of `text.replace("\n", "\r\n")` (line 94). The pattern is a
single character, so the replacement acts characterwise. -/
def text_with_crlf (text : String) : String :=
  String.mk (text.data.flatMap fun c => if c = '\n' then ['\r', '\n'] else [c])

/-- Destination selection (lines 88–92): with `is_replace` the document's own
input path is used, regardless of `output_path`; otherwise `output_path`. -/
def chooseOutputPath (is_replace : Bool) (output_path : Option String)
    (file_path : String) : Option String :=
  if is_replace then some file_path else output_path

/-- The per-file body of `main`'s loop (lines 77–102), abstracted over
`pretty`, the result of `prettify_file` on each path (file reading and
parsing live behind that call). A `none` destination prints to stdout
(line 100), a `some` destination writes the file (line 97). -/
def fileEffect (is_replace : Bool) (output_path : Option String)
    (file_path text : String) : Effect :=
  match chooseOutputPath is_replace output_path file_path with
  | some p => Effect.writeFile p (text_with_crlf text)
  | none => Effect.stdoutLine (text_with_crlf text)

/-- The loop of `main` over the discovered file list (lines 77–102).
Returns the effects performed and, if `prettify_file` failed on some file,
the error that `?` propagated out of `main` (with the
`Failed to prettify ...` context of line 86); files after the failing one
are never reached. -/
def mainLoop (is_replace : Bool) (output_path : Option String)
    (pretty : String → Except String String) :
    List String → List Effect × Option String
  | [] => ([], none)
  | fp :: rest =>
    match pretty fp with
    | Except.error e =>
        ([], some ("Failed to prettify " ++ squote fp ++ ": " ++ e))
    | Except.ok text =>
        let eff := fileEffect is_replace output_path fp text
        let r := mainLoop is_replace output_path pretty rest
        (eff :: r.1, r.2)

/-- The body of `main` after argument parsing (lines 69–104): on a
`find_xml_files` error, print `Error: {err}` to stderr and continue with an
empty list (lines 71–74); then run the loop. The second component is the
`anyhow::Result` of `main`: `none` models `Ok(())`. -/
def runMain (find : Except String (List String)) (is_replace : Bool)
    (output_path : Option String) (pretty : String → Except String String) :
    List Effect × Option String :=
  let input_list := match find with
    | Except.ok xs => xs
    | Except.error _ => []
  let errEffs := match find with
    | Except.ok _ => []
    | Except.error e => [Effect.stderrLine ("Error: " ++ e)]
  let r := mainLoop is_replace output_path pretty input_list
  (errEffs ++ r.1, r.2)

/-! ## File discovery (`find_xml_files`, lines 149–184)

The file system visible to `find_xml_files_recursive` is modelled as a
tree of named entries (a `read_dir` listing in directory order); paths are
lists of components. The source only distinguishes regular files and
directories (lines 157–161), so those are the two entry kinds. -/

mutual
inductive FsEntry where
  | file (name : String)
  | dir (name : String) (entries : FsDir)
  deriving DecidableEq
inductive FsDir where
  | nil
  | cons (head : FsEntry) (tail : FsDir)
  deriving DecidableEq
end

/-- The suffix after the last `.` of a character list, when a dot occurs. -/
def afterLastDot : List Char → Option (List Char)
  | [] => none
  | c :: cs =>
    match afterLastDot cs with
    | some e => some e
    | none => if c = '.' then some cs else none

/-- Embedding of Rust `Path::extension()` on a file name: the portion after
the last `.` of the final component, except that a dot in leading position
(the hidden-file marker) does not begin an extension, and a name with no
dot has no extension. -/
def rust_extension : List Char → Option (List Char)
  | [] => none
  | c :: cs => if c = '.' then afterLastDot cs else afterLastDot (c :: cs)

/-- The test of line 157 / line 170: the path's final component is a file
name whose extension is `xml`. -/
def isXmlName (n : String) : Bool :=
  rust_extension n.data == some ['x', 'm', 'l']

/-- `isXmlName` on a path's final component. -/
def isXmlPath (p : List String) : Bool :=
  match p.getLast? with
  | some n => isXmlName n
  | none => false

mutual
/-- One iteration of the `read_dir` loop of `find_xml_files_recursive`
(lines 153–162): a regular file is kept exactly when its extension is
`xml`; a directory is recursed into; the recursive results are spliced in
place (`extend`). -/
def findInEntry (pre : List String) : FsEntry → List (List String)
  | FsEntry.file n => if isXmlName n then [pre ++ [n]] else []
  | FsEntry.dir n sub => findInDir (pre ++ [n]) sub

/-- `find_xml_files_recursive` over a directory listing (lines 150–165). -/
def findInDir (pre : List String) : FsDir → List (List String)
  | FsDir.nil => []
  | FsDir.cons e rest => findInEntry pre e ++ findInDir pre rest
end

mutual
/-- Every regular-file path under an entry, in traversal order (the
reference against which `find_xml_files` is compared). -/
def allFilesEntry (pre : List String) : FsEntry → List (List String)
  | FsEntry.file n => [pre ++ [n]]
  | FsEntry.dir n sub => allFilesDir (pre ++ [n]) sub

/-- Every regular-file path under a directory listing. -/
def allFilesDir (pre : List String) : FsDir → List (List String)
  | FsDir.nil => []
  | FsDir.cons e rest => allFilesEntry pre e ++ allFilesDir pre rest
end

/-- The input path of `find_xml_files` (lines 167–177): a directory with
its listing, a regular file, or a path that is neither. -/
inductive InputPath where
  | dirPath (path : List String) (contents : FsDir)
  | filePath (path : List String)
  | invalid

/-- Embedding of `find_xml_files` (lines 149–184): a directory is searched
recursively; a regular file is accepted only with extension `xml`; any
other path, and a missing argument, are `InvalidInput` errors. -/
def find_xml_files : Option InputPath → Except String (List (List String))
  | some (InputPath.dirPath p contents) => Except.ok (findInDir p contents)
  | some (InputPath.filePath p) =>
      if isXmlPath p then Except.ok [p] else Except.error "Invalid input path"
  | some InputPath.invalid => Except.error "Invalid input path"
  | none => Except.error "No input path provided"

/-! ## Entity encoding

Modelled from the spec: the renderer itself is the external `xmlem` crate,
absent from `src/`; `main.rs` only selects its `entity_mode`
(lines 140–144). The encoding below follows §4.3 of the spec. -/

/-- Modelled from the spec: the characters the renderer escapes — "the
five predefined XML entities (`<`,`>`,`&`,`'`,`"`) plus any character
outside the representable output character set" (§4.3), the latter
modelled as the characters outside the ASCII range. `Hex` mode escapes
"the same characters as `Standard`". -/
def requiresEscaping (c : Char) : Bool :=
  c == '<' || c == '>' || c == '&' || c == squoteChar || c == '\"' || 127 < c.toNat

/-- The sixteen hexadecimal digit characters. -/
def hexDigits : List Char :=
  ['0', '1', '2', '3', '4', '5', '6', '7'] ++
    ['8', '9'] ++ ['a', 'b', 'c', 'd', 'e', 'f']

/-- The hexadecimal digit character of value `n` (lowercase). -/
def hexDigitChar (n : Nat) : Char :=
  hexDigits.getD n '0'

/-- Big-endian hexadecimal digits of `n`; `fuel` bounds the recursion and
`8` covers every Unicode scalar value. -/
def toHexDigitsAux : Nat → Nat → List Char
  | 0, _ => []
  | fuel + 1, n =>
    if n = 0 then [] else toHexDigitsAux fuel (n / 16) ++ [hexDigitChar (n % 16)]

/-- Big-endian hexadecimal digits of a character code. -/
def toHexDigits (n : Nat) : List Char :=
  toHexDigitsAux 8 n

/-- The decimal digit character of value `n % 10`. -/
def decDigitChar (n : Nat) : Char :=
  Char.ofNat (48 + n % 10)

/-- Big-endian decimal digits of `n`; `fuel = 8` covers every Unicode
scalar value. -/
def toDecDigitsAux : Nat → Nat → List Char
  | 0, _ => []
  | fuel + 1, n =>
    if n = 0 then [] else toDecDigitsAux fuel (n / 10) ++ [decDigitChar n]

/-- Big-endian decimal digits of a character code. -/
def toDecDigits (n : Nat) : List Char :=
  toDecDigitsAux 8 n

/-- Modelled from the spec: in `Hex` entity mode every escaped character
is written as a hexadecimal numeric character reference `&#xNNNN;`,
uniformly — named entities included (§4.3). -/
def escapeCharHex (c : Char) : List Char :=
  '&' :: '#' :: 'x' :: (toHexDigits c.toNat ++ [';'])

/-- Modelled from the spec: in `Standard` entity mode the five predefined
entities are written by name and any other escaped character as the
shortest decimal numeric reference (§4.3). -/
def escapeCharStandard (c : Char) : List Char :=
  if c == '<' then "&lt;".data
  else if c == '>' then "&gt;".data
  else if c == '&' then "&amp;".data
  else if c == squoteChar then "&apos;".data
  else if c == '\"' then "&quot;".data
  else '&' :: '#' :: (toDecDigits c.toNat ++ [';'])

/-- One character of text rendered under an entity mode: escaped when it
requires escaping, emitted literally otherwise. -/
def escapeChar (mode : EntityMode) (c : Char) : List Char :=
  if requiresEscaping c then
    match mode with
    | EntityMode.Hex => escapeCharHex c
    | EntityMode.Standard => escapeCharStandard c
  else [c]

/-- Character data rendered under an entity mode. -/
def escapeText (mode : EntityMode) (s : List Char) : List Char :=
  s.flatMap (escapeChar mode)

/-- Some suffix starts with a decimal numeric character reference: an `&`
followed directly by `#` and a decimal digit (`&#NNN;` without the `x`). -/
def hasDecNCR : List Char → Bool
  | a :: b :: c :: rest => (a == '&' && b == '#' && c.isDigit) || hasDecNCR (b :: c :: rest)
  | _ => false

/-- Every `&` of the list is followed immediately by `#x`. -/
def okAmp : List Char → Bool
  | a :: b :: c :: rest =>
    if a = '&' then b == '#' && c == 'x' && okAmp rest
    else okAmp (b :: c :: rest)
  | [a, b] => !(a == '&') && !(b == '&')
  | [a] => !(a == '&')
  | [] => true

/-- A concrete prettify outcome for tests: parsing `bad.xml` fails with a
`ParseError`, every other document prettifies to `<ok />`. -/
def parseFailsOnBad : String → Except String String :=
  fun fp => if fp = "bad.xml" then Except.error "parse error at 1:1" else Except.ok "<ok />"

/-! ## Document tree and renderer

Modelled from the spec: the tree model (§3), the layout engine (§4.2) and
the renderer (§4.3) live in the external `xmlem` crate, absent from
`src/`; `main.rs` only hands the parsed `Document` together with the
configuration to `to_string_pretty_with_config` (line 135). -/

mutual
inductive Node where
  | element (name : String) (attrs : List (String × String)) (children : NodeList)
  | text (content : String)
  | comment (content : String)
  | cdata (content : String)
  | pi (target : String) (data : String)
  | doctype (content : String)
  deriving DecidableEq
inductive NodeList where
  | nil
  | cons (head : Node) (tail : NodeList)
  deriving DecidableEq
end

/-- A document: optional leading and trailing Misc nodes around exactly
one root element (§3). -/
structure XmlDocument where
  before : NodeList
  rootName : String
  rootAttrs : List (String × String)
  rootChildren : NodeList
  after : NodeList
  deriving DecidableEq

/-- `n` space characters. -/
def spaces (n : Nat) : List Char :=
  List.replicate n ' '

/-- The XML whitespace characters. -/
def isWs (c : Char) : Bool :=
  c == ' ' || c == '\n' || c == '\t' || c == '\r'

/-- Strip leading and trailing whitespace. -/
def trimWs (l : List Char) : List Char :=
  ((l.dropWhile isWs).reverse.dropWhile isWs).reverse

/-- Attributes rendered inline: a space, the name, `="`, the escaped
value, `"` — in declaration order (§4.3). -/
def attrsInline (mode : EntityMode) (attrs : List (String × String)) : List Char :=
  attrs.flatMap fun a => ' ' :: (a.1.data ++ '=' :: '\"' :: (escapeText mode a.2.data ++ ['\"']))

/-- The start tag with all attributes on one line (§4.2 step 1). -/
def startTagInline (mode : EntityMode) (name : String)
    (attrs : List (String × String)) : List Char :=
  '<' :: (name.data ++ attrsInline mode attrs ++ ['>'])

/-- The separate end tag `</name>`. -/
def endTag (name : String) : List Char :=
  '<' :: '/' :: (name.data ++ ['>'])

/-- All children are Text/CData/Comment, with no embedded Element
(§4.2 step 3). -/
def allSimple : NodeList → Bool
  | NodeList.nil => true
  | NodeList.cons n rest =>
    (match n with
     | Node.text _ => true
     | Node.cdata _ => true
     | Node.comment _ => true
     | _ => false) && allSimple rest

/-- Simple children rendered inline between the start and end tag of a
`SingleLine` element. -/
def inlineList (mode : EntityMode) : NodeList → List Char
  | NodeList.nil => []
  | NodeList.cons n rest =>
    (match n with
     | Node.text s => escapeText mode s.data
     | Node.cdata s => "<![CDATA[".data ++ s.data ++ "]]>".data
     | Node.comment s => "<!--".data ++ s.data ++ "-->".data
     | _ => []) ++ inlineList mode rest

/-- One attribute per continuation line, indented one level deeper than
the start tag (§4.3, `WrappedAttributes`). -/
def wrappedAttrLines (mode : EntityMode) (ind : List Char)
    (attrs : List (String × String)) : List Char :=
  attrs.flatMap fun a =>
    ind ++ a.1.data ++ '=' :: '\"' :: (escapeText mode a.2.data ++ ['\"', '\n'])

mutual
/-- A node rendered at nesting depth `level`, starting with its own
indentation and without a trailing newline. For an element the §4.2
decision algorithm is applied in order: `SelfClosed` when it has no
children; `SingleLine` when all children are simple and either text
indentation is off or the one-line form fits `max_line_length` (equality
fits, §4.2); `WrappedAttributes` when the inline start tag alone
overflows; `Block` otherwise. A whitespace-only text node is normalized
away into the surrounding structure when `indent_text_nodes` is set
(§4.3); with it unset, text is emitted verbatim behind its structural
indentation. -/
def renderNode (c : Config) (level : Nat) : Node → List Char
  | Node.element name attrs children =>
    let ind := spaces (level * c.indent)
    let startTag := startTagInline c.entity_mode name attrs
    let startLen := ind.length + startTag.length
    (match children with
     | NodeList.nil =>
         ind ++ '<' :: (name.data ++ attrsInline c.entity_mode attrs
           ++ spaces c.end_pad ++ ['/', '>'])
     | NodeList.cons _ _ =>
       if allSimple children
           && (!c.indent_text_nodes
             || decide (startLen + (inlineList c.entity_mode children).length
                  + (endTag name).length ≤ c.max_line_length)) then
         ind ++ startTag ++ inlineList c.entity_mode children ++ endTag name
       else if decide (c.max_line_length < startLen) then
         ind ++ '<' :: (name.data ++ '\n' ::
           (wrappedAttrLines c.entity_mode (spaces ((level + 1) * c.indent)) attrs
             ++ ind ++ '>' :: '\n' ::
             (renderList c (level + 1) children ++ ind ++ endTag name)))
       else
         ind ++ startTag ++ '\n' ::
           (renderList c (level + 1) children ++ ind ++ endTag name))
  | Node.text s =>
    let ind := spaces (level * c.indent)
    if c.indent_text_nodes then
      if s.data.all isWs then []
      else ind ++ escapeText c.entity_mode (trimWs s.data)
    else ind ++ escapeText c.entity_mode s.data
  | Node.comment s => spaces (level * c.indent) ++ "<!--".data ++ s.data ++ "-->".data
  | Node.cdata s => spaces (level * c.indent) ++ "<![CDATA[".data ++ s.data ++ "]]>".data
  | Node.pi t d => spaces (level * c.indent) ++ "<?".data ++ t.data ++ ' ' :: (d.data ++ "?>".data)
  | Node.doctype s => spaces (level * c.indent) ++ "<!DOCTYPE".data ++ s.data ++ ['>']

/-- Children of a `Block` (or wrapped) element: each rendered node on its
own line; a child normalized away contributes nothing. -/
def renderList (c : Config) (level : Nat) : NodeList → List Char
  | NodeList.nil => []
  | NodeList.cons n rest =>
    let r := renderNode c level n
    (if r = [] then [] else r ++ ['\n']) ++ renderList c level rest
end

/-- Trailing Misc nodes, each on a fresh line after the root element. -/
def renderAfter (c : Config) : NodeList → List Char
  | NodeList.nil => []
  | NodeList.cons n rest => '\n' :: (renderNode c 0 n ++ renderAfter c rest)

/-- The canonical rendering of a document: leading Misc nodes on their own
lines, the root element at depth 0, trailing Misc nodes on their own
lines; lines separated by a single `\n` (§4.3, §6). -/
def renderDocument (c : Config) (d : XmlDocument) : List Char :=
  renderList c 0 d.before
    ++ renderNode c 0 (Node.element d.rootName d.rootAttrs d.rootChildren)
    ++ renderAfter c d.after

/-- The document of the §8 scenario: `<a><b x="1" y="2"/><c>hi</c></a>`
as parsed — root `a` with an attribute-bearing childless `b` and a `c`
holding the text `hi`. -/
def scenarioDoc : XmlDocument :=
  { before := NodeList.nil
    rootName := "a"
    rootAttrs := []
    rootChildren :=
      NodeList.cons (Node.element "b" [("x", "1"), ("y", "2")] NodeList.nil)
        (NodeList.cons (Node.element "c" [] (NodeList.cons (Node.text "hi") NodeList.nil))
          NodeList.nil)
    after := NodeList.nil }

/-! ## Parser

Modelled from the spec (§4.1): `parse(bytes) -> Document | ParseError`.
The parser tokenizes markup and character data, decodes the five named
entities and decimal/hexadecimal numeric character references inside Text
nodes and attribute values, and enforces well-formedness (matching end
tags, unique attribute names, exactly one root element). Errors are
modelled as messages; recursion is bounded by an explicit fuel argument so
that the definitions stay structurally recursive and computable (the
top-level entry point supplies ample fuel for its input). -/

/-- Characters accepted in element and attribute names. -/
def isNameChar (c : Char) : Bool :=
  c.isAlphanum || c == '_' || c == '-' || c == ':' || c == '.'

/-- Drop leading whitespace. -/
def skipWsL (l : List Char) : List Char :=
  l.dropWhile isWs

/-- The content before the first occurrence of `pat` and the remainder
after it; an error when `pat` never occurs (unterminated construct). -/
def scanUntil (pat : List Char) : List Char → Except String (List Char × List Char)
  | [] => Except.error "unterminated construct"
  | c :: cs =>
    if pat.isPrefixOf (c :: cs) then Except.ok ([], (c :: cs).drop pat.length)
    else do
      let (a, r) ← scanUntil pat cs
      Except.ok (c :: a, r)

/-- The numeric value of a hexadecimal digit. -/
def hexDigitVal (c : Char) : Option Nat :=
  if c.isDigit then some (c.toNat - 48)
  else if 97 ≤ c.toNat && c.toNat ≤ 102 then some (c.toNat - 87)
  else if 65 ≤ c.toNat && c.toNat ≤ 70 then some (c.toNat - 55)
  else none

/-- The value of a big-endian digit list under `base`, via `digitVal`. -/
def digitsVal (digitVal : Char → Option Nat) (base : Nat) (l : List Char) : Option Nat :=
  l.foldl (fun acc c => do
    let a ← acc
    let v ← digitVal c
    some (a * base + v)) (some 0)

/-- The numeric value of a decimal digit. -/
def decDigitVal (c : Char) : Option Nat :=
  if c.isDigit then some (c.toNat - 48) else none

/-- A code point turned into a character; invalid character references
(surrogates, out of range) are parse errors (§4.1). -/
def charOfCode (n : Nat) : Except String Char :=
  if n.isValidChar then Except.ok (Char.ofNat n)
  else Except.error "invalid character reference"

/-- Decode one entity body (the characters between `&` and `;`): the five
predefined named entities, `#x...` hexadecimal references, `#...` decimal
references; unknown named entities are an error (§4.1). -/
def decodeEntityBody (body : List Char) : Except String Char :=
  if body = "lt".data then Except.ok '<'
  else if body = "gt".data then Except.ok '>'
  else if body = "amp".data then Except.ok '&'
  else if body = "apos".data then Except.ok squoteChar
  else if body = "quot".data then Except.ok '\"'
  else
    match body with
    | [] => Except.error "unknown entity"
    | d0 :: rest =>
      if d0 = '#' then
        match rest with
        | [] => Except.error "empty character reference"
        | d :: ds =>
          if d = 'x' then
            if ds = [] then Except.error "empty character reference"
            else match digitsVal hexDigitVal 16 ds with
              | some n => charOfCode n
              | none => Except.error "invalid character reference"
          else
            match digitsVal decDigitVal 10 (d :: ds) with
            | some n => charOfCode n
            | none => Except.error "invalid character reference"
      else Except.error "unknown entity"

/-- One run of character data: everything up to the next `<` (or the end
of input), with entity references decoded. -/
def parseTextRun : Nat → List Char → Except String (List Char × List Char)
  | 0, _ => Except.error "parser fuel exhausted"
  | _ + 1, [] => Except.ok ([], [])
  | fuel + 1, c :: r =>
    if c = '<' then Except.ok ([], c :: r)
    else if c = '&' then do
      let (body, rest) ← scanUntil [';'] r
      let d ← decodeEntityBody body
      let (more, rest2) ← parseTextRun fuel rest
      Except.ok (d :: more, rest2)
    else do
      let (more, rest2) ← parseTextRun fuel r
      Except.ok (c :: more, rest2)

/-- One quoted attribute value: everything up to the closing `"`, with
entity references decoded; a raw `<` or the end of input is an error. -/
def parseAttrValue : Nat → List Char → Except String (List Char × List Char)
  | 0, _ => Except.error "parser fuel exhausted"
  | _ + 1, [] => Except.error "unterminated attribute value"
  | fuel + 1, c :: r =>
    if c = '\"' then Except.ok ([], r)
    else if c = '<' then Except.error "raw < in attribute value"
    else if c = '&' then do
      let (body, rest) ← scanUntil [';'] r
      let d ← decodeEntityBody body
      let (more, rest2) ← parseAttrValue fuel rest
      Except.ok (d :: more, rest2)
    else do
      let (more, rest2) ← parseAttrValue fuel r
      Except.ok (c :: more, rest2)

/-- The attribute list of a start tag, after the element name: attributes
separated by whitespace until `/>` (self-closing) or `>`; duplicate
attribute names are an error (§4.1). Returns the attributes, whether the
tag was self-closing, and the input after the closing `>`. -/
def parseAttrsCore : Nat → List Char → Except String (List (String × String) × Bool × List Char)
  | 0, _ => Except.error "parser fuel exhausted"
  | _ + 1, [] => Except.error "unterminated start tag"
  | fuel + 1, c :: r =>
    if c = '/' then
      match r with
      | '>' :: r2 => Except.ok ([], true, r2)
      | _ => Except.error "malformed start tag"
    else if c = '>' then Except.ok ([], false, r)
    else
      let rest := c :: r
      let name := rest.takeWhile isNameChar
      if name = [] then Except.error "malformed start tag"
      else
        match rest.dropWhile isNameChar with
        | '=' :: '\"' :: r2 => do
          let (value, r3) ← parseAttrValue fuel r2
          let (attrs, selfClose, r4) ← parseAttrsCore fuel (skipWsL r3)
          if attrs.any (fun a => a.1 = String.mk name) then
            Except.error "duplicate attribute"
          else
            Except.ok ((String.mk name, String.mk value) :: attrs, selfClose, r4)
        | _ => Except.error "malformed attribute"

def parseAttrs (fuel : Nat) (l : List Char) :
    Except String (List (String × String) × Bool × List Char) :=
  parseAttrsCore fuel (skipWsL l)

mutual
/-- The children of an element: a sequence of elements, text runs,
comments, CDATA sections and processing instructions, ending at `</` or
at the end of input (which the caller then validates). -/
def parseNodes : Nat → List Char → Except String (NodeList × List Char)
  | 0, _ => Except.error "parser fuel exhausted"
  | _ + 1, [] => Except.ok (NodeList.nil, [])
  | fuel + 1, c :: r =>
    if c = '<' then
      match r with
      | [] => Except.error "lone < at end of input"
      | c2 :: r2 =>
        if c2 = '/' then Except.ok (NodeList.nil, c :: r)
        else if c2 = '!' then
          match r2 with
          | '-' :: '-' :: r3 => do
            let (body, rest) ← scanUntil "-->".data r3
            let (siblings, rest2) ← parseNodes fuel rest
            Except.ok (NodeList.cons (Node.comment (String.mk body)) siblings, rest2)
          | '[' :: 'C' :: 'D' :: 'A' :: 'T' :: 'A' :: '[' :: r3 => do
            let (body, rest) ← scanUntil "]]>".data r3
            let (siblings, rest2) ← parseNodes fuel rest
            Except.ok (NodeList.cons (Node.cdata (String.mk body)) siblings, rest2)
          | _ => Except.error "unexpected markup declaration in content"
        else if c2 = '?' then do
          let (raw, rest) ← scanUntil "?>".data r2
          let target := raw.takeWhile fun d => !isWs d
          let dataPart :=
            match raw.dropWhile (fun d => !isWs d) with
            | [] => []
            | _ :: t => t
          let (siblings, rest2) ← parseNodes fuel rest
          Except.ok
            (NodeList.cons (Node.pi (String.mk target) (String.mk dataPart)) siblings, rest2)
        else do
          let (name, attrs, children, rest) ← parseElement fuel r
          let (siblings, rest2) ← parseNodes fuel rest
          Except.ok (NodeList.cons (Node.element name attrs children) siblings, rest2)
    else do
      let (txt, rest) ← parseTextRun fuel (c :: r)
      let (siblings, rest2) ← parseNodes fuel rest
      Except.ok (NodeList.cons (Node.text (String.mk txt)) siblings, rest2)

/-- One element, entered after its opening `<`: name, attributes, then
either `/>` or `>` children `</name>`; a missing or different end tag is
an error (§4.1). -/
def parseElement : Nat → List Char →
    Except String (String × List (String × String) × NodeList × List Char)
  | 0, _ => Except.error "parser fuel exhausted"
  | fuel + 1, l =>
    let name := l.takeWhile isNameChar
    if name = [] then Except.error "expected element name"
    else do
      let (attrs, selfClose, rest) ← parseAttrs fuel (l.dropWhile isNameChar)
      if selfClose then Except.ok (String.mk name, attrs, NodeList.nil, rest)
      else do
        let (children, rest2) ← parseNodes fuel rest
        match rest2 with
        | '<' :: '/' :: r2 =>
          let ename := r2.takeWhile isNameChar
          if ename = name then
            match skipWsL (r2.dropWhile isNameChar) with
            | '>' :: r3 => Except.ok (String.mk name, attrs, children, r3)
            | _ => Except.error "malformed end tag"
          else Except.error "mismatched end tag"
        | _ => Except.error "unterminated element"
end

/-- Misc nodes at the document level: comments, processing instructions
and doctype declarations separated by whitespace, up to the first item
that is none of these (the root element, trailing junk, or the end). -/
def parseMisc : Nat → List Char → Except String (NodeList × List Char)
  | 0, _ => Except.error "parser fuel exhausted"
  | fuel + 1, l =>
    match skipWsL l with
    | [] => Except.ok (NodeList.nil, [])
    | c :: r =>
      if c = '<' then
        match r with
        | [] => Except.ok (NodeList.nil, skipWsL l)
        | c2 :: r2 =>
          if c2 = '!' then
            match r2 with
            | '-' :: '-' :: r3 => do
              let (body, rest) ← scanUntil "-->".data r3
              let (more, rest2) ← parseMisc fuel rest
              Except.ok (NodeList.cons (Node.comment (String.mk body)) more, rest2)
            | 'D' :: 'O' :: 'C' :: 'T' :: 'Y' :: 'P' :: 'E' :: r3 => do
              let (body, rest) ← scanUntil ['>'] r3
              let (more, rest2) ← parseMisc fuel rest
              Except.ok (NodeList.cons (Node.doctype (String.mk body)) more, rest2)
            | _ => Except.ok (NodeList.nil, skipWsL l)
          else if c2 = '?' then do
            let (raw, rest) ← scanUntil "?>".data r2
            let target := raw.takeWhile fun d => !isWs d
            let dataPart :=
              match raw.dropWhile (fun d => !isWs d) with
              | [] => []
              | _ :: t => t
            let (more, rest2) ← parseMisc fuel rest
            Except.ok (NodeList.cons (Node.pi (String.mk target) (String.mk dataPart)) more, rest2)
          else Except.ok (NodeList.nil, skipWsL l)
      else Except.ok (NodeList.nil, skipWsL l)

/-- A whole document: leading Misc, exactly one root element, trailing
Misc, end of input; anything else (no root, several roots, trailing
junk) is an error (§4.1). -/
def parseDocument (fuel : Nat) (l : List Char) : Except String XmlDocument := do
  let (before, rest) ← parseMisc fuel l
  match rest with
  | '<' :: r => do
    let (name, attrs, children, rest2) ← parseElement fuel r
    let (after, rest3) ← parseMisc fuel rest2
    match rest3 with
    | [] =>
      Except.ok
        { before := before, rootName := name, rootAttrs := attrs,
          rootChildren := children, after := after }
    | '<' :: _ => Except.error "multiple root elements"
    | _ => Except.error "unexpected content after root element"
  | _ => Except.error "expected root element"

/-- `parse(bytes)`: the document parser with ample fuel for its input
(every parsing step consumes input, so four steps per character plus a
constant always suffice). -/
def parse (input : List Char) : Except String XmlDocument :=
  parseDocument (4 * input.length + 16) input

/-! ## Well-formedness invariants of parser output

The round-trip argument needs the structural facts the parser guarantees
about every tree it produces: names are nonempty runs of name characters,
attribute names are unique, text nodes are nonempty character runs with no
two adjacent, delimited contents (comments, CDATA, processing
instructions, doctypes) contain no early occurrence of their terminator,
and doctype nodes appear only at the document level. -/

/-- `pat` has no occurrence in `l ++ pat` starting inside `l` (so a scan
for `pat` through `l ++ pat ++ tail` stops exactly at the sentinel). -/
def cleanFor (pat : List Char) : List Char → Bool
  | [] => true
  | c :: cs => !(pat.isPrefixOf ((c :: cs) ++ pat)) && cleanFor pat cs

/-- No whitespace character occurs. -/
def noWsB (l : List Char) : Bool :=
  l.all fun c => !isWs c

/-- A nonempty run of name characters. -/
def wfName (s : String) : Bool :=
  !(s.data.isEmpty) && s.data.all isNameChar

/-- No attribute name recurs later in the list (the shape of the check
`parseAttrs` performs). -/
def namesNodup : List (String × String) → Bool
  | [] => true
  | a :: rest => !(rest.any fun b => b.1 = a.1) && namesNodup rest

/-- The node is a text node. -/
def isTextNode : Node → Bool
  | Node.text _ => true
  | _ => false

/-- The list starts with a text node. -/
def headIsText : NodeList → Bool
  | NodeList.nil => false
  | NodeList.cons n _ => isTextNode n

mutual
/-- Parser invariants for a node in element content. -/
def wfNode : Node → Bool
  | Node.element name attrs children =>
    wfName name && attrs.all (fun a => wfName a.1) && namesNodup attrs && wfList children
  | Node.text s => !(s.data.isEmpty)
  | Node.comment s => cleanFor "-->".data s.data
  | Node.cdata s => cleanFor "]]>".data s.data
  | Node.pi t d => noWsB t.data && cleanFor "?>".data (t.data ++ ' ' :: d.data)
  | Node.doctype _ => false

/-- Parser invariants for element content: every node well-formed and no
two adjacent text nodes (a text run always extends to the next `<`). -/
def wfList : NodeList → Bool
  | NodeList.nil => true
  | NodeList.cons n rest =>
    wfNode n && wfList rest && !(isTextNode n && headIsText rest)
end

/-- Parser invariants for a document-level Misc node. -/
def wfMiscNode : Node → Bool
  | Node.comment s => cleanFor "-->".data s.data
  | Node.pi t d => noWsB t.data && cleanFor "?>".data (t.data ++ ' ' :: d.data)
  | Node.doctype s => cleanFor ['>'] s.data
  | _ => false

/-- Parser invariants for a document-level Misc list. -/
def wfMisc : NodeList → Bool
  | NodeList.nil => true
  | NodeList.cons n rest => wfMiscNode n && wfMisc rest

/-- Parser invariants for a whole document. -/
def wfDoc (d : XmlDocument) : Bool :=
  wfMisc d.before && wfName d.rootName && d.rootAttrs.all (fun a => wfName a.1) &&
    namesNodup d.rootAttrs && wfList d.rootChildren && wfMisc d.after

/-- The node kinds `allSimple` accepts (Text/CData/Comment, §4.2 step 3). -/
def isSimpleNode : Node → Bool
  | Node.text _ => true
  | Node.cdata _ => true
  | Node.comment _ => true
  | _ => false

/-- One node's contribution to a `SingleLine` rendering. -/
def inlineNodeBytes (mode : EntityMode) : Node → List Char
  | Node.text s => escapeText mode s.data
  | Node.cdata s => "<![CDATA[".data ++ s.data ++ "]]>".data
  | Node.comment s => "<!--".data ++ s.data ++ "-->".data
  | _ => []

/-- The configuration `prettify` builds under `--no-text-indent` with all
other options defaulted. -/
def cfgNoTextIndent : Config := prettifyConfig none none none false false

/-- The parse of `<a>hi<b/></a>`: mixed content `hi`, `<b/>` under `a`. -/
def docMixed : XmlDocument :=
  { before := NodeList.nil
    rootName := "a"
    rootAttrs := []
    rootChildren :=
      NodeList.cons (Node.text "hi")
        (NodeList.cons (Node.element "b" [] NodeList.nil) NodeList.nil)
    after := NodeList.nil }

/-- The parse of the first rendering of `docMixed`: the structural
indentation has become part of the text content. -/
def docMixedReparsed : XmlDocument :=
  { before := NodeList.nil
    rootName := "a"
    rootAttrs := []
    rootChildren :=
      NodeList.cons (Node.text "\n  hi\n  ")
        (NodeList.cons (Node.element "b" [] NodeList.nil)
          (NodeList.cons (Node.text "\n") NodeList.nil))
    after := NodeList.nil }

/-! ## Theorems -/

/-! ### List and character utilities -/

theorem toNat_charOfNat (n : Nat) (h : n.isValidChar) : (Char.ofNat n).toNat = n := by
  simp [Char.ofNat, h, Char.ofNatAux, Char.toNat, UInt32.toNat, UInt32.ofNat']

theorem dropWhile_append_of_all (p : Char → Bool) (l₁ l₂ : List Char)
    (h : ∀ c ∈ l₁, p c = true) : (l₁ ++ l₂).dropWhile p = l₂.dropWhile p := by
  induction l₁ with
  | nil => rfl
  | cons c cs ih =>
    simp only [List.cons_append, List.dropWhile_cons, h c (List.mem_cons_self c cs), if_true]
    exact ih fun d hd => h d (List.mem_cons_of_mem c hd)

theorem takeWhile_append_of_all (p : Char → Bool) (l₁ l₂ : List Char)
    (h : ∀ c ∈ l₁, p c = true) : (l₁ ++ l₂).takeWhile p = l₁ ++ l₂.takeWhile p := by
  induction l₁ with
  | nil => rfl
  | cons c cs ih =>
    simp only [List.cons_append, List.takeWhile_cons, h c (List.mem_cons_self c cs), if_true]
    rw [ih fun d hd => h d (List.mem_cons_of_mem c hd)]

theorem dropWhile_cons_of_neg (p : Char → Bool) (c : Char) (l : List Char)
    (h : p c = false) : (c :: l).dropWhile p = c :: l := by
  simp [List.dropWhile_cons, h]

theorem takeWhile_cons_of_neg (p : Char → Bool) (c : Char) (l : List Char)
    (h : p c = false) : (c :: l).takeWhile p = [] := by
  simp [List.takeWhile_cons, h]

theorem mem_spaces_isWs (n : Nat) (c : Char) (h : c ∈ spaces n) : isWs c = true := by
  rw [List.eq_of_mem_replicate h]
  decide

theorem skipWsL_spaces_append (n : Nat) (l : List Char) :
    skipWsL (spaces n ++ l) = skipWsL l :=
  dropWhile_append_of_all isWs (spaces n) l fun c hc => mem_spaces_isWs n c hc

theorem skipWsL_cons_ws (c : Char) (l : List Char) (h : isWs c = true) :
    skipWsL (c :: l) = skipWsL l := by
  simp [skipWsL, List.dropWhile_cons, h]

theorem skipWsL_of_head_neg (c : Char) (l : List Char) (h : isWs c = false) :
    skipWsL (c :: l) = c :: l :=
  dropWhile_cons_of_neg isWs c l h

theorem prefix_append_trunc (pat x y : List Char) (h : pat <+: x ++ y)
    (hlen : pat.length ≤ x.length) : pat <+: x := by
  have h1 : pat = (x ++ y).take pat.length := (List.prefix_iff_eq_take.mp h)
  rw [List.take_append_eq_append_take, Nat.sub_eq_zero_of_le hlen, List.take_zero,
    List.append_nil] at h1
  rw [h1]
  exact List.take_prefix _ x

theorem prefix_append_ext (pat x y : List Char) (h : pat <+: x) : pat <+: x ++ y :=
  h.trans (List.prefix_append x y)

theorem prefix_sentinel_iff (pat x tail : List Char) :
    pat <+: (x ++ pat) ++ tail ↔ pat <+: x ++ pat := by
  constructor
  · intro h
    exact prefix_append_trunc pat (x ++ pat) tail h (by simp)
  · intro h
    exact prefix_append_ext pat (x ++ pat) tail h

/-! ### `cleanFor` and `scanUntil` -/

theorem cleanFor_cons_iff (pat : List Char) (c : Char) (cs : List Char) :
    cleanFor pat (c :: cs) = true ↔
      ¬(pat <+: (c :: cs) ++ pat) ∧ cleanFor pat cs = true := by
  simp [cleanFor, Bool.and_eq_true, Bool.not_eq_true', Bool.eq_false_iff,
    List.isPrefixOf_iff_prefix]

theorem scanUntil_exact (pat : List Char) (hpat : pat ≠ []) :
    ∀ (b tail : List Char), cleanFor pat b = true →
      scanUntil pat (b ++ (pat ++ tail)) = Except.ok (b, tail)
  | [], tail, _ => by
    match pat, hpat with
    | p :: ps, _ =>
      show scanUntil (p :: ps) (p :: (ps ++ tail)) = _
      rw [scanUntil]
      have hp : (p :: ps).isPrefixOf (p :: (ps ++ tail)) = true := by
        rw [List.isPrefixOf_iff_prefix]
        exact prefix_append_ext _ _ tail (List.prefix_refl _)
      rw [if_pos hp]
      show Except.ok ([], ((p :: ps) ++ tail).drop (p :: ps).length) = _
      rw [List.drop_left]
  | c :: cs, tail, hclean => by
    obtain ⟨hhead, htail⟩ := (cleanFor_cons_iff pat c cs).mp hclean
    show scanUntil pat (c :: (cs ++ (pat ++ tail))) = _
    rw [scanUntil]
    have hp : pat.isPrefixOf (c :: (cs ++ (pat ++ tail))) = false := by
      rw [Bool.eq_false_iff]
      intro hcontra
      rw [List.isPrefixOf_iff_prefix] at hcontra
      have : pat <+: ((c :: cs) ++ pat) ++ tail := by
        simpa [List.append_assoc] using hcontra
      exact hhead ((prefix_sentinel_iff pat (c :: cs) tail).mp this)
    rw [if_neg (by simp [hp])]
    rw [scanUntil_exact pat hpat cs tail htail]
    rfl

theorem scanUntil_sound (pat : List Char) :
    ∀ (l b r : List Char), scanUntil pat l = Except.ok (b, r) →
      cleanFor pat b = true ∧ l = b ++ (pat ++ r)
  | [], b, r, h => by cases h
  | c :: cs, b, r, h => by
    rw [scanUntil] at h
    by_cases hp : pat.isPrefixOf (c :: cs) = true
    · rw [if_pos hp] at h
      cases h
      refine ⟨rfl, ?_⟩
      rw [List.isPrefixOf_iff_prefix] at hp
      have h1 : (c :: cs).take pat.length = pat := (List.prefix_iff_eq_take.mp hp).symm
      calc c :: cs = (c :: cs).take pat.length ++ (c :: cs).drop pat.length := by
            rw [List.take_append_drop]
        _ = [] ++ (pat ++ (c :: cs).drop pat.length) := by rw [h1]; rfl
    · rw [if_neg hp] at h
      match hs : scanUntil pat cs with
      | Except.error e => rw [hs] at h; cases h
      | Except.ok (a, r2) =>
        rw [hs] at h
        have h' : (Except.ok (c :: a, r2) : Except String (List Char × List Char)) = Except.ok (b, r) := h
        cases h'
        obtain ⟨hca, hcs⟩ := scanUntil_sound pat cs a r hs
        subst hcs
        refine ⟨?_, by simp⟩
        rw [cleanFor_cons_iff]
        refine ⟨?_, hca⟩
        intro hcontra
        apply hp
        rw [List.isPrefixOf_iff_prefix]
        have := prefix_append_ext pat ((c :: a) ++ pat) r hcontra
        simpa [List.append_assoc] using this

/-- **C1, counterexample.** In batch mode a `ParseError` on one document is
claimed to be fatal only to that document. In the code the `?` on
`prettify_file` (line 86) propagates the error out of `main`: with the
discovered list `[bad.xml, good.xml]`, where `bad.xml` fails to parse and
`good.xml` would prettify fine, the run performs no effect at all — the
remaining file is never processed — and `main` returns the error. -/
theorem mainLoop_aborts_batch_on_parse_error :
    mainLoop false none parseFailsOnBad ["bad.xml", "good.xml"] =
      ([], some ("Failed to prettify " ++ squote "bad.xml" ++ ": parse error at 1:1")) ∧
    parseFailsOnBad "good.xml" = Except.ok "<ok />" := by
  constructor
  · rfl
  · rfl

/-- **C1, amended.** A `ParseError` (or any `prettify_file` failure) on one
document aborts the whole batch: `main` performs no further effect, the
remaining files are not processed, and `main` returns the contextualised
error. -/
theorem mainLoop_error_stops_remaining (is_replace : Bool)
    (output_path : Option String) (pretty : String → Except String String)
    (fp : String) (rest : List String) (e : String)
    (h : pretty fp = Except.error e) :
    mainLoop is_replace output_path pretty (fp :: rest) =
      ([], some ("Failed to prettify " ++ squote fp ++ ": " ++ e)) := by
  simp [mainLoop, h]

/-- Witness for `mainLoop_error_stops_remaining` at a concrete input. -/
theorem mainLoop_error_stops_remaining_witness :
    mainLoop false none parseFailsOnBad ("bad.xml" :: ["good.xml"]) =
      ([], some ("Failed to prettify " ++ squote "bad.xml" ++ ": parse error at 1:1")) :=
  mainLoop_error_stops_remaining false none parseFailsOnBad "bad.xml" ["good.xml"]
    "parse error at 1:1" rfl

theorem okAmp_cons_of_ne (c : Char) (l : List Char) (h : ¬c = '&') :
    okAmp (c :: l) = okAmp l := by
  match l with
  | [] => simp [okAmp, h]
  | [b] => simp [okAmp, h]
  | b :: d :: rest => simp [okAmp, h]

theorem okAmp_append_of_no_amp : ∀ (u l : List Char), (∀ c ∈ u, ¬c = '&') →
    okAmp (u ++ l) = okAmp l
  | [], _, _ => rfl
  | c :: u, l, h => by
    rw [List.cons_append, okAmp_cons_of_ne c _ (h c (List.mem_cons_self c u)),
      okAmp_append_of_no_amp u l fun d hd => h d (List.mem_cons_of_mem c hd)]

theorem hexDigitChar_mem (n : Nat) : hexDigitChar n ∈ hexDigits := by
  unfold hexDigitChar
  rcases Nat.lt_or_ge n hexDigits.length with h | h
  · rw [List.getD_eq_getElem _ _ h]
    exact List.getElem_mem h
  · rw [List.getD_eq_default _ _ h]
    decide

theorem hexDigitChar_ne_amp (n : Nat) : ¬hexDigitChar n = '&' := by
  have hall : ∀ c ∈ hexDigits, ¬c = '&' := by decide
  exact hall _ (hexDigitChar_mem n)

theorem toHexDigitsAux_no_amp : ∀ (fuel n : Nat), ∀ c ∈ toHexDigitsAux fuel n, ¬c = '&'
  | 0, _ => by simp [toHexDigitsAux]
  | fuel + 1, n => by
    intro c hc
    simp only [toHexDigitsAux] at hc
    by_cases hn : n = 0
    · simp [hn] at hc
    · rw [if_neg hn] at hc
      rcases List.mem_append.mp hc with h | h
      · exact toHexDigitsAux_no_amp fuel (n / 16) c h
      · rcases List.mem_singleton.mp h with rfl
        exact hexDigitChar_ne_amp (n % 16)

theorem okAmp_amp_head (b c : Char) (rest : List Char) :
    okAmp ('&' :: b :: c :: rest) = (b == '#' && c == 'x' && okAmp rest) := by
  simp [okAmp]

theorem okAmp_escapeCharHex (c : Char) (l : List Char) :
    okAmp (escapeCharHex c ++ l) = okAmp l := by
  show okAmp ('&' :: '#' :: 'x' :: ((toHexDigits c.toNat ++ [';']) ++ l)) = okAmp l
  rw [okAmp_amp_head]
  simp only [beq_self_eq_true, Bool.true_and]
  rw [List.append_assoc, List.singleton_append,
    okAmp_append_of_no_amp (toHexDigits c.toNat) _
      fun d hd => toHexDigitsAux_no_amp 8 c.toNat d hd,
    okAmp_cons_of_ne _ _ (by decide)]

theorem requiresEscaping_amp : requiresEscaping '&' = true := by decide

theorem okAmp_escapeText_hex : ∀ (s l : List Char),
    okAmp (escapeText EntityMode.Hex s ++ l) = okAmp l
  | [], _ => rfl
  | c :: s, l => by
    show okAmp ((escapeChar EntityMode.Hex c ++ escapeText EntityMode.Hex s) ++ l) = okAmp l
    rw [List.append_assoc]
    by_cases h : requiresEscaping c = true
    · rw [show escapeChar EntityMode.Hex c = escapeCharHex c by simp [escapeChar, h]]
      rw [okAmp_escapeCharHex, okAmp_escapeText_hex s l]
    · rw [show escapeChar EntityMode.Hex c = [c] by simp [escapeChar, h]]
      have hc : ¬c = '&' := by
        intro hc
        rw [hc] at h
        exact h requiresEscaping_amp
      rw [List.singleton_append, okAmp_cons_of_ne _ _ hc, okAmp_escapeText_hex s l]

theorem okAmp_no_decNCR : ∀ l : List Char, okAmp l = true → hasDecNCR l = false
  | [] => fun _ => rfl
  | [_] => fun _ => rfl
  | [_, _] => fun _ => rfl
  | a :: b :: c :: rest => fun h => by
    by_cases ha : a = '&'
    · subst ha
      rw [okAmp_amp_head] at h
      simp only [Bool.and_eq_true, beq_iff_eq] at h
      obtain ⟨⟨hb, hc⟩, hr⟩ := h
      subst hb; subst hc
      have h2 : okAmp ('#' :: 'x' :: rest) = true := by
        rw [okAmp_cons_of_ne _ _ (by decide), okAmp_cons_of_ne _ _ (by decide)]
        exact hr
      have hrec := okAmp_no_decNCR ('#' :: 'x' :: rest) h2
      simp [hasDecNCR, hrec]
    · have h2 : okAmp (b :: c :: rest) = true := by
        rw [okAmp_cons_of_ne _ _ ha] at h
        exact h
      have hrec := okAmp_no_decNCR (b :: c :: rest) h2
      simp [hasDecNCR, hrec, ha]

/-- **C5.** The renderer's entity mode is `Hex` exactly when the
`--hex-entities` flag is set and `Standard` otherwise (lines 140–144);
and under `Hex` mode every escaped character becomes a hexadecimal
reference `&#x...;`, so output produced by escaping never contains a
decimal numeric character reference (`&#NNN;` without the `x`). -/
theorem hex_entity_mode_correct :
    (∀ i e m t, (prettifyConfig i e m true t).entity_mode = EntityMode.Hex) ∧
    (∀ i e m t, (prettifyConfig i e m false t).entity_mode = EntityMode.Standard) ∧
    (∀ s : List Char, hasDecNCR (escapeText EntityMode.Hex s) = false) := by
  refine ⟨fun _ _ _ _ => rfl, fun _ _ _ _ => rfl, fun s => ?_⟩
  have h := okAmp_escapeText_hex s []
  rw [List.append_nil] at h
  exact okAmp_no_decNCR _ (h.trans rfl)

/-- **C7.** The §8 scenario: `<a><b x="1" y="2"/><c>hi</c></a>` with
`indent = 2`, `end_pad = 1`, `max_line_length = 120` (the defaults the
program applies when no option is supplied) renders as
`<a>`, `  <b x="1" y="2" />`, `  <c>hi</c>`, `</a>` joined by single
newlines: `b` self-closes with one space before `/>`, the children are
indented two spaces, and `c` fits on a single line. -/
theorem scenario_render_exact :
    parse "<a><b x=\"1\" y=\"2\"/><c>hi</c></a>".data = Except.ok scenarioDoc ∧
    renderDocument (prettifyConfig none none none false true) scenarioDoc =
      "<a>\n  <b x=\"1\" y=\"2\" />\n  <c>hi</c>\n</a>".data := by
  exact ⟨rfl, rfl⟩

mutual
theorem findInEntry_eq_filter : ∀ (pre : List String) (e : FsEntry),
    findInEntry pre e = (allFilesEntry pre e).filter isXmlPath
  | pre, FsEntry.file n => by
      simp [findInEntry, allFilesEntry, List.filter_cons, isXmlPath, List.getLast?_concat]
  | pre, FsEntry.dir n sub => by
      simpa [findInEntry, allFilesEntry] using findInDir_eq_filter (pre ++ [n]) sub

theorem findInDir_eq_filter : ∀ (pre : List String) (d : FsDir),
    findInDir pre d = (allFilesDir pre d).filter isXmlPath
  | _, FsDir.nil => rfl
  | pre, FsDir.cons e rest => by
      simp [findInDir, allFilesDir, List.filter_append,
        findInEntry_eq_filter pre e, findInDir_eq_filter pre rest]
end

/-- **C6.** In directory mode `find_xml_files` returns exactly the
regular files under the directory (in traversal order, recursing into all
subdirectories) whose extension is `xml`: the result is the filter of the
full recursive file listing by the `xml`-extension test, so in particular
every returned path is a regular file with extension `xml`. -/
theorem find_xml_files_dir_exact (p : List String) (d : FsDir) :
    find_xml_files (some (InputPath.dirPath p d)) =
      Except.ok ((allFilesDir p d).filter isXmlPath) := by
  simpa [find_xml_files] using findInDir_eq_filter p d

/-! ### Escaping and entity decoding -/

theorem cleanFor_singleton (x : Char) : ∀ (l : List Char),
    (cleanFor [x] l = true ↔ ∀ c ∈ l, c ≠ x)
  | [] => by simp [cleanFor]
  | c :: cs => by
    rw [cleanFor_cons_iff]
    rw [cleanFor_singleton x cs]
    constructor
    · rintro ⟨h1, h2⟩ d hd
      rcases List.mem_cons.mp hd with rfl | hd2
      · intro rfl2
        exact h1 (by simp [List.cons_prefix_cons, rfl2])
      · exact h2 d hd2
    · intro h
      refine ⟨?_, fun d hd => h d (List.mem_cons_of_mem c hd)⟩
      intro hp
      rw [List.cons_append, List.cons_prefix_cons] at hp
      exact h c (List.mem_cons_self c cs) hp.1.symm

theorem not_escaped_ne (c : Char) (h : requiresEscaping c = false) :
    c ≠ '<' ∧ c ≠ '>' ∧ c ≠ '&' ∧ c ≠ squoteChar ∧ c ≠ '\"' := by
  refine ⟨?_, ?_, ?_, ?_, ?_⟩ <;> intro hc <;> rw [hc] at h <;> exact absurd h (by decide)

theorem isWs_cases (c : Char) (h : isWs c = true) :
    c = ' ' ∨ c = '\n' ∨ c = '\t' ∨ c = '\r' := by
  simp [isWs, Bool.or_eq_true, beq_iff_eq] at h
  tauto

theorem isWs_not_escaped (c : Char) (h : isWs c = true) : requiresEscaping c = false := by
  rcases isWs_cases c h with rfl | rfl | rfl | rfl <;> decide

theorem escapeChar_not_escaped (mode : EntityMode) (c : Char)
    (h : requiresEscaping c = false) : escapeChar mode c = [c] := by
  simp [escapeChar, h]

theorem escapeText_nil (mode : EntityMode) : escapeText mode [] = [] := rfl

theorem escapeText_cons (mode : EntityMode) (c : Char) (s : List Char) :
    escapeText mode (c :: s) = escapeChar mode c ++ escapeText mode s := by
  simp [escapeText]

theorem escapeText_append (mode : EntityMode) (s t : List Char) :
    escapeText mode (s ++ t) = escapeText mode s ++ escapeText mode t := by
  simp [escapeText]

theorem escapeText_of_ws (mode : EntityMode) (s : List Char)
    (h : ∀ c ∈ s, isWs c = true) : escapeText mode s = s := by
  induction s with
  | nil => rfl
  | cons c cs ih =>
    rw [escapeText_cons,
      escapeChar_not_escaped mode c (isWs_not_escaped c (h c (List.mem_cons_self c cs))),
      ih fun d hd => h d (List.mem_cons_of_mem c hd)]
    rfl

theorem toNat_pos_of_escaped (c : Char) (h : requiresEscaping c = true) : 0 < c.toNat := by
  by_contra hc
  have h0 : c.toNat = 0 := by omega
  have : c = Char.ofNat 0 := by
    rw [← h0, Char.ofNat_toNat]
  rw [this] at h
  exact absurd h (by decide)

theorem hexDigitVal_hexDigitChar (m : Nat) (h : m < 16) :
    hexDigitVal (hexDigitChar m) = some m := by
  interval_cases m <;> decide

theorem hexDigitChar_ne_semi (n : Nat) : hexDigitChar n ≠ ';' := by
  have hall : ∀ c ∈ hexDigits, c ≠ ';' := by decide
  exact hall _ (hexDigitChar_mem n)

theorem digitsVal_nil (f : Char → Option Nat) (b : Nat) : digitsVal f b [] = some 0 := rfl

theorem digitsVal_append_digit (f : Char → Option Nat) (b v m : Nat) (l : List Char)
    (hl : digitsVal f b l = some v) (c : Char) (hc : f c = some m) :
    digitsVal f b (l ++ [c]) = some (v * b + m) := by
  unfold digitsVal at hl ⊢
  rw [List.foldl_append, hl]
  simp [hc]

theorem digitsVal_toHexAux : ∀ (fuel n : Nat), n < 16 ^ fuel →
    digitsVal hexDigitVal 16 (toHexDigitsAux fuel n) = some n
  | 0, n, h => by
    have h0 : n = 0 := by simpa using Nat.lt_one_iff.mp (by simpa using h)
    subst h0
    rfl
  | fuel + 1, n, h => by
    by_cases hn : n = 0
    · subst hn
      rw [toHexDigitsAux, if_pos rfl]
      rfl
    · rw [toHexDigitsAux, if_neg hn]
      have h16 : n / 16 < 16 ^ fuel := by
        rw [Nat.div_lt_iff_lt_mul (by norm_num)]
        calc n < 16 ^ (fuel + 1) := h
          _ = 16 ^ fuel * 16 := by ring
      rw [digitsVal_append_digit hexDigitVal 16 (n / 16) (n % 16) _
        (digitsVal_toHexAux fuel (n / 16) h16) _
        (hexDigitVal_hexDigitChar (n % 16) (Nat.mod_lt n (by norm_num)))]
      congr 1
      omega

theorem isDigit_eq (c : Char) : c.isDigit = (48 ≤ c.toNat && c.toNat ≤ 57) := by
  simp [Char.isDigit, Char.toNat]
  rfl

theorem decDigitChar_toNat (n : Nat) : (decDigitChar n).toNat = 48 + n % 10 := by
  unfold decDigitChar
  exact toNat_charOfNat _ (Or.inl (by omega))

theorem decDigitVal_decDigitChar (n : Nat) : decDigitVal (decDigitChar n) = some (n % 10) := by
  unfold decDigitVal
  rw [if_pos, decDigitChar_toNat]
  · congr 1
    omega
  · rw [isDigit_eq, decDigitChar_toNat]
    simp
    omega

theorem digitsVal_toDecAux : ∀ (fuel n : Nat), n < 10 ^ fuel →
    digitsVal decDigitVal 10 (toDecDigitsAux fuel n) = some n
  | 0, n, h => by
    have h0 : n = 0 := by simpa using Nat.lt_one_iff.mp (by simpa using h)
    subst h0
    rfl
  | fuel + 1, n, h => by
    by_cases hn : n = 0
    · subst hn
      rw [toDecDigitsAux, if_pos rfl]
      rfl
    · rw [toDecDigitsAux, if_neg hn]
      have h10 : n / 10 < 10 ^ fuel := by
        rw [Nat.div_lt_iff_lt_mul (by norm_num)]
        calc n < 10 ^ (fuel + 1) := h
          _ = 10 ^ fuel * 10 := by ring
      rw [digitsVal_append_digit decDigitVal 10 (n / 10) (n % 10) _
        (digitsVal_toDecAux fuel (n / 10) h10) _ (decDigitVal_decDigitChar n)]
      congr 1
      omega

theorem charOfCode_toNat (c : Char) : charOfCode c.toNat = Except.ok c := by
  unfold charOfCode
  have hv : c.toNat.isValidChar := c.valid
  rw [if_pos hv, Char.ofNat_toNat]

theorem toNat_lt_char (c : Char) : c.toNat < 1114112 := by
  have hv : c.toNat.isValidChar := c.valid
  rcases hv with h | ⟨_, h2⟩
  · omega
  · omega

theorem toHexDigitsAux_mem : ∀ (fuel n : Nat), ∀ c ∈ toHexDigitsAux fuel n, c ∈ hexDigits
  | 0, _ => by simp [toHexDigitsAux]
  | fuel + 1, n => by
    intro c hc
    rw [toHexDigitsAux] at hc
    by_cases hn : n = 0
    · simp [hn] at hc
    · rw [if_neg hn] at hc
      rcases List.mem_append.mp hc with h | h
      · exact toHexDigitsAux_mem fuel (n / 16) c h
      · rcases List.mem_singleton.mp h with rfl
        exact hexDigitChar_mem (n % 16)

theorem toHexDigitsAux_ne_nil (fuel n : Nat) (hf : fuel ≠ 0) (hn : n ≠ 0) :
    toHexDigitsAux fuel n ≠ [] := by
  match fuel, hf with
  | f + 1, _ =>
    rw [toHexDigitsAux, if_neg hn]
    simp

theorem toDecDigitsAux_isDigit : ∀ (fuel n : Nat), ∀ c ∈ toDecDigitsAux fuel n,
    c.isDigit = true
  | 0, _ => by simp [toDecDigitsAux]
  | fuel + 1, n => by
    intro c hc
    rw [toDecDigitsAux] at hc
    by_cases hn : n = 0
    · simp [hn] at hc
    · rw [if_neg hn] at hc
      rcases List.mem_append.mp hc with h | h
      · exact toDecDigitsAux_isDigit fuel (n / 10) c h
      · rcases List.mem_singleton.mp h with rfl
        rw [isDigit_eq, decDigitChar_toNat]
        simp
        omega

theorem toDecDigitsAux_ne_nil (fuel n : Nat) (hf : fuel ≠ 0) (hn : n ≠ 0) :
    toDecDigitsAux fuel n ≠ [] := by
  match fuel, hf with
  | f + 1, _ =>
    rw [toDecDigitsAux, if_neg hn]
    simp

theorem isDigit_ne_semi (c : Char) (h : c.isDigit = true) : c ≠ ';' := by
  intro hc
  subst hc
  exact absurd h (by decide)

theorem isDigit_ne_x (c : Char) (h : c.isDigit = true) : c ≠ 'x' := by
  intro hc
  subst hc
  exact absurd h (by decide)

/-- Every escaped character becomes a block `&` body `;` whose body scans
cleanly and decodes back to the character. -/
theorem escaped_block (mode : EntityMode) (c : Char) (h : requiresEscaping c = true) :
    ∃ body, escapeChar mode c = '&' :: (body ++ [';']) ∧ cleanFor [';'] body = true ∧
      decodeEntityBody body = Except.ok c := by
  have hlt : c.toNat < 1114112 := toNat_lt_char c
  have hpos : 0 < c.toNat := toNat_pos_of_escaped c h
  match mode with
  | EntityMode.Hex =>
    refine ⟨'#' :: 'x' :: toHexDigits c.toNat, ?_, ?_, ?_⟩
    · rw [show escapeChar EntityMode.Hex c = escapeCharHex c by simp [escapeChar, h]]
      rfl
    · rw [cleanFor_singleton]
      intro d hd
      rcases List.mem_cons.mp hd with rfl | hd2
      · decide
      rcases List.mem_cons.mp hd2 with rfl | hd3
      · decide
      · exact (by decide : ∀ x ∈ hexDigits, x ≠ ';') d (toHexDigitsAux_mem 8 c.toNat d hd3)
    · have hne : toHexDigits c.toNat ≠ [] :=
        toHexDigitsAux_ne_nil 8 c.toNat (by omega) (by omega)
      show decodeEntityBody ('#' :: 'x' :: toHexDigits c.toNat) = Except.ok c
      unfold decodeEntityBody
      rw [if_neg (by simp), if_neg (by simp), if_neg (by simp), if_neg (by simp),
        if_neg (by simp)]
      show (if ('#' : Char) = '#' then _ else _) = _
      rw [if_pos rfl]
      show (if ('x' : Char) = 'x' then _ else _) = _
      rw [if_pos rfl, if_neg hne]
      rw [show digitsVal hexDigitVal 16 (toHexDigits c.toNat) = some c.toNat from
        digitsVal_toHexAux 8 c.toNat (by norm_num; omega)]
      exact charOfCode_toNat c
  | EntityMode.Standard =>
    have hesc : escapeChar EntityMode.Standard c = escapeCharStandard c := by
      simp [escapeChar, h]
    by_cases h1 : c = '<'
    · subst h1; exact ⟨"lt".data, by rw [hesc]; rfl, by decide, by rfl⟩
    by_cases h2 : c = '>'
    · subst h2; exact ⟨"gt".data, by rw [hesc]; rfl, by decide, by rfl⟩
    by_cases h3 : c = '&'
    · subst h3; exact ⟨"amp".data, by rw [hesc]; rfl, by decide, by rfl⟩
    by_cases h4 : c = squoteChar
    · subst h4; exact ⟨"apos".data, by rw [hesc]; rfl, by decide, by rfl⟩
    by_cases h5 : c = '\"'
    · subst h5; exact ⟨"quot".data, by rw [hesc]; rfl, by decide, by rfl⟩
    have hstd : escapeCharStandard c = '&' :: '#' :: (toDecDigits c.toNat ++ [';']) := by
      unfold escapeCharStandard
      rw [if_neg (by simp [h1]), if_neg (by simp [h2]), if_neg (by simp [h3]),
        if_neg (by simp [h4]), if_neg (by simp [h5])]
    refine ⟨'#' :: toDecDigits c.toNat, ?_, ?_, ?_⟩
    · rw [hesc, hstd]
      rfl
    · rw [cleanFor_singleton]
      intro d hd
      rcases List.mem_cons.mp hd with rfl | hd2
      · decide
      · exact isDigit_ne_semi d (toDecDigitsAux_isDigit 8 c.toNat d hd2)
    · obtain ⟨d, ds, hds⟩ : ∃ d ds, toDecDigits c.toNat = d :: ds := by
        match hh : toDecDigits c.toNat with
        | [] => exact absurd hh (toDecDigitsAux_ne_nil 8 c.toNat (by omega) (by omega))
        | d :: ds => exact ⟨d, ds, rfl⟩
      have hdx : d ≠ 'x' := by
        apply isDigit_ne_x
        apply toDecDigitsAux_isDigit 8 c.toNat
        show d ∈ toDecDigits c.toNat
        rw [hds]
        exact List.mem_cons_self d ds
      rw [hds]
      show decodeEntityBody ('#' :: d :: ds) = Except.ok c
      unfold decodeEntityBody
      rw [if_neg (by simp), if_neg (by simp), if_neg (by simp), if_neg (by simp),
        if_neg (by simp)]
      show (if ('#' : Char) = '#' then _ else _) = _
      rw [if_pos rfl]
      show (if d = 'x' then _ else _) = _
      rw [if_neg hdx]
      rw [show d :: ds = toDecDigits c.toNat from hds.symm]
      rw [show digitsVal decDigitVal 10 (toDecDigits c.toNat) = some c.toNat from
        digitsVal_toDecAux 8 c.toNat (by norm_num; omega)]
      exact charOfCode_toNat c

/-! ### Text-run and attribute-value inversion -/

theorem parseTextRun_cons (fuel : Nat) (c : Char) (r : List Char) :
    parseTextRun (fuel + 1) (c :: r) =
      (if c = '<' then Except.ok ([], c :: r)
      else if c = '&' then
        (do
          let (body, rest) ← scanUntil [';'] r
          let d ← decodeEntityBody body
          let (more, rest2) ← parseTextRun fuel rest
          Except.ok (d :: more, rest2))
      else
        (do
          let (more, rest2) ← parseTextRun fuel r
          Except.ok (c :: more, rest2))) := rfl

theorem parseAttrValue_cons (fuel : Nat) (c : Char) (r : List Char) :
    parseAttrValue (fuel + 1) (c :: r) =
      (if c = '\"' then Except.ok ([], r)
      else if c = '<' then Except.error "raw < in attribute value"
      else if c = '&' then
        (do
          let (body, rest) ← scanUntil [';'] r
          let d ← decodeEntityBody body
          let (more, rest2) ← parseAttrValue fuel rest
          Except.ok (d :: more, rest2))
      else
        (do
          let (more, rest2) ← parseAttrValue fuel r
          Except.ok (c :: more, rest2))) := rfl

theorem parseTextRun_escape (mode : EntityMode) :
    ∀ (s bb : List Char), (bb = [] ∨ ∃ t, bb = '<' :: t) →
      ∃ m, ∀ fuel, m ≤ fuel →
        parseTextRun fuel (escapeText mode s ++ bb) = Except.ok (s, bb)
  | [], bb, hbb => by
    refine ⟨1, fun fuel hf => ?_⟩
    obtain ⟨f, rfl⟩ : ∃ f, fuel = f + 1 := ⟨fuel - 1, by omega⟩
    rcases hbb with rfl | ⟨t, rfl⟩
    · rfl
    · rw [show escapeText mode [] ++ '<' :: t = '<' :: t from rfl]
      rw [parseTextRun, if_pos rfl]
  | c :: s', bb, hbb => by
    obtain ⟨m', hm'⟩ := parseTextRun_escape mode s' bb hbb
    by_cases he : requiresEscaping c = true
    · obtain ⟨body, hb1, hb2, hb3⟩ := escaped_block mode c he
      refine ⟨m' + 1, fun fuel hf => ?_⟩
      obtain ⟨f, rfl⟩ : ∃ f, fuel = f + 1 := ⟨fuel - 1, by omega⟩
      rw [escapeText_cons, hb1]
      have hli : '&' :: (body ++ [';']) ++ escapeText mode s' ++ bb
          = '&' :: (body ++ (';' :: (escapeText mode s' ++ bb))) := by simp
      rw [hli]
      rw [parseTextRun_cons, if_neg (by decide), if_pos rfl]
      rw [show body ++ ';' :: (escapeText mode s' ++ bb)
        = body ++ ([';'] ++ (escapeText mode s' ++ bb)) from rfl]
      rw [scanUntil_exact [';'] (by simp) body _ hb2]
      have hrec := hm' f (by omega)
      show (do
        let d ← decodeEntityBody body
        let (more, rest2) ← parseTextRun f (escapeText mode s' ++ bb)
        Except.ok (d :: more, rest2)) = Except.ok (c :: s', bb)
      rw [hb3, hrec]
      rfl
    · have he' : requiresEscaping c = false := Bool.eq_false_iff.mpr he
      have hne := not_escaped_ne c he'
      refine ⟨m' + 1, fun fuel hf => ?_⟩
      obtain ⟨f, rfl⟩ : ∃ f, fuel = f + 1 := ⟨fuel - 1, by omega⟩
      rw [escapeText_cons, escapeChar_not_escaped mode c he', List.singleton_append,
        List.cons_append]
      rw [parseTextRun_cons, if_neg hne.1, if_neg hne.2.2.1]
      have hrec := hm' f (by omega)
      show (do
        let (more, rest2) ← parseTextRun f (escapeText mode s' ++ bb)
        Except.ok (c :: more, rest2)) = Except.ok (c :: s', bb)
      rw [hrec]
      rfl

theorem parseAttrValue_escape (mode : EntityMode) :
    ∀ (s t : List Char),
      ∃ m, ∀ fuel, m ≤ fuel →
        parseAttrValue fuel (escapeText mode s ++ '\"' :: t) = Except.ok (s, t)
  | [], t => by
    refine ⟨1, fun fuel hf => ?_⟩
    obtain ⟨f, rfl⟩ : ∃ f, fuel = f + 1 := ⟨fuel - 1, by omega⟩
    rw [show escapeText mode [] ++ '\"' :: t = '\"' :: t from rfl]
    rw [parseAttrValue_cons, if_pos rfl]
  | c :: s', t => by
    obtain ⟨m', hm'⟩ := parseAttrValue_escape mode s' t
    by_cases he : requiresEscaping c = true
    · obtain ⟨body, hb1, hb2, hb3⟩ := escaped_block mode c he
      refine ⟨m' + 1, fun fuel hf => ?_⟩
      obtain ⟨f, rfl⟩ : ∃ f, fuel = f + 1 := ⟨fuel - 1, by omega⟩
      rw [escapeText_cons, hb1]
      have hli : '&' :: (body ++ [';']) ++ escapeText mode s' ++ '\"' :: t
          = '&' :: (body ++ (';' :: (escapeText mode s' ++ '\"' :: t))) := by simp
      rw [hli]
      rw [parseAttrValue_cons, if_neg (by decide), if_neg (by decide), if_pos rfl]
      rw [show body ++ ';' :: (escapeText mode s' ++ '\"' :: t)
        = body ++ ([';'] ++ (escapeText mode s' ++ '\"' :: t)) from rfl]
      rw [scanUntil_exact [';'] (by simp) body _ hb2]
      have hrec := hm' f (by omega)
      show (do
        let d ← decodeEntityBody body
        let (more, rest2) ← parseAttrValue f (escapeText mode s' ++ '\"' :: t)
        Except.ok (d :: more, rest2)) = Except.ok (c :: s', t)
      rw [hb3, hrec]
      rfl
    · have he' : requiresEscaping c = false := Bool.eq_false_iff.mpr he
      have hne := not_escaped_ne c he'
      refine ⟨m' + 1, fun fuel hf => ?_⟩
      obtain ⟨f, rfl⟩ : ∃ f, fuel = f + 1 := ⟨fuel - 1, by omega⟩
      rw [escapeText_cons, escapeChar_not_escaped mode c he', List.singleton_append,
        List.cons_append]
      rw [parseAttrValue_cons, if_neg hne.2.2.2.2, if_neg hne.1, if_neg hne.2.2.1]
      have hrec := hm' f (by omega)
      show (do
        let (more, rest2) ← parseAttrValue f (escapeText mode s' ++ '\"' :: t)
        Except.ok (c :: more, rest2)) = Except.ok (c :: s', t)
      rw [hrec]
      rfl

theorem parseTextRun_escape_all (mode : EntityMode) :
    ∀ (s : List Char), ∃ m, ∀ (bb : List Char), (bb = [] ∨ ∃ t, bb = '<' :: t) →
      ∀ fuel, m ≤ fuel → parseTextRun fuel (escapeText mode s ++ bb) = Except.ok (s, bb)
  | [] => by
    refine ⟨1, fun bb hbb fuel hf => ?_⟩
    obtain ⟨f, rfl⟩ : ∃ f, fuel = f + 1 := ⟨fuel - 1, by omega⟩
    rcases hbb with rfl | ⟨t, rfl⟩
    · rfl
    · rw [show escapeText mode [] ++ '<' :: t = '<' :: t from rfl]
      rw [parseTextRun, if_pos rfl]
  | c :: s' => by
    obtain ⟨m', hm'⟩ := parseTextRun_escape_all mode s'
    by_cases he : requiresEscaping c = true
    · obtain ⟨body, hb1, hb2, hb3⟩ := escaped_block mode c he
      refine ⟨m' + 1, fun bb hbb fuel hf => ?_⟩
      obtain ⟨f, rfl⟩ : ∃ f, fuel = f + 1 := ⟨fuel - 1, by omega⟩
      rw [escapeText_cons, hb1]
      have hli : '&' :: (body ++ [';']) ++ escapeText mode s' ++ bb
          = '&' :: (body ++ (';' :: (escapeText mode s' ++ bb))) := by simp
      rw [hli]
      rw [parseTextRun_cons, if_neg (by decide), if_pos rfl]
      rw [show body ++ ';' :: (escapeText mode s' ++ bb)
        = body ++ ([';'] ++ (escapeText mode s' ++ bb)) from rfl]
      rw [scanUntil_exact [';'] (by simp) body _ hb2]
      have hrec := hm' bb hbb f (by omega)
      show (do
        let d ← decodeEntityBody body
        let (more, rest2) ← parseTextRun f (escapeText mode s' ++ bb)
        Except.ok (d :: more, rest2)) = Except.ok (c :: s', bb)
      rw [hb3, hrec]
      rfl
    · have he' : requiresEscaping c = false := Bool.eq_false_iff.mpr he
      have hne := not_escaped_ne c he'
      refine ⟨m' + 1, fun bb hbb fuel hf => ?_⟩
      obtain ⟨f, rfl⟩ : ∃ f, fuel = f + 1 := ⟨fuel - 1, by omega⟩
      rw [escapeText_cons, escapeChar_not_escaped mode c he', List.singleton_append,
        List.cons_append]
      rw [parseTextRun_cons, if_neg hne.1, if_neg hne.2.2.1]
      have hrec := hm' bb hbb f (by omega)
      show (do
        let (more, rest2) ← parseTextRun f (escapeText mode s' ++ bb)
        Except.ok (c :: more, rest2)) = Except.ok (c :: s', bb)
      rw [hrec]
      rfl

theorem parseAttrValue_escape_all (mode : EntityMode) :
    ∀ (s : List Char), ∃ m, ∀ (t : List Char) (fuel : Nat), m ≤ fuel →
      parseAttrValue fuel (escapeText mode s ++ '\"' :: t) = Except.ok (s, t)
  | [] => by
    refine ⟨1, fun t fuel hf => ?_⟩
    obtain ⟨f, rfl⟩ : ∃ f, fuel = f + 1 := ⟨fuel - 1, by omega⟩
    rw [show escapeText mode [] ++ '\"' :: t = '\"' :: t from rfl]
    rw [parseAttrValue_cons, if_pos rfl]
  | c :: s' => by
    obtain ⟨m', hm'⟩ := parseAttrValue_escape_all mode s'
    by_cases he : requiresEscaping c = true
    · obtain ⟨body, hb1, hb2, hb3⟩ := escaped_block mode c he
      refine ⟨m' + 1, fun t fuel hf => ?_⟩
      obtain ⟨f, rfl⟩ : ∃ f, fuel = f + 1 := ⟨fuel - 1, by omega⟩
      rw [escapeText_cons, hb1]
      have hli : '&' :: (body ++ [';']) ++ escapeText mode s' ++ '\"' :: t
          = '&' :: (body ++ (';' :: (escapeText mode s' ++ '\"' :: t))) := by simp
      rw [hli]
      rw [parseAttrValue_cons, if_neg (by decide), if_neg (by decide), if_pos rfl]
      rw [show body ++ ';' :: (escapeText mode s' ++ '\"' :: t)
        = body ++ ([';'] ++ (escapeText mode s' ++ '\"' :: t)) from rfl]
      rw [scanUntil_exact [';'] (by simp) body _ hb2]
      have hrec := hm' t f (by omega)
      show (do
        let d ← decodeEntityBody body
        let (more, rest2) ← parseAttrValue f (escapeText mode s' ++ '\"' :: t)
        Except.ok (d :: more, rest2)) = Except.ok (c :: s', t)
      rw [hb3, hrec]
      rfl
    · have he' : requiresEscaping c = false := Bool.eq_false_iff.mpr he
      have hne := not_escaped_ne c he'
      refine ⟨m' + 1, fun t fuel hf => ?_⟩
      obtain ⟨f, rfl⟩ : ∃ f, fuel = f + 1 := ⟨fuel - 1, by omega⟩
      rw [escapeText_cons, escapeChar_not_escaped mode c he', List.singleton_append,
        List.cons_append]
      rw [parseAttrValue_cons, if_neg hne.2.2.2.2, if_neg hne.1, if_neg hne.2.2.1]
      have hrec := hm' t f (by omega)
      show (do
        let (more, rest2) ← parseAttrValue f (escapeText mode s' ++ '\"' :: t)
        Except.ok (c :: more, rest2)) = Except.ok (c :: s', t)
      rw [hrec]
      rfl

/-! ### Attribute-list inversion -/

theorem isWs_not_nameChar (c : Char) (h : isWs c = true) : isNameChar c = false := by
  rcases isWs_cases c h with rfl | rfl | rfl | rfl <;> decide

theorem nameChar_not_ws (c : Char) (h : isNameChar c = true) : isWs c = false := by
  by_cases hw : isWs c = true
  · rw [isWs_not_nameChar c hw] at h
    cases h
  · exact Bool.eq_false_iff.mpr hw

theorem nameChar_ne_slash (c : Char) (h : isNameChar c = true) : c ≠ '/' := by
  intro hc; subst hc; exact absurd h (by decide)

theorem nameChar_ne_gt (c : Char) (h : isNameChar c = true) : c ≠ '>' := by
  intro hc; subst hc; exact absurd h (by decide)

theorem wfName_spec (s : String) (h : wfName s = true) :
    s.data ≠ [] ∧ ∀ c ∈ s.data, isNameChar c = true := by
  unfold wfName at h
  rw [Bool.and_eq_true] at h
  obtain ⟨h1, h2⟩ := h
  constructor
  · intro hc
    rw [hc] at h1
    cases h1
  · intro c hc
    exact List.all_eq_true.mp h2 c hc

theorem parseAttrsCore_cons (fuel : Nat) (c : Char) (r : List Char) :
    parseAttrsCore (fuel + 1) (c :: r) =
      (if c = '/' then
        (match r with
         | '>' :: r2 => Except.ok ([], true, r2)
         | _ => Except.error "malformed start tag")
      else if c = '>' then Except.ok ([], false, r)
      else
        (let rest := c :: r
         let name := rest.takeWhile isNameChar
         if name = [] then Except.error "malformed start tag"
         else
           match rest.dropWhile isNameChar with
           | '=' :: '\"' :: r2 =>
             (do
               let (value, r3) ← parseAttrValue fuel r2
               let (attrs, selfClose, r4) ← parseAttrsCore fuel (skipWsL r3)
               if attrs.any (fun a => a.1 = String.mk name) then
                 Except.error "duplicate attribute"
               else
                 Except.ok ((String.mk name, String.mk value) :: attrs, selfClose, r4))
           | _ => Except.error "malformed attribute")) := rfl

theorem parseAttrsCore_inv (mode : EntityMode) (ws : List Char)
    (hws : ∀ c ∈ ws, isWs c = true) :
    ∀ (attrs : List (String × String)), (∀ a ∈ attrs, wfName a.1 = true) →
      namesNodup attrs = true →
      ∀ (flag : Bool) (wsEnd rest : List Char), (∀ c ∈ wsEnd, isWs c = true) →
      ∃ m, ∀ fuel, m ≤ fuel →
        parseAttrsCore fuel
          (skipWsL (attrs.flatMap
            (fun a => ws ++ (a.1.data ++ '=' :: '\"' :: (escapeText mode a.2.data ++ ['\"'])))
            ++ (wsEnd ++ (if flag then '/' :: '>' :: rest else '>' :: rest)))) =
          Except.ok (attrs, flag, rest)
  | [], _, _, flag, wsEnd, rest, hwsEnd => by
    refine ⟨1, fun fuel hf => ?_⟩
    obtain ⟨f, rfl⟩ : ∃ f, fuel = f + 1 := ⟨fuel - 1, by omega⟩
    rw [List.flatMap_nil, List.nil_append,
      show skipWsL (wsEnd ++ (if flag then '/' :: '>' :: rest else '>' :: rest))
        = skipWsL (if flag then '/' :: '>' :: rest else '>' :: rest) from
        dropWhile_append_of_all isWs wsEnd _ hwsEnd]
    match flag with
    | true =>
      rw [if_pos rfl, skipWsL_of_head_neg _ _ (by decide), parseAttrsCore_cons, if_pos rfl]
      rfl
    | false =>
      rw [if_neg (by simp), skipWsL_of_head_neg _ _ (by decide), parseAttrsCore_cons,
        if_neg (by decide), if_pos rfl]
  | a :: attrs', hwf, hnd, flag, wsEnd, rest, hwsEnd => by
    have hwfa := wfName_spec a.1 (hwf a (List.mem_cons_self a attrs'))
    obtain ⟨c0, nm, hnm⟩ : ∃ c0 nm, a.1.data = c0 :: nm := by
      match hh : a.1.data with
      | [] => exact absurd hh hwfa.1
      | c0 :: nm => exact ⟨c0, nm, rfl⟩
    have hc0 : isNameChar c0 = true := hwfa.2 c0 (by rw [hnm]; exact List.mem_cons_self _ _)
    have hnd' : namesNodup attrs' = true := by
      unfold namesNodup at hnd
      rw [Bool.and_eq_true] at hnd
      exact hnd.2
    have hdup : (attrs'.any fun b => b.1 = a.1) = false := by
      unfold namesNodup at hnd
      rw [Bool.and_eq_true] at hnd
      simpa using hnd.1
    obtain ⟨m2, hm2⟩ := parseAttrsCore_inv mode ws hws attrs'
      (fun b hb => hwf b (List.mem_cons_of_mem a hb)) hnd' flag wsEnd rest hwsEnd
    obtain ⟨m1, hm1⟩ := parseAttrValue_escape mode a.2.data
      (attrs'.flatMap
        (fun b => ws ++ (b.1.data ++ '=' :: '\"' :: (escapeText mode b.2.data ++ ['\"'])))
        ++ (wsEnd ++ (if flag then '/' :: '>' :: rest else '>' :: rest)))
    refine ⟨m1 + m2 + 1, fun fuel hf => ?_⟩
    obtain ⟨f, rfl⟩ : ∃ f, fuel = f + 1 := ⟨fuel - 1, by omega⟩
    set REST := attrs'.flatMap
        (fun b => ws ++ (b.1.data ++ '=' :: '\"' :: (escapeText mode b.2.data ++ ['\"'])))
        ++ (wsEnd ++ (if flag then '/' :: '>' :: rest else '>' :: rest)) with hREST
    set Y := '=' :: '\"' :: (escapeText mode a.2.data ++ ('\"' :: REST)) with hY
    rw [List.flatMap_cons]
    have hassoc : (ws ++ (a.1.data ++ '=' :: '\"' :: (escapeText mode a.2.data ++ ['\"'])) ++
        attrs'.flatMap
          (fun b => ws ++ (b.1.data ++ '=' :: '\"' :: (escapeText mode b.2.data ++ ['\"'])))) ++
        (wsEnd ++ if flag = true then '/' :: '>' :: rest else '>' :: rest)
        = ws ++ (a.1.data ++ Y) := by
      rw [hY, hREST]
      simp
    rw [hassoc]
    rw [show skipWsL (ws ++ (a.1.data ++ Y)) = skipWsL (a.1.data ++ Y) from
      dropWhile_append_of_all isWs ws _ hws]
    rw [hnm, List.cons_append]
    rw [skipWsL_of_head_neg c0 _ (nameChar_not_ws c0 hc0)]
    rw [parseAttrsCore_cons, if_neg (nameChar_ne_slash c0 hc0), if_neg (nameChar_ne_gt c0 hc0)]
    have hall : ∀ c ∈ a.1.data, isNameChar c = true := hwfa.2
    have htake : (c0 :: (nm ++ Y)).takeWhile isNameChar = a.1.data := by
      rw [← List.cons_append, ← hnm, takeWhile_append_of_all isNameChar a.1.data Y hall, hY,
        takeWhile_cons_of_neg isNameChar _ _ (by decide), List.append_nil]
    have hdrop : (c0 :: (nm ++ Y)).dropWhile isNameChar = Y := by
      rw [← List.cons_append, ← hnm, dropWhile_append_of_all isNameChar a.1.data Y hall, hY,
        dropWhile_cons_of_neg isNameChar _ _ (by decide)]
    simp only [htake, hdrop]
    rw [if_neg hwfa.1]
    have hval := hm1 f (by omega)
    have hrec := hm2 f (by omega)
    show (do
      let (value, r3) ← parseAttrValue f (escapeText mode a.2.data ++ '\"' :: REST)
      let (attrs, selfClose, r4) ← parseAttrsCore f (skipWsL r3)
      if attrs.any (fun b => b.1 = String.mk a.1.data) then
        Except.error "duplicate attribute"
      else
        Except.ok ((String.mk a.1.data, String.mk value) :: attrs, selfClose, r4)) =
      Except.ok (a :: attrs', flag, rest)
    rw [hval]
    show (do
      let (attrs, selfClose, r4) ← parseAttrsCore f (skipWsL REST)
      if attrs.any (fun b => b.1 = String.mk a.1.data) then
        Except.error "duplicate attribute"
      else
        Except.ok ((String.mk a.1.data, String.mk a.2.data) :: attrs, selfClose, r4)) =
      Except.ok (a :: attrs', flag, rest)
    rw [hrec]
    show (if attrs'.any (fun b => b.1 = String.mk a.1.data) then
        Except.error "duplicate attribute"
      else
        Except.ok ((String.mk a.1.data, String.mk a.2.data) :: attrs', flag, rest)) =
      Except.ok (a :: attrs', flag, rest)
    rw [show String.mk a.1.data = a.1 from rfl, show String.mk a.2.data = a.2 from rfl]
    rw [if_neg (by rw [hdup]; simp)]

theorem parseAttrsCore_inv_all (mode : EntityMode) (ws : List Char)
    (hws : ∀ c ∈ ws, isWs c = true) :
    ∀ (attrs : List (String × String)), (∀ a ∈ attrs, wfName a.1 = true) →
      namesNodup attrs = true →
      ∃ m, ∀ (flag : Bool) (wsEnd rest : List Char), (∀ c ∈ wsEnd, isWs c = true) →
        ∀ fuel, m ≤ fuel →
        parseAttrsCore fuel
          (skipWsL (attrs.flatMap
            (fun a => ws ++ (a.1.data ++ '=' :: '\"' :: (escapeText mode a.2.data ++ ['\"'])))
            ++ (wsEnd ++ (if flag then '/' :: '>' :: rest else '>' :: rest)))) =
          Except.ok (attrs, flag, rest)
  | [], _, _ => by
    refine ⟨1, fun flag wsEnd rest hwsEnd fuel hf => ?_⟩
    obtain ⟨f, rfl⟩ : ∃ f, fuel = f + 1 := ⟨fuel - 1, by omega⟩
    rw [List.flatMap_nil, List.nil_append,
      show skipWsL (wsEnd ++ (if flag then '/' :: '>' :: rest else '>' :: rest))
        = skipWsL (if flag then '/' :: '>' :: rest else '>' :: rest) from
        dropWhile_append_of_all isWs wsEnd _ hwsEnd]
    match flag with
    | true =>
      rw [if_pos rfl, skipWsL_of_head_neg _ _ (by decide), parseAttrsCore_cons, if_pos rfl]
      rfl
    | false =>
      rw [if_neg (by simp), skipWsL_of_head_neg _ _ (by decide), parseAttrsCore_cons,
        if_neg (by decide), if_pos rfl]
  | a :: attrs', hwf, hnd => by
    have hwfa := wfName_spec a.1 (hwf a (List.mem_cons_self a attrs'))
    obtain ⟨c0, nm, hnm⟩ : ∃ c0 nm, a.1.data = c0 :: nm := by
      match hh : a.1.data with
      | [] => exact absurd hh hwfa.1
      | c0 :: nm => exact ⟨c0, nm, rfl⟩
    have hc0 : isNameChar c0 = true := hwfa.2 c0 (by rw [hnm]; exact List.mem_cons_self _ _)
    have hnd' : namesNodup attrs' = true := by
      unfold namesNodup at hnd
      rw [Bool.and_eq_true] at hnd
      exact hnd.2
    have hdup : (attrs'.any fun b => b.1 = a.1) = false := by
      unfold namesNodup at hnd
      rw [Bool.and_eq_true] at hnd
      simpa using hnd.1
    obtain ⟨m2, hm2⟩ := parseAttrsCore_inv_all mode ws hws attrs'
      (fun b hb => hwf b (List.mem_cons_of_mem a hb)) hnd'
    obtain ⟨m1, hm1⟩ := parseAttrValue_escape_all mode a.2.data
    refine ⟨m1 + m2 + 1, fun flag wsEnd rest hwsEnd fuel hf => ?_⟩
    obtain ⟨f, rfl⟩ : ∃ f, fuel = f + 1 := ⟨fuel - 1, by omega⟩
    set REST := attrs'.flatMap
        (fun b => ws ++ (b.1.data ++ '=' :: '\"' :: (escapeText mode b.2.data ++ ['\"'])))
        ++ (wsEnd ++ (if flag then '/' :: '>' :: rest else '>' :: rest)) with hREST
    set Y := '=' :: '\"' :: (escapeText mode a.2.data ++ ('\"' :: REST)) with hY
    rw [List.flatMap_cons]
    have hassoc : (ws ++ (a.1.data ++ '=' :: '\"' :: (escapeText mode a.2.data ++ ['\"'])) ++
        attrs'.flatMap
          (fun b => ws ++ (b.1.data ++ '=' :: '\"' :: (escapeText mode b.2.data ++ ['\"'])))) ++
        (wsEnd ++ if flag = true then '/' :: '>' :: rest else '>' :: rest)
        = ws ++ (a.1.data ++ Y) := by
      rw [hY, hREST]
      simp
    rw [hassoc]
    rw [show skipWsL (ws ++ (a.1.data ++ Y)) = skipWsL (a.1.data ++ Y) from
      dropWhile_append_of_all isWs ws _ hws]
    rw [hnm, List.cons_append]
    rw [skipWsL_of_head_neg c0 _ (nameChar_not_ws c0 hc0)]
    rw [parseAttrsCore_cons, if_neg (nameChar_ne_slash c0 hc0), if_neg (nameChar_ne_gt c0 hc0)]
    have hall : ∀ c ∈ a.1.data, isNameChar c = true := hwfa.2
    have htake : (c0 :: (nm ++ Y)).takeWhile isNameChar = a.1.data := by
      rw [← List.cons_append, ← hnm, takeWhile_append_of_all isNameChar a.1.data Y hall, hY,
        takeWhile_cons_of_neg isNameChar _ _ (by decide), List.append_nil]
    have hdrop : (c0 :: (nm ++ Y)).dropWhile isNameChar = Y := by
      rw [← List.cons_append, ← hnm, dropWhile_append_of_all isNameChar a.1.data Y hall, hY,
        dropWhile_cons_of_neg isNameChar _ _ (by decide)]
    simp only [htake, hdrop]
    rw [if_neg hwfa.1]
    have hval := hm1 REST f (by omega)
    have hrec := hm2 flag wsEnd rest hwsEnd f (by omega)
    show (do
      let (value, r3) ← parseAttrValue f (escapeText mode a.2.data ++ '\"' :: REST)
      let (attrs, selfClose, r4) ← parseAttrsCore f (skipWsL r3)
      if attrs.any (fun b => b.1 = String.mk a.1.data) then
        Except.error "duplicate attribute"
      else
        Except.ok ((String.mk a.1.data, String.mk value) :: attrs, selfClose, r4)) =
      Except.ok (a :: attrs', flag, rest)
    rw [hval]
    show (do
      let (attrs, selfClose, r4) ← parseAttrsCore f (skipWsL REST)
      if attrs.any (fun b => b.1 = String.mk a.1.data) then
        Except.error "duplicate attribute"
      else
        Except.ok ((String.mk a.1.data, String.mk a.2.data) :: attrs, selfClose, r4)) =
      Except.ok (a :: attrs', flag, rest)
    rw [hrec]
    show (if attrs'.any (fun b => b.1 = String.mk a.1.data) then
        Except.error "duplicate attribute"
      else
        Except.ok ((String.mk a.1.data, String.mk a.2.data) :: attrs', flag, rest)) =
      Except.ok (a :: attrs', flag, rest)
    rw [show String.mk a.1.data = a.1 from rfl, show String.mk a.2.data = a.2 from rfl]
    rw [if_neg (by rw [hdup]; simp)]

theorem parseAttrs_inline_gt_all (mode : EntityMode) (attrs : List (String × String))
    (hwf : ∀ a ∈ attrs, wfName a.1 = true) (hnd : namesNodup attrs = true) :
    ∃ m, ∀ (rest : List Char) (fuel : Nat), m ≤ fuel →
      parseAttrs fuel (attrsInline mode attrs ++ '>' :: rest) = Except.ok (attrs, false, rest) := by
  obtain ⟨m, hm⟩ := parseAttrsCore_inv_all mode [' ']
    (by intro c hc; simp at hc; subst hc; decide) attrs hwf hnd
  refine ⟨m, fun rest fuel hf => ?_⟩
  have h := hm false [] rest (by intro c hc; simp at hc) fuel hf
  show parseAttrsCore fuel (skipWsL (attrsInline mode attrs ++ '>' :: rest)) = _
  have hin : attrsInline mode attrs ++ '>' :: rest
      = attrs.flatMap
          (fun a => [' '] ++ (a.1.data ++ '=' :: '\"' :: (escapeText mode a.2.data ++ ['\"'])))
        ++ ([] ++ (if false then '/' :: '>' :: rest else '>' :: rest)) := by
    simp [attrsInline]
  rw [hin]
  exact h

theorem parseAttrs_selfclose_all (mode : EntityMode) (attrs : List (String × String))
    (hwf : ∀ a ∈ attrs, wfName a.1 = true) (hnd : namesNodup attrs = true) (pad : Nat) :
    ∃ m, ∀ (rest : List Char) (fuel : Nat), m ≤ fuel →
      parseAttrs fuel (attrsInline mode attrs ++ spaces pad ++ '/' :: '>' :: rest)
        = Except.ok (attrs, true, rest) := by
  obtain ⟨m, hm⟩ := parseAttrsCore_inv_all mode [' ']
    (by intro c hc; simp at hc; subst hc; decide) attrs hwf hnd
  refine ⟨m, fun rest fuel hf => ?_⟩
  have h := hm true (spaces pad) rest (fun c hc => mem_spaces_isWs pad c hc) fuel hf
  show parseAttrsCore fuel
    (skipWsL (attrsInline mode attrs ++ spaces pad ++ '/' :: '>' :: rest)) = _
  have hin : attrsInline mode attrs ++ spaces pad ++ '/' :: '>' :: rest
      = attrs.flatMap
          (fun a => [' '] ++ (a.1.data ++ '=' :: '\"' :: (escapeText mode a.2.data ++ ['\"'])))
        ++ (spaces pad ++ (if true then '/' :: '>' :: rest else '>' :: rest)) := by
    simp [attrsInline]
  rw [hin]
  exact h

theorem parseAttrs_inline_gt (mode : EntityMode) (attrs : List (String × String))
    (hwf : ∀ a ∈ attrs, wfName a.1 = true) (hnd : namesNodup attrs = true)
    (rest : List Char) :
    ∃ m, ∀ fuel, m ≤ fuel →
      parseAttrs fuel (attrsInline mode attrs ++ '>' :: rest) = Except.ok (attrs, false, rest) := by
  obtain ⟨m, hm⟩ := parseAttrsCore_inv mode [' '] (by intro c hc; simp at hc; subst hc; decide)
    attrs hwf hnd false [] rest (by intro c hc; simp at hc)
  refine ⟨m, fun fuel hf => ?_⟩
  have h := hm fuel hf
  show parseAttrsCore fuel (skipWsL (attrsInline mode attrs ++ '>' :: rest)) = _
  have hin : attrsInline mode attrs ++ '>' :: rest
      = attrs.flatMap
          (fun a => [' '] ++ (a.1.data ++ '=' :: '\"' :: (escapeText mode a.2.data ++ ['\"'])))
        ++ ([] ++ (if false then '/' :: '>' :: rest else '>' :: rest)) := by
    simp [attrsInline]
  rw [hin]
  exact h

theorem parseAttrs_selfclose (mode : EntityMode) (attrs : List (String × String))
    (hwf : ∀ a ∈ attrs, wfName a.1 = true) (hnd : namesNodup attrs = true)
    (pad : Nat) (rest : List Char) :
    ∃ m, ∀ fuel, m ≤ fuel →
      parseAttrs fuel (attrsInline mode attrs ++ spaces pad ++ '/' :: '>' :: rest)
        = Except.ok (attrs, true, rest) := by
  obtain ⟨m, hm⟩ := parseAttrsCore_inv mode [' '] (by intro c hc; simp at hc; subst hc; decide)
    attrs hwf hnd true (spaces pad) rest (fun c hc => mem_spaces_isWs pad c hc)
  refine ⟨m, fun fuel hf => ?_⟩
  have h := hm fuel hf
  show parseAttrsCore fuel
    (skipWsL (attrsInline mode attrs ++ spaces pad ++ '/' :: '>' :: rest)) = _
  have hin : attrsInline mode attrs ++ spaces pad ++ '/' :: '>' :: rest
      = attrs.flatMap
          (fun a => [' '] ++ (a.1.data ++ '=' :: '\"' :: (escapeText mode a.2.data ++ ['\"'])))
        ++ (spaces pad ++ (if true then '/' :: '>' :: rest else '>' :: rest)) := by
    simp [attrsInline]
  rw [hin]
  exact h

theorem wrapped_shift (mode : EntityMode) (u : List Char) :
    ∀ (attrs : List (String × String)) (X : List Char),
      '\n' :: (wrappedAttrLines mode u attrs ++ X)
        = attrs.flatMap
            (fun a => ('\n' :: u) ++ (a.1.data ++ '=' :: '\"' :: (escapeText mode a.2.data ++ ['\"'])))
          ++ ('\n' :: X)
  | [], X => by simp [wrappedAttrLines]
  | a :: attrs', X => by
    rw [show wrappedAttrLines mode u (a :: attrs')
        = (u ++ a.1.data ++ '=' :: '\"' :: (escapeText mode a.2.data ++ ['\"', '\n']))
          ++ wrappedAttrLines mode u attrs' by simp [wrappedAttrLines]]
    rw [List.flatMap_cons]
    have := wrapped_shift mode u attrs' X
    simp only [List.append_assoc, List.cons_append] at this ⊢
    rw [← this]
    simp

theorem parseAttrs_wrapped (mode : EntityMode) (attrs : List (String × String))
    (hwf : ∀ a ∈ attrs, wfName a.1 = true) (hnd : namesNodup attrs = true)
    (kIn kOut : Nat) (rest : List Char) :
    ∃ m, ∀ fuel, m ≤ fuel →
      parseAttrs fuel
        ('\n' :: (wrappedAttrLines mode (spaces kIn) attrs ++ (spaces kOut ++ '>' :: rest)))
        = Except.ok (attrs, false, rest) := by
  obtain ⟨m, hm⟩ := parseAttrsCore_inv mode ('\n' :: spaces kIn)
    (by
      intro c hc
      rcases List.mem_cons.mp hc with rfl | hc2
      · decide
      · exact mem_spaces_isWs kIn c hc2)
    attrs hwf hnd false ('\n' :: spaces kOut) rest
    (by
      intro c hc
      rcases List.mem_cons.mp hc with rfl | hc2
      · decide
      · exact mem_spaces_isWs kOut c hc2)
  refine ⟨m, fun fuel hf => ?_⟩
  have h := hm fuel hf
  show parseAttrsCore fuel
    (skipWsL ('\n' :: (wrappedAttrLines mode (spaces kIn) attrs ++ (spaces kOut ++ '>' :: rest)))) = _
  rw [wrapped_shift mode (spaces kIn) attrs (spaces kOut ++ '>' :: rest)]
  have hin : attrs.flatMap
        (fun a => ('\n' :: spaces kIn) ++ (a.1.data ++ '=' :: '\"' :: (escapeText mode a.2.data ++ ['\"'])))
      ++ ('\n' :: (spaces kOut ++ '>' :: rest))
      = attrs.flatMap
          (fun a => ('\n' :: spaces kIn) ++ (a.1.data ++ '=' :: '\"' :: (escapeText mode a.2.data ++ ['\"'])))
        ++ (('\n' :: spaces kOut) ++ (if false then '/' :: '>' :: rest else '>' :: rest)) := by
    simp
  rw [hin]
  exact h

theorem parseAttrs_wrapped_all (mode : EntityMode) (attrs : List (String × String))
    (hwf : ∀ a ∈ attrs, wfName a.1 = true) (hnd : namesNodup attrs = true)
    (kIn kOut : Nat) :
    ∃ m, ∀ (rest : List Char) (fuel : Nat), m ≤ fuel →
      parseAttrs fuel
        ('\n' :: (wrappedAttrLines mode (spaces kIn) attrs ++ (spaces kOut ++ '>' :: rest)))
        = Except.ok (attrs, false, rest) := by
  obtain ⟨m, hm⟩ := parseAttrsCore_inv_all mode ('\n' :: spaces kIn)
    (by
      intro c hc
      rcases List.mem_cons.mp hc with rfl | hc2
      · decide
      · exact mem_spaces_isWs kIn c hc2)
    attrs hwf hnd
  refine ⟨m, fun rest fuel hf => ?_⟩
  have h := hm false ('\n' :: spaces kOut) rest
    (by
      intro c hc
      rcases List.mem_cons.mp hc with rfl | hc2
      · decide
      · exact mem_spaces_isWs kOut c hc2) fuel hf
  show parseAttrsCore fuel
    (skipWsL ('\n' :: (wrappedAttrLines mode (spaces kIn) attrs ++ (spaces kOut ++ '>' :: rest)))) = _
  rw [wrapped_shift mode (spaces kIn) attrs (spaces kOut ++ '>' :: rest)]
  have hin : attrs.flatMap
        (fun a => ('\n' :: spaces kIn) ++ (a.1.data ++ '=' :: '\"' :: (escapeText mode a.2.data ++ ['\"'])))
      ++ ('\n' :: (spaces kOut ++ '>' :: rest))
      = attrs.flatMap
          (fun a => ('\n' :: spaces kIn) ++ (a.1.data ++ '=' :: '\"' :: (escapeText mode a.2.data ++ ['\"'])))
        ++ (('\n' :: spaces kOut) ++ (if false then '/' :: '>' :: rest else '>' :: rest)) := by
    simp
  rw [hin]
  exact h

/-! ### Content inversion: simple inline children -/

theorem parseNodes_cons (fuel : Nat) (c : Char) (r : List Char) :
    parseNodes (fuel + 1) (c :: r) =
      (if c = '<' then
        match r with
        | [] => Except.error "lone < at end of input"
        | c2 :: r2 =>
          if c2 = '/' then Except.ok (NodeList.nil, c :: r)
          else if c2 = '!' then
            match r2 with
            | '-' :: '-' :: r3 =>
              (do
                let (body, rest) ← scanUntil "-->".data r3
                let (siblings, rest2) ← parseNodes fuel rest
                Except.ok (NodeList.cons (Node.comment (String.mk body)) siblings, rest2))
            | '[' :: 'C' :: 'D' :: 'A' :: 'T' :: 'A' :: '[' :: r3 =>
              (do
                let (body, rest) ← scanUntil "]]>".data r3
                let (siblings, rest2) ← parseNodes fuel rest
                Except.ok (NodeList.cons (Node.cdata (String.mk body)) siblings, rest2))
            | _ => Except.error "unexpected markup declaration in content"
          else if c2 = '?' then
            (do
              let (raw, rest) ← scanUntil "?>".data r2
              let target := raw.takeWhile fun d => !isWs d
              let dataPart :=
                match raw.dropWhile (fun d => !isWs d) with
                | [] => []
                | _ :: t => t
              let (siblings, rest2) ← parseNodes fuel rest
              Except.ok
                (NodeList.cons (Node.pi (String.mk target) (String.mk dataPart)) siblings, rest2))
          else
            (do
              let (name, attrs, children, rest) ← parseElement fuel r
              let (siblings, rest2) ← parseNodes fuel rest
              Except.ok (NodeList.cons (Node.element name attrs children) siblings, rest2))
      else
        (do
          let (txt, rest) ← parseTextRun fuel (c :: r)
          let (siblings, rest2) ← parseNodes fuel rest
          Except.ok (NodeList.cons (Node.text (String.mk txt)) siblings, rest2))) := rfl

theorem wfList_cons_spec (n : Node) (rest : NodeList) (h : wfList (NodeList.cons n rest) = true) :
    wfNode n = true ∧ wfList rest = true ∧ (isTextNode n && headIsText rest) = false := by
  unfold wfList at h
  rw [Bool.and_eq_true, Bool.and_eq_true] at h
  refine ⟨h.1.1, h.1.2, ?_⟩
  rw [← Bool.not_eq_true']
  exact h.2

theorem allSimple_cons_spec (n : Node) (rest : NodeList)
    (h : allSimple (NodeList.cons n rest) = true) : allSimple rest = true := by
  unfold allSimple at h
  rw [Bool.and_eq_true] at h
  exact h.2

theorem escapeText_head (mode : EntityMode) (s : List Char) (hs : s ≠ []) :
    ∃ h t, escapeText mode s = h :: t ∧ h ≠ '<' := by
  match s, hs with
  | c :: s', _ =>
    rw [escapeText_cons]
    by_cases he : requiresEscaping c = true
    · obtain ⟨body, hb1, _, _⟩ := escaped_block mode c he
      rw [hb1]
      exact ⟨'&', _, rfl, by decide⟩
    · rw [escapeChar_not_escaped mode c (Bool.eq_false_iff.mpr he)]
      refine ⟨c, _, rfl, (not_escaped_ne c (Bool.eq_false_iff.mpr he)).1⟩

/-- The byte stream of simple inline children glued to an end-tag boundary
starts with `<` unless it is the boundary itself. -/
theorem inline_head_lt (mode : EntityMode) (ch : NodeList) (hs : allSimple ch = true)
    (hht : headIsText ch = false) (X : List Char) :
    ∃ t, inlineList mode ch ++ '<' :: X = '<' :: t := by
  match ch with
  | NodeList.nil => exact ⟨X, rfl⟩
  | NodeList.cons (Node.text s) rest => simp [headIsText, isTextNode] at hht
  | NodeList.cons (Node.comment s) rest =>
    rw [show inlineList mode (NodeList.cons (Node.comment s) rest)
      = ("<!--".data ++ s.data ++ "-->".data) ++ inlineList mode rest from rfl]
    refine ⟨'!' :: '-' :: '-' :: (s.data ++ ("-->".data ++ (inlineList mode rest ++ '<' :: X))),
      by simp⟩
  | NodeList.cons (Node.cdata s) rest =>
    rw [show inlineList mode (NodeList.cons (Node.cdata s) rest)
      = ("<![CDATA[".data ++ s.data ++ "]]>".data) ++ inlineList mode rest from rfl]
    refine ⟨'!' :: '[' :: 'C' :: 'D' :: 'A' :: 'T' :: 'A' :: '[' ::
      (s.data ++ ("]]>".data ++ (inlineList mode rest ++ '<' :: X))), by simp⟩
  | NodeList.cons (Node.element n a c) rest => simp [allSimple] at hs
  | NodeList.cons (Node.pi t d) rest => simp [allSimple] at hs
  | NodeList.cons (Node.doctype s) rest => simp [allSimple] at hs

theorem parseNodes_inline (mode : EntityMode) :
    ∀ (ch : NodeList), wfList ch = true → allSimple ch = true →
      ∀ (rest : List Char), ∃ m, ∀ fuel, m ≤ fuel →
        parseNodes fuel (inlineList mode ch ++ '<' :: '/' :: rest)
          = Except.ok (ch, '<' :: '/' :: rest)
  | NodeList.nil, _, _, rest => by
    refine ⟨1, fun fuel hf => ?_⟩
    obtain ⟨f, rfl⟩ : ∃ f, fuel = f + 1 := ⟨fuel - 1, by omega⟩
    rw [show inlineList mode NodeList.nil ++ '<' :: '/' :: rest = '<' :: '/' :: rest from rfl]
    rw [parseNodes_cons, if_pos rfl]
    rfl
  | NodeList.cons (Node.text s) ch', hwf, hs, rest => by
    obtain ⟨hn, hrest, hnt⟩ := wfList_cons_spec _ _ hwf
    have hs' := allSimple_cons_spec _ _ hs
    have hsne : s.data ≠ [] := by
      intro hc
      unfold wfNode at hn
      rw [hc] at hn
      cases hn
    have hht : headIsText ch' = false := by
      simpa [isTextNode] using hnt
    obtain ⟨m1, hm1⟩ := parseNodes_inline mode ch' hrest hs' rest
    obtain ⟨t0, ht0⟩ := inline_head_lt mode ch' hs' hht ('/' :: rest)
    obtain ⟨m2, hm2⟩ := parseTextRun_escape mode s.data
      (inlineList mode ch' ++ '<' :: '/' :: rest) (Or.inr ⟨t0, ht0⟩)
    refine ⟨m1 + m2 + 1, fun fuel hf => ?_⟩
    obtain ⟨f, rfl⟩ : ∃ f, fuel = f + 1 := ⟨fuel - 1, by omega⟩
    obtain ⟨h0, t1, hht1, hlt⟩ := escapeText_head mode s.data hsne
    rw [show inlineList mode (NodeList.cons (Node.text s) ch')
      = escapeText mode s.data ++ inlineList mode ch' from rfl]
    rw [List.append_assoc, hht1, List.cons_append]
    rw [parseNodes_cons, if_neg hlt]
    rw [← List.cons_append, ← hht1]
    have hv := hm2 f (by omega)
    show (do
      let (txt, rest') ← parseTextRun f
        (escapeText mode s.data ++ (inlineList mode ch' ++ '<' :: '/' :: rest))
      let (siblings, rest2) ← parseNodes f rest'
      Except.ok (NodeList.cons (Node.text (String.mk txt)) siblings, rest2)) =
      Except.ok (NodeList.cons (Node.text s) ch', '<' :: '/' :: rest)
    rw [hv]
    show (do
      let (siblings, rest2) ← parseNodes f (inlineList mode ch' ++ '<' :: '/' :: rest)
      Except.ok (NodeList.cons (Node.text (String.mk s.data)) siblings, rest2)) =
      Except.ok (NodeList.cons (Node.text s) ch', '<' :: '/' :: rest)
    rw [hm1 f (by omega)]
    rfl
  | NodeList.cons (Node.comment s) ch', hwf, hs, rest => by
    obtain ⟨hn, hrest, _⟩ := wfList_cons_spec _ _ hwf
    have hs' := allSimple_cons_spec _ _ hs
    have hclean : cleanFor "-->".data s.data = true := hn
    obtain ⟨m1, hm1⟩ := parseNodes_inline mode ch' hrest hs' rest
    refine ⟨m1 + 1, fun fuel hf => ?_⟩
    obtain ⟨f, rfl⟩ : ∃ f, fuel = f + 1 := ⟨fuel - 1, by omega⟩
    have hbytes : inlineList mode (NodeList.cons (Node.comment s) ch') ++ '<' :: '/' :: rest
        = '<' :: '!' :: '-' :: '-' ::
          (s.data ++ ("-->".data ++ (inlineList mode ch' ++ '<' :: '/' :: rest))) := by
      rw [show inlineList mode (NodeList.cons (Node.comment s) ch')
        = ("<!--".data ++ s.data ++ "-->".data) ++ inlineList mode ch' from rfl]
      simp
    rw [hbytes]
    show (do
      let (body, rest') ← scanUntil "-->".data
        (s.data ++ ("-->".data ++ (inlineList mode ch' ++ '<' :: '/' :: rest)))
      let (siblings, rest2) ← parseNodes f rest'
      Except.ok (NodeList.cons (Node.comment (String.mk body)) siblings, rest2)) =
      Except.ok (NodeList.cons (Node.comment s) ch', '<' :: '/' :: rest)
    rw [scanUntil_exact "-->".data (by decide) s.data _ hclean]
    show (do
      let (siblings, rest2) ← parseNodes f (inlineList mode ch' ++ '<' :: '/' :: rest)
      Except.ok (NodeList.cons (Node.comment (String.mk s.data)) siblings, rest2)) =
      Except.ok (NodeList.cons (Node.comment s) ch', '<' :: '/' :: rest)
    rw [hm1 f (by omega)]
    rfl
  | NodeList.cons (Node.cdata s) ch', hwf, hs, rest => by
    obtain ⟨hn, hrest, _⟩ := wfList_cons_spec _ _ hwf
    have hs' := allSimple_cons_spec _ _ hs
    have hclean : cleanFor "]]>".data s.data = true := hn
    obtain ⟨m1, hm1⟩ := parseNodes_inline mode ch' hrest hs' rest
    refine ⟨m1 + 1, fun fuel hf => ?_⟩
    obtain ⟨f, rfl⟩ : ∃ f, fuel = f + 1 := ⟨fuel - 1, by omega⟩
    have hbytes : inlineList mode (NodeList.cons (Node.cdata s) ch') ++ '<' :: '/' :: rest
        = '<' :: '!' :: '[' :: 'C' :: 'D' :: 'A' :: 'T' :: 'A' :: '[' ::
          (s.data ++ ("]]>".data ++ (inlineList mode ch' ++ '<' :: '/' :: rest))) := by
      rw [show inlineList mode (NodeList.cons (Node.cdata s) ch')
        = ("<![CDATA[".data ++ s.data ++ "]]>".data) ++ inlineList mode ch' from rfl]
      simp
    rw [hbytes]
    show (do
      let (body, rest') ← scanUntil "]]>".data
        (s.data ++ ("]]>".data ++ (inlineList mode ch' ++ '<' :: '/' :: rest)))
      let (siblings, rest2) ← parseNodes f rest'
      Except.ok (NodeList.cons (Node.cdata (String.mk body)) siblings, rest2)) =
      Except.ok (NodeList.cons (Node.cdata s) ch', '<' :: '/' :: rest)
    rw [scanUntil_exact "]]>".data (by decide) s.data _ hclean]
    show (do
      let (siblings, rest2) ← parseNodes f (inlineList mode ch' ++ '<' :: '/' :: rest)
      Except.ok (NodeList.cons (Node.cdata (String.mk s.data)) siblings, rest2)) =
      Except.ok (NodeList.cons (Node.cdata s) ch', '<' :: '/' :: rest)
    rw [hm1 f (by omega)]
    rfl
  | NodeList.cons (Node.element n a c) ch', hwf, hs, rest => by
    simp [allSimple] at hs
  | NodeList.cons (Node.pi t d) ch', hwf, hs, rest => by
    simp [allSimple] at hs
  | NodeList.cons (Node.doctype s) ch', hwf, hs, rest => by
    simp [allSimple] at hs

theorem parseNodes_inline_all (mode : EntityMode) :
    ∀ (ch : NodeList), wfList ch = true → allSimple ch = true →
      ∃ m, ∀ (rest : List Char) (fuel : Nat), m ≤ fuel →
        parseNodes fuel (inlineList mode ch ++ '<' :: '/' :: rest)
          = Except.ok (ch, '<' :: '/' :: rest)
  | NodeList.nil, _, _ => by
    refine ⟨1, fun rest fuel hf => ?_⟩
    obtain ⟨f, rfl⟩ : ∃ f, fuel = f + 1 := ⟨fuel - 1, by omega⟩
    rw [show inlineList mode NodeList.nil ++ '<' :: '/' :: rest = '<' :: '/' :: rest from rfl]
    rw [parseNodes_cons, if_pos rfl]
    rfl
  | NodeList.cons (Node.text s) ch', hwf, hs => by
    obtain ⟨hn, hrest, hnt⟩ := wfList_cons_spec _ _ hwf
    have hs' := allSimple_cons_spec _ _ hs
    have hsne : s.data ≠ [] := by
      intro hc
      unfold wfNode at hn
      rw [hc] at hn
      cases hn
    have hht : headIsText ch' = false := by
      simpa [isTextNode] using hnt
    obtain ⟨m1, hm1⟩ := parseNodes_inline_all mode ch' hrest hs'
    obtain ⟨m2, hm2⟩ := parseTextRun_escape_all mode s.data
    refine ⟨m1 + m2 + 1, fun rest fuel hf => ?_⟩
    obtain ⟨f, rfl⟩ : ∃ f, fuel = f + 1 := ⟨fuel - 1, by omega⟩
    obtain ⟨h0, t1, hht1, hlt⟩ := escapeText_head mode s.data hsne
    obtain ⟨t0, ht0⟩ := inline_head_lt mode ch' hs' hht ('/' :: rest)
    rw [show inlineList mode (NodeList.cons (Node.text s) ch')
      = escapeText mode s.data ++ inlineList mode ch' from rfl]
    rw [List.append_assoc, hht1, List.cons_append]
    rw [parseNodes_cons, if_neg hlt]
    rw [← List.cons_append, ← hht1]
    have hv := hm2 (inlineList mode ch' ++ '<' :: '/' :: rest) (Or.inr ⟨t0, ht0⟩) f (by omega)
    show (do
      let (txt, rest2) ← parseTextRun f
        (escapeText mode s.data ++ (inlineList mode ch' ++ '<' :: '/' :: rest))
      let (siblings, rest3) ← parseNodes f rest2
      Except.ok (NodeList.cons (Node.text (String.mk txt)) siblings, rest3)) =
      Except.ok (NodeList.cons (Node.text s) ch', '<' :: '/' :: rest)
    rw [hv]
    show (do
      let (siblings, rest3) ← parseNodes f (inlineList mode ch' ++ '<' :: '/' :: rest)
      Except.ok (NodeList.cons (Node.text (String.mk s.data)) siblings, rest3)) =
      Except.ok (NodeList.cons (Node.text s) ch', '<' :: '/' :: rest)
    rw [hm1 rest f (by omega)]
    rfl
  | NodeList.cons (Node.comment s) ch', hwf, hs => by
    obtain ⟨hn, hrest, _⟩ := wfList_cons_spec _ _ hwf
    have hs' := allSimple_cons_spec _ _ hs
    have hclean : cleanFor "-->".data s.data = true := hn
    obtain ⟨m1, hm1⟩ := parseNodes_inline_all mode ch' hrest hs'
    refine ⟨m1 + 1, fun rest fuel hf => ?_⟩
    obtain ⟨f, rfl⟩ : ∃ f, fuel = f + 1 := ⟨fuel - 1, by omega⟩
    have hbytes : inlineList mode (NodeList.cons (Node.comment s) ch') ++ '<' :: '/' :: rest
        = '<' :: '!' :: '-' :: '-' ::
          (s.data ++ ("-->".data ++ (inlineList mode ch' ++ '<' :: '/' :: rest))) := by
      rw [show inlineList mode (NodeList.cons (Node.comment s) ch')
        = ("<!--".data ++ s.data ++ "-->".data) ++ inlineList mode ch' from rfl]
      simp
    rw [hbytes]
    show (do
      let (body, rest2) ← scanUntil "-->".data
        (s.data ++ ("-->".data ++ (inlineList mode ch' ++ '<' :: '/' :: rest)))
      let (siblings, rest3) ← parseNodes f rest2
      Except.ok (NodeList.cons (Node.comment (String.mk body)) siblings, rest3)) =
      Except.ok (NodeList.cons (Node.comment s) ch', '<' :: '/' :: rest)
    rw [scanUntil_exact "-->".data (by decide) s.data _ hclean]
    show (do
      let (siblings, rest3) ← parseNodes f (inlineList mode ch' ++ '<' :: '/' :: rest)
      Except.ok (NodeList.cons (Node.comment (String.mk s.data)) siblings, rest3)) =
      Except.ok (NodeList.cons (Node.comment s) ch', '<' :: '/' :: rest)
    rw [hm1 rest f (by omega)]
    rfl
  | NodeList.cons (Node.cdata s) ch', hwf, hs => by
    obtain ⟨hn, hrest, _⟩ := wfList_cons_spec _ _ hwf
    have hs' := allSimple_cons_spec _ _ hs
    have hclean : cleanFor "]]>".data s.data = true := hn
    obtain ⟨m1, hm1⟩ := parseNodes_inline_all mode ch' hrest hs'
    refine ⟨m1 + 1, fun rest fuel hf => ?_⟩
    obtain ⟨f, rfl⟩ : ∃ f, fuel = f + 1 := ⟨fuel - 1, by omega⟩
    have hbytes : inlineList mode (NodeList.cons (Node.cdata s) ch') ++ '<' :: '/' :: rest
        = '<' :: '!' :: '[' :: 'C' :: 'D' :: 'A' :: 'T' :: 'A' :: '[' ::
          (s.data ++ ("]]>".data ++ (inlineList mode ch' ++ '<' :: '/' :: rest))) := by
      rw [show inlineList mode (NodeList.cons (Node.cdata s) ch')
        = ("<![CDATA[".data ++ s.data ++ "]]>".data) ++ inlineList mode ch' from rfl]
      simp
    rw [hbytes]
    show (do
      let (body, rest2) ← scanUntil "]]>".data
        (s.data ++ ("]]>".data ++ (inlineList mode ch' ++ '<' :: '/' :: rest)))
      let (siblings, rest3) ← parseNodes f rest2
      Except.ok (NodeList.cons (Node.cdata (String.mk body)) siblings, rest3)) =
      Except.ok (NodeList.cons (Node.cdata s) ch', '<' :: '/' :: rest)
    rw [scanUntil_exact "]]>".data (by decide) s.data _ hclean]
    show (do
      let (siblings, rest3) ← parseNodes f (inlineList mode ch' ++ '<' :: '/' :: rest)
      Except.ok (NodeList.cons (Node.cdata (String.mk s.data)) siblings, rest3)) =
      Except.ok (NodeList.cons (Node.cdata s) ch', '<' :: '/' :: rest)
    rw [hm1 rest f (by omega)]
    rfl
  | NodeList.cons (Node.element n a c) ch', hwf, hs => by
    simp [allSimple] at hs
  | NodeList.cons (Node.pi t d) ch', hwf, hs => by
    simp [allSimple] at hs
  | NodeList.cons (Node.doctype s) ch', hwf, hs => by
    simp [allSimple] at hs

/-! ### Render-side facts and further utilities -/

theorem spaces_succ (k : Nat) : spaces (k + 1) = ' ' :: spaces k := rfl

theorem renderList_nil (c : Config) (lvl : Nat) : renderList c lvl NodeList.nil = [] := rfl

theorem renderList_cons (c : Config) (lvl : Nat) (n : Node) (rest : NodeList) :
    renderList c lvl (NodeList.cons n rest) =
      (let r := renderNode c lvl n
       (if r = [] then [] else r ++ ['\n']) ++ renderList c lvl rest) := rfl

theorem renderNode_text (c : Config) (lvl : Nat) (s : String) :
    renderNode c lvl (Node.text s) =
      (let ind := spaces (lvl * c.indent)
       if c.indent_text_nodes then
         if s.data.all isWs then []
         else ind ++ escapeText c.entity_mode (trimWs s.data)
       else ind ++ escapeText c.entity_mode s.data) := rfl

theorem renderNode_comment (c : Config) (lvl : Nat) (s : String) :
    renderNode c lvl (Node.comment s) =
      spaces (lvl * c.indent) ++ "<!--".data ++ s.data ++ "-->".data := rfl

theorem renderNode_cdata (c : Config) (lvl : Nat) (s : String) :
    renderNode c lvl (Node.cdata s) =
      spaces (lvl * c.indent) ++ "<![CDATA[".data ++ s.data ++ "]]>".data := rfl

theorem renderNode_pi (c : Config) (lvl : Nat) (t d : String) :
    renderNode c lvl (Node.pi t d) =
      spaces (lvl * c.indent) ++ "<?".data ++ t.data ++ ' ' :: (d.data ++ "?>".data) := rfl

theorem renderNode_element (c : Config) (lvl : Nat) (n : String)
    (a : List (String × String)) (ch : NodeList) :
    renderNode c lvl (Node.element n a ch) =
      (let ind := spaces (lvl * c.indent)
       let startTag := startTagInline c.entity_mode n a
       let startLen := ind.length + startTag.length
       (match ch with
        | NodeList.nil =>
            ind ++ '<' :: (n.data ++ attrsInline c.entity_mode a
              ++ spaces c.end_pad ++ ['/', '>'])
        | NodeList.cons _ _ =>
          if allSimple ch
              && (!c.indent_text_nodes
                || decide (startLen + (inlineList c.entity_mode ch).length
                     + (endTag n).length ≤ c.max_line_length)) then
            ind ++ startTag ++ inlineList c.entity_mode ch ++ endTag n
          else if decide (c.max_line_length < startLen) then
            ind ++ '<' :: (n.data ++ '\n' ::
              (wrappedAttrLines c.entity_mode (spaces ((lvl + 1) * c.indent)) a
                ++ ind ++ '>' :: '\n' ::
                (renderList c (lvl + 1) ch ++ ind ++ endTag n)))
          else
            ind ++ startTag ++ '\n' ::
              (renderList c (lvl + 1) ch ++ ind ++ endTag n))) := rfl

theorem escapeText_ne_nil (mode : EntityMode) (s : List Char) (hs : s ≠ []) :
    escapeText mode s ≠ [] := by
  obtain ⟨h, t, hht, _⟩ := escapeText_head mode s hs
  rw [hht]
  simp

theorem all_isWs_dropWhile (s : List Char) :
    ((s.dropWhile isWs).all isWs) = s.all isWs := by
  induction s with
  | nil => rfl
  | cons c cs ih =>
    by_cases hc : isWs c = true
    · rw [List.dropWhile_cons, if_pos hc, ih, List.all_cons, hc]
      simp
    · rw [List.dropWhile_cons, if_neg (by simp [hc])]

theorem all_isWs_reverse (s : List Char) : (s.reverse.all isWs) = s.all isWs := by
  simp [List.all_eq_true]

theorem all_isWs_trimWs (s : List Char) : ((trimWs s).all isWs) = s.all isWs := by
  unfold trimWs
  rw [all_isWs_reverse, all_isWs_dropWhile, all_isWs_reverse, all_isWs_dropWhile]

theorem dropWhile_of_all_ws (g : List Char) (hg : ∀ c ∈ g, isWs c = true) :
    g.dropWhile isWs = [] :=
  List.dropWhile_eq_nil_iff.mpr hg

theorem dropWhile_append_left_of_not_all (t y : List Char) (h : t.all isWs = false) :
    (t ++ y).dropWhile isWs = t.dropWhile isWs ++ y := by
  induction t with
  | nil => cases h
  | cons c cs ih =>
    by_cases hc : isWs c = true
    · rw [List.all_cons, hc, Bool.true_and] at h
      rw [List.cons_append, List.dropWhile_cons, if_pos hc, List.dropWhile_cons, if_pos hc]
      exact ih h
    · rw [List.cons_append, List.dropWhile_cons, if_neg (by simp [hc]),
        List.dropWhile_cons, if_neg (by simp [hc])]
      rfl

theorem trimWs_append_left (g t : List Char) (hg : ∀ c ∈ g, isWs c = true) :
    trimWs (g ++ t) = trimWs t := by
  unfold trimWs
  rw [dropWhile_append_of_all isWs g t hg]

theorem trimWs_append_right (t g' : List Char) (hg' : ∀ c ∈ g', isWs c = true) :
    trimWs (t ++ g') = trimWs t := by
  by_cases ht : t.all isWs = true
  · unfold trimWs
    rw [dropWhile_append_of_all isWs t g' (fun c hc => List.all_eq_true.mp ht c hc),
      dropWhile_of_all_ws g' hg', dropWhile_of_all_ws t (fun c hc => List.all_eq_true.mp ht c hc)]
  · unfold trimWs
    rw [dropWhile_append_left_of_not_all t g' (Bool.eq_false_iff.mpr (by simpa using ht)),
      List.reverse_append,
      dropWhile_append_of_all isWs g'.reverse _
        (fun c hc => hg' c (List.mem_reverse.mp hc))]

theorem trim_decomp (s : List Char) :
    ∃ g g', (∀ c ∈ g, isWs c = true) ∧ (∀ c ∈ g', isWs c = true) ∧
      s = g ++ trimWs s ++ g' := by
  refine ⟨s.takeWhile isWs,
    ((s.dropWhile isWs).reverse.takeWhile isWs).reverse, ?_, ?_, ?_⟩
  · intro c hc
    exact List.mem_takeWhile_imp hc
  · intro c hc
    exact List.mem_takeWhile_imp (List.mem_reverse.mp hc)
  · conv_lhs => rw [← List.takeWhile_append_dropWhile isWs s]
    rw [List.append_assoc]
    congr 1
    conv_lhs => rw [← List.reverse_reverse (s.dropWhile isWs),
      ← List.takeWhile_append_dropWhile isWs (s.dropWhile isWs).reverse]
    rw [List.reverse_append]
    rfl

theorem trimWs_pad (g g' s : List Char) (hg : ∀ c ∈ g, isWs c = true)
    (hg' : ∀ c ∈ g', isWs c = true) : trimWs (g ++ s ++ g') = trimWs s := by
  rw [List.append_assoc, trimWs_append_left g (s ++ g') hg, trimWs_append_right s g' hg']

theorem trimWs_idem (s : List Char) : trimWs (trimWs s) = trimWs s := by
  obtain ⟨g, g', hg, hg', hdec⟩ := trim_decomp s
  conv_rhs => rw [hdec]
  rw [trimWs_pad g g' (trimWs s) hg hg']

theorem nameChar_ne_bang (c : Char) (h : isNameChar c = true) : c ≠ '!' := by
  intro hc; subst hc; exact absurd h (by decide)

theorem nameChar_ne_ques (c : Char) (h : isNameChar c = true) : c ≠ '?' := by
  intro hc; subst hc; exact absurd h (by decide)

/-- Splitting a name run at its first non-name character. -/
theorem name_split (nm : List Char) (hall : ∀ c ∈ nm, isNameChar c = true)
    (c0 : Char) (hc0 : isNameChar c0 = false) (t : List Char) :
    (nm ++ c0 :: t).takeWhile isNameChar = nm ∧
    (nm ++ c0 :: t).dropWhile isNameChar = c0 :: t := by
  constructor
  · rw [takeWhile_append_of_all isNameChar nm (c0 :: t) hall,
      takeWhile_cons_of_neg isNameChar c0 t hc0, List.append_nil]
  · rw [dropWhile_append_of_all isNameChar nm (c0 :: t) hall,
      dropWhile_cons_of_neg isNameChar c0 t hc0]

theorem attrsInline_cons_shape (mode : EntityMode) (x : String × String)
    (xs : List (String × String)) :
    ∃ t, attrsInline mode (x :: xs) = ' ' :: t := by
  refine ⟨x.1.data ++ '=' :: '\"' :: (escapeText mode x.2.data ++ ['\"'])
    ++ attrsInline mode xs, ?_⟩
  unfold attrsInline
  rw [List.flatMap_cons]
  simp

/-- The raw content of a rendered processing instruction splits at the
single separating space. -/
theorem pi_target_split (t d : List Char) (ht : ∀ c ∈ t, isWs c = false) :
    (t ++ ' ' :: d).takeWhile (fun x => !isWs x) = t ∧
    ((t ++ ' ' :: d).dropWhile (fun x => !isWs x) = ' ' :: d) := by
  constructor
  · rw [takeWhile_append_of_all _ t (' ' :: d) (by intro c hc; simp [ht c hc]),
      takeWhile_cons_of_neg _ _ _ (by decide), List.append_nil]
  · rw [dropWhile_append_of_all _ t (' ' :: d) (by intro c hc; simp [ht c hc]),
      dropWhile_cons_of_neg _ _ _ (by decide)]

theorem allSimple_cons_eq (n : Node) (rest : NodeList) :
    allSimple (NodeList.cons n rest) = (isSimpleNode n && allSimple rest) := by
  cases n <;> rfl

theorem inlineList_cons_eq (mode : EntityMode) (n : Node) (rest : NodeList) :
    inlineList mode (NodeList.cons n rest)
      = inlineNodeBytes mode n ++ inlineList mode rest := by
  cases n <;> rfl

theorem parseElement_succ (fuel : Nat) (l : List Char) :
    parseElement (fuel + 1) l =
      (let name := l.takeWhile isNameChar
       if name = [] then Except.error "expected element name"
       else
         (do
           let (attrs, selfClose, rest) ← parseAttrs fuel (l.dropWhile isNameChar)
           if selfClose then Except.ok (String.mk name, attrs, NodeList.nil, rest)
           else do
             let (children, rest2) ← parseNodes fuel rest
             match rest2 with
             | '<' :: '/' :: r2 =>
               let ename := r2.takeWhile isNameChar
               if ename = name then
                 match skipWsL (r2.dropWhile isNameChar) with
                 | '>' :: r3 => Except.ok (String.mk name, attrs, children, r3)
                 | _ => Except.error "malformed end tag"
               else Except.error "mismatched end tag"
             | _ => Except.error "unterminated element")) := rfl

/-! ### Helpers for the round-trip induction -/

theorem isWs_ne_lt (c : Char) (h : isWs c = true) : c ≠ '<' := by
  rcases isWs_cases c h with rfl | rfl | rfl | rfl <;> decide

theorem mem_append_ws (a b : List Char) (ha : ∀ c ∈ a, isWs c = true)
    (hb : ∀ c ∈ b, isWs c = true) : ∀ c ∈ a ++ b, isWs c = true := by
  intro c hc
  rcases List.mem_append.mp hc with h | h
  · exact ha c h
  · exact hb c h

theorem trimWs_ne_nil (s : List Char) (h : s.all isWs = false) : trimWs s ≠ [] := by
  intro hc
  have ht := all_isWs_trimWs s
  rw [hc] at ht
  rw [← ht] at h
  cases h

theorem endTag_append (n : String) (rest : List Char) :
    endTag n ++ rest = '<' :: '/' :: (n.data ++ '>' :: rest) := by
  unfold endTag
  simp

theorem endTag_split (n : String) (hn : wfName n = true) (rest : List Char) :
    (n.data ++ '>' :: rest).takeWhile isNameChar = n.data ∧
    skipWsL ((n.data ++ '>' :: rest).dropWhile isNameChar) = '>' :: rest := by
  obtain h := name_split n.data (wfName_spec n hn).2 '>' (by decide) rest
  exact ⟨h.1, by rw [h.2, skipWsL_of_head_neg _ _ (by decide)]⟩

theorem renderList_cons_ne (c : Config) (lvl : Nat) (n : Node) (tl : NodeList)
    (hne : renderNode c lvl n ≠ []) :
    renderList c lvl (NodeList.cons n tl)
      = renderNode c lvl n ++ '\n' :: renderList c lvl tl := by
  rw [renderList_cons]
  simp only [if_neg hne]
  simp

theorem renderList_cons_nil_head (c : Config) (lvl : Nat) (n : Node) (tl : NodeList)
    (h : renderNode c lvl n = []) :
    renderList c lvl (NodeList.cons n tl) = renderList c lvl tl := by
  rw [renderList_cons]
  simp only [if_pos h]
  simp

theorem renderNode_text_itn (c : Config) (hitn : c.indent_text_nodes = true)
    (lvl : Nat) (s : String) :
    renderNode c lvl (Node.text s) =
      (if s.data.all isWs then []
       else spaces (lvl * c.indent) ++ escapeText c.entity_mode (trimWs s.data)) := by
  rw [renderNode_text, hitn]
  rfl

theorem attrs_suffix_head (mode : EntityMode) (a : List (String × String)) (c1 : Char)
    (hc1 : isNameChar c1 = false) (t1 : List Char) :
    ∃ c0 t0, attrsInline mode a ++ c1 :: t1 = c0 :: t0 ∧ isNameChar c0 = false := by
  match a with
  | [] => exact ⟨c1, t1, rfl, hc1⟩
  | x :: xs =>
    obtain ⟨t, ht⟩ := attrsInline_cons_shape mode x xs
    exact ⟨' ', t ++ c1 :: t1, by rw [ht]; rfl, by decide⟩

theorem spaces_suffix_head (pad : Nat) (c1 : Char) (hc1 : isNameChar c1 = false)
    (t1 : List Char) :
    ∃ c0 t0, spaces pad ++ c1 :: t1 = c0 :: t0 ∧ isNameChar c0 = false := by
  match pad with
  | 0 => exact ⟨c1, t1, rfl, hc1⟩
  | p + 1 => exact ⟨' ', spaces p ++ c1 :: t1, rfl, by decide⟩

theorem inlineList_nil (mode : EntityMode) : inlineList mode NodeList.nil = [] := rfl

theorem parseNodes_text_branch (fuel : Nat) (c0 : Char) (r : List Char) (h : ¬c0 = '<') :
    parseNodes (fuel + 1) (c0 :: r) =
      (do
        let (txt, rest) ← parseTextRun fuel (c0 :: r)
        let (siblings, rest2) ← parseNodes fuel rest
        Except.ok (NodeList.cons (Node.text (String.mk txt)) siblings, rest2)) := by
  rw [parseNodes_cons, if_neg h]

theorem parseNodes_elem_branch (fuel : Nat) (c1 : Char) (r2 : List Char)
    (h1 : ¬c1 = '/') (h2 : ¬c1 = '!') (h3 : ¬c1 = '?') :
    parseNodes (fuel + 1) ('<' :: c1 :: r2) =
      (do
        let (name, attrs, children, rest) ← parseElement fuel (c1 :: r2)
        let (siblings, rest2) ← parseNodes fuel rest
        Except.ok (NodeList.cons (Node.element name attrs children) siblings, rest2)) := by
  rw [parseNodes_cons, if_pos rfl]
  show (if c1 = '/' then Except.ok (NodeList.nil, '<' :: c1 :: r2)
    else if c1 = '!' then
      match r2 with
      | '-' :: '-' :: r3 =>
        (do
          let (body, rest) ← scanUntil "-->".data r3
          let (siblings, rest2) ← parseNodes fuel rest
          Except.ok (NodeList.cons (Node.comment (String.mk body)) siblings, rest2))
      | '[' :: 'C' :: 'D' :: 'A' :: 'T' :: 'A' :: '[' :: r3 =>
        (do
          let (body, rest) ← scanUntil "]]>".data r3
          let (siblings, rest2) ← parseNodes fuel rest
          Except.ok (NodeList.cons (Node.cdata (String.mk body)) siblings, rest2))
      | _ => Except.error "unexpected markup declaration in content"
    else if c1 = '?' then
      (do
        let (raw, rest) ← scanUntil "?>".data r2
        let target := raw.takeWhile fun d => !isWs d
        let dataPart :=
          match raw.dropWhile (fun d => !isWs d) with
          | [] => []
          | _ :: t => t
        let (siblings, rest2) ← parseNodes fuel rest
        Except.ok
          (NodeList.cons (Node.pi (String.mk target) (String.mk dataPart)) siblings, rest2))
    else
      (do
        let (name, attrs, children, rest) ← parseElement fuel (c1 :: r2)
        let (siblings, rest2) ← parseNodes fuel rest
        Except.ok (NodeList.cons (Node.element name attrs children) siblings, rest2))) = _
  rw [if_neg h1, if_neg h2, if_neg h3]

theorem parseNodes_step_elem (n : String) (hn : wfName n = true) (SUF : List Char)
    (a : List (String × String)) (chE : NodeList) (m : Nat)
    (helem : ∀ (rest : List Char) (fuel : Nat), m ≤ fuel →
      parseElement fuel ((n.data ++ SUF) ++ rest) = Except.ok (n, a, chE, rest)) :
    ∀ (REST : List Char) (sib : NodeList) (rest2 : List Char) (fuel : Nat), m ≤ fuel →
      parseNodes fuel REST = Except.ok (sib, rest2) →
      parseNodes (fuel + 1) ('<' :: ((n.data ++ SUF) ++ REST))
        = Except.ok (NodeList.cons (Node.element n a chE) sib, rest2) := by
  intro REST sib rest2 fuel hf hp
  obtain ⟨c1, nm, hnm⟩ : ∃ c1 nm, n.data = c1 :: nm := by
    match hh : n.data with
    | [] => exact absurd hh (wfName_spec n hn).1
    | c1 :: nm => exact ⟨c1, nm, rfl⟩
  have hc1 : isNameChar c1 = true :=
    (wfName_spec n hn).2 c1 (by rw [hnm]; exact List.mem_cons_self _ _)
  have hshape : (n.data ++ SUF) ++ REST = c1 :: (nm ++ (SUF ++ REST)) := by
    rw [hnm]
    simp
  rw [hshape]
  rw [parseNodes_elem_branch fuel c1 (nm ++ (SUF ++ REST))
    (nameChar_ne_slash c1 hc1) (nameChar_ne_bang c1 hc1) (nameChar_ne_ques c1 hc1)]
  rw [show c1 :: (nm ++ (SUF ++ REST)) = (n.data ++ SUF) ++ REST from hshape.symm]
  rw [helem REST fuel hf]
  show (do
    let (siblings, rest3) ← parseNodes fuel REST
    Except.ok (NodeList.cons (Node.element n a chE) siblings, rest3)) = _
  rw [hp]
  rfl

theorem renderNode_element_cons (c : Config) (lvl : Nat) (n : String)
    (a : List (String × String)) (q : Node) (qt : NodeList) :
    renderNode c lvl (Node.element n a (NodeList.cons q qt)) =
      (if allSimple (NodeList.cons q qt)
          && (!c.indent_text_nodes
            || decide ((spaces (lvl * c.indent)).length
                 + (startTagInline c.entity_mode n a).length
                 + (inlineList c.entity_mode (NodeList.cons q qt)).length
                 + (endTag n).length ≤ c.max_line_length)) then
        spaces (lvl * c.indent) ++ startTagInline c.entity_mode n a
          ++ inlineList c.entity_mode (NodeList.cons q qt) ++ endTag n
      else if decide (c.max_line_length < (spaces (lvl * c.indent)).length
          + (startTagInline c.entity_mode n a).length) then
        spaces (lvl * c.indent) ++ '<' :: (n.data ++ '\n' ::
          (wrappedAttrLines c.entity_mode (spaces ((lvl + 1) * c.indent)) a
            ++ spaces (lvl * c.indent) ++ '>' :: '\n' ::
            (renderList c (lvl + 1) (NodeList.cons q qt)
              ++ spaces (lvl * c.indent) ++ endTag n)))
      else
        spaces (lvl * c.indent) ++ startTagInline c.entity_mode n a ++ '\n' ::
          (renderList c (lvl + 1) (NodeList.cons q qt)
            ++ spaces (lvl * c.indent) ++ endTag n)) := rfl

/-- Assembling a block region whose first rendered node is a non-text node:
given the reparse data for that node and for the remaining region, the gap,
the node line and the remainder glue into a reparse of the whole region. -/
theorem blockCons_assemble (c : Config) (hitn : c.indent_text_nodes = true)
    (nt : Node) (tl : NodeList) (lvl nP : Nat) (g : List Char)
    (hg : g ≠ []) (hgws : ∀ x ∈ g, isWs x = true)
    (core : List Char) (nd₂ : Node) (mE : Nat)
    (hE1 : renderNode c lvl nt = spaces (lvl * c.indent) ++ '<' :: core)
    (hE2 : renderNode c lvl nd₂ = renderNode c lvl nt)
    (hE3 : isSimpleNode nd₂ = true → inlineNodeBytes c.entity_mode nd₂ = '<' :: core)
    (hE4 : ∀ (REST : List Char) (sib : NodeList) (rest2 : List Char) (fuel : Nat), mE ≤ fuel →
      parseNodes fuel REST = Except.ok (sib, rest2) →
      parseNodes (fuel + 1) ('<' :: (core ++ REST)) = Except.ok (NodeList.cons nd₂ sib, rest2))
    (tl₂ : NodeList) (mB : Nat)
    (hB2 : renderList c lvl tl₂ = renderList c lvl tl)
    (hB3 : allSimple tl₂ = true →
      inlineList c.entity_mode tl₂ = ['\n'] ++ (renderList c lvl tl ++ spaces nP))
    (hB4 : ∀ (rest : List Char) (fuel : Nat), mB ≤ fuel →
      parseNodes fuel (['\n'] ++ (renderList c lvl tl ++ (spaces nP ++ '<' :: '/' :: rest)))
        = Except.ok (tl₂, '<' :: '/' :: rest)) :
    ∃ (ch₂ : NodeList) (m : Nat),
      ch₂ ≠ NodeList.nil ∧
      renderList c lvl ch₂ = renderList c lvl (NodeList.cons nt tl) ∧
      (allSimple ch₂ = true →
        inlineList c.entity_mode ch₂
          = g ++ (renderList c lvl (NodeList.cons nt tl) ++ spaces nP)) ∧
      (∀ (rest : List Char) (fuel : Nat), m ≤ fuel →
        parseNodes fuel
          (g ++ (renderList c lvl (NodeList.cons nt tl) ++ (spaces nP ++ '<' :: '/' :: rest)))
          = Except.ok (ch₂, '<' :: '/' :: rest)) := by
  have hindws : ∀ x ∈ spaces (lvl * c.indent), isWs x = true :=
    fun x hx => mem_spaces_isWs _ x hx
  have hgind : ∀ x ∈ g ++ spaces (lvl * c.indent), isWs x = true :=
    mem_append_ws _ _ hgws hindws
  have hrNne : renderNode c lvl nt ≠ [] := by
    rw [hE1]
    simp
  have hrl : renderList c lvl (NodeList.cons nt tl)
      = (spaces (lvl * c.indent) ++ '<' :: core) ++ '\n' :: renderList c lvl tl := by
    rw [renderList_cons_ne c lvl nt tl hrNne, hE1]
  obtain ⟨mT, hmT⟩ := parseTextRun_escape_all c.entity_mode (g ++ spaces (lvl * c.indent))
  refine ⟨NodeList.cons (Node.text (String.mk (g ++ spaces (lvl * c.indent))))
    (NodeList.cons nd₂ tl₂), mT + mE + mB + 2, ?_, ?_, ?_, ?_⟩
  · intro h
    exact NodeList.noConfusion h
  · have htxt : renderNode c lvl (Node.text (String.mk (g ++ spaces (lvl * c.indent)))) = [] := by
      rw [renderNode_text_itn c hitn]
      rw [if_pos (List.all_eq_true.mpr hgind)]
    have hrN2ne : renderNode c lvl nd₂ ≠ [] := by
      rw [hE2]
      exact hrNne
    rw [renderList_cons_nil_head c lvl _ _ htxt,
      renderList_cons_ne c lvl nd₂ tl₂ hrN2ne, hE2, hB2, renderList_cons_ne c lvl nt tl hrNne]
  · intro hall
    rw [allSimple_cons_eq, Bool.and_eq_true] at hall
    obtain ⟨_, hall2⟩ := hall
    rw [allSimple_cons_eq, Bool.and_eq_true] at hall2
    obtain ⟨hs2, hstl⟩ := hall2
    rw [inlineList_cons_eq, inlineList_cons_eq, hE3 hs2, hB3 hstl,
      show inlineNodeBytes c.entity_mode (Node.text (String.mk (g ++ spaces (lvl * c.indent))))
        = g ++ spaces (lvl * c.indent) from escapeText_of_ws c.entity_mode _ hgind,
      hrl]
    simp
  · intro rest fuel hm
    obtain ⟨f1, rfl⟩ : ∃ f1, fuel = f1 + 1 := ⟨fuel - 1, by omega⟩
    obtain ⟨f, rfl⟩ : ∃ f, f1 = f + 1 := ⟨f1 - 1, by omega⟩
    have hB := hB4 rest f (by omega)
    have hEc := hE4 ('\n' :: (renderList c lvl tl ++ (spaces nP ++ '<' :: '/' :: rest)))
      tl₂ ('<' :: '/' :: rest) f (by omega) hB
    obtain ⟨c0, g1, hg01⟩ : ∃ c0 g1, g = c0 :: g1 := by
      match hh : g with
      | [] => exact absurd rfl hg
      | c0 :: g1 => exact ⟨c0, g1, rfl⟩
    have hc0w : isWs c0 = true := hgws c0 (by rw [hg01]; exact List.mem_cons_self _ _)
    have hshape : g ++ (renderList c lvl (NodeList.cons nt tl) ++ (spaces nP ++ '<' :: '/' :: rest))
        = c0 :: (g1 ++ (spaces (lvl * c.indent) ++ '<' ::
            (core ++ ('\n' :: (renderList c lvl tl ++ (spaces nP ++ '<' :: '/' :: rest)))))) := by
      rw [hrl, hg01]
      simp
    rw [hshape]
    rw [parseNodes_text_branch (f + 1) c0 _ (isWs_ne_lt c0 hc0w)]
    have hTR := hmT ('<' :: (core ++ ('\n' ::
        (renderList c lvl tl ++ (spaces nP ++ '<' :: '/' :: rest)))))
      (Or.inr ⟨_, rfl⟩) (f + 1) (by omega)
    rw [escapeText_of_ws c.entity_mode _ hgind] at hTR
    have hTRshape : (g ++ spaces (lvl * c.indent)) ++ '<' ::
        (core ++ ('\n' :: (renderList c lvl tl ++ (spaces nP ++ '<' :: '/' :: rest))))
        = c0 :: (g1 ++ (spaces (lvl * c.indent) ++ '<' ::
            (core ++ ('\n' :: (renderList c lvl tl ++ (spaces nP ++ '<' :: '/' :: rest)))))) := by
      rw [hg01]
      simp
    rw [hTRshape] at hTR
    rw [hTR]
    show (do
      let (siblings, rest2) ← parseNodes (f + 1) ('<' ::
        (core ++ ('\n' :: (renderList c lvl tl ++ (spaces nP ++ '<' :: '/' :: rest)))))
      Except.ok (NodeList.cons
        (Node.text (String.mk (g ++ spaces (lvl * c.indent)))) siblings, rest2)) =
      Except.ok (NodeList.cons (Node.text (String.mk (g ++ spaces (lvl * c.indent))))
        (NodeList.cons nd₂ tl₂), '<' :: '/' :: rest)
    rw [hEc]
    rfl

/-- Assembling a block region whose first rendered node is a kept text node
followed by a non-text node: the gap, the indentation, the trimmed text and
the following newline re-parse as one merged text node. -/
theorem textCons_assemble (c : Config) (hitn : c.indent_text_nodes = true)
    (s : String) (hws : s.data.all isWs = false)
    (nt : Node) (tl : NodeList) (lvl nP : Nat) (g : List Char)
    (hg : g ≠ []) (hgws : ∀ x ∈ g, isWs x = true)
    (core : List Char) (nd₂ : Node) (mE : Nat)
    (hE1 : renderNode c lvl nt = spaces (lvl * c.indent) ++ '<' :: core)
    (hE2 : renderNode c lvl nd₂ = renderNode c lvl nt)
    (hE3 : isSimpleNode nd₂ = true → inlineNodeBytes c.entity_mode nd₂ = '<' :: core)
    (hE4 : ∀ (REST : List Char) (sib : NodeList) (rest2 : List Char) (fuel : Nat), mE ≤ fuel →
      parseNodes fuel REST = Except.ok (sib, rest2) →
      parseNodes (fuel + 1) ('<' :: (core ++ REST)) = Except.ok (NodeList.cons nd₂ sib, rest2))
    (tl₂ : NodeList) (mB : Nat)
    (hB2 : renderList c lvl tl₂ = renderList c lvl tl)
    (hB3 : allSimple tl₂ = true →
      inlineList c.entity_mode tl₂ = ['\n'] ++ (renderList c lvl tl ++ spaces nP))
    (hB4 : ∀ (rest : List Char) (fuel : Nat), mB ≤ fuel →
      parseNodes fuel (['\n'] ++ (renderList c lvl tl ++ (spaces nP ++ '<' :: '/' :: rest)))
        = Except.ok (tl₂, '<' :: '/' :: rest)) :
    ∃ (ch₂ : NodeList) (m : Nat),
      ch₂ ≠ NodeList.nil ∧
      renderList c lvl ch₂ = renderList c lvl (NodeList.cons (Node.text s) (NodeList.cons nt tl)) ∧
      (allSimple ch₂ = true →
        inlineList c.entity_mode ch₂
          = g ++ (renderList c lvl (NodeList.cons (Node.text s) (NodeList.cons nt tl)) ++ spaces nP)) ∧
      (∀ (rest : List Char) (fuel : Nat), m ≤ fuel →
        parseNodes fuel
          (g ++ (renderList c lvl (NodeList.cons (Node.text s) (NodeList.cons nt tl))
            ++ (spaces nP ++ '<' :: '/' :: rest)))
          = Except.ok (ch₂, '<' :: '/' :: rest)) := by
  have hindws : ∀ x ∈ spaces (lvl * c.indent), isWs x = true :=
    fun x hx => mem_spaces_isWs _ x hx
  have hnlind : ∀ x ∈ '\n' :: spaces (lvl * c.indent), isWs x = true := by
    intro x hx
    rcases List.mem_cons.mp hx with rfl | hx2
    · decide
    · exact hindws x hx2
  have hgind : ∀ x ∈ g ++ spaces (lvl * c.indent), isWs x = true :=
    mem_append_ws _ _ hgws hindws
  have hTne : trimWs s.data ≠ [] := trimWs_ne_nil s.data hws
  have hrt : renderNode c lvl (Node.text s)
      = spaces (lvl * c.indent) ++ escapeText c.entity_mode (trimWs s.data) := by
    rw [renderNode_text_itn c hitn, if_neg (by simp [hws])]
  have hrtne : renderNode c lvl (Node.text s) ≠ [] := by
    rw [hrt]
    intro hc
    exact escapeText_ne_nil c.entity_mode _ hTne (List.append_eq_nil.mp hc).2
  have hrNne : renderNode c lvl nt ≠ [] := by
    rw [hE1]
    simp
  have hrN2ne : renderNode c lvl nd₂ ≠ [] := by
    rw [hE2]
    exact hrNne
  have hrl : renderList c lvl (NodeList.cons (Node.text s) (NodeList.cons nt tl))
      = (spaces (lvl * c.indent) ++ escapeText c.entity_mode (trimWs s.data)) ++ '\n' ::
        ((spaces (lvl * c.indent) ++ '<' :: core) ++ '\n' :: renderList c lvl tl) := by
    rw [renderList_cons_ne c lvl _ _ hrtne, renderList_cons_ne c lvl nt tl hrNne, hrt, hE1]
  have htrim : trimWs (g ++ (spaces (lvl * c.indent)
      ++ (trimWs s.data ++ ('\n' :: spaces (lvl * c.indent))))) = trimWs s.data := by
    have hgrp : g ++ (spaces (lvl * c.indent)
        ++ (trimWs s.data ++ ('\n' :: spaces (lvl * c.indent))))
        = (g ++ spaces (lvl * c.indent)) ++ trimWs s.data
          ++ ('\n' :: spaces (lvl * c.indent)) := by
      simp
    rw [hgrp, trimWs_pad _ _ _ hgind hnlind, trimWs_idem]
  have hSall : (g ++ (spaces (lvl * c.indent)
      ++ (trimWs s.data ++ ('\n' :: spaces (lvl * c.indent))))).all isWs = false := by
    have h1 := all_isWs_trimWs (g ++ (spaces (lvl * c.indent)
      ++ (trimWs s.data ++ ('\n' :: spaces (lvl * c.indent)))))
    rw [htrim] at h1
    rw [← h1, all_isWs_trimWs]
    exact hws
  have hescS : escapeText c.entity_mode (g ++ (spaces (lvl * c.indent)
      ++ (trimWs s.data ++ ('\n' :: spaces (lvl * c.indent)))))
      = g ++ (spaces (lvl * c.indent)
        ++ (escapeText c.entity_mode (trimWs s.data) ++ ('\n' :: spaces (lvl * c.indent)))) := by
    rw [escapeText_append, escapeText_append, escapeText_append,
      escapeText_of_ws _ g hgws, escapeText_of_ws _ _ hindws,
      escapeText_of_ws _ _ hnlind]
  have hSall2 : (String.mk (g ++ (spaces (lvl * c.indent)
      ++ (trimWs s.data ++ ('\n' :: spaces (lvl * c.indent)))))).data.all isWs = false := hSall
  have htrim2 : trimWs (String.mk (g ++ (spaces (lvl * c.indent)
      ++ (trimWs s.data ++ ('\n' :: spaces (lvl * c.indent)))))).data = trimWs s.data := htrim
  have hrS : renderNode c lvl (Node.text (String.mk (g ++ (spaces (lvl * c.indent)
      ++ (trimWs s.data ++ ('\n' :: spaces (lvl * c.indent)))))))
      = spaces (lvl * c.indent) ++ escapeText c.entity_mode (trimWs s.data) := by
    rw [renderNode_text_itn c hitn, if_neg (by simp [hSall2]), htrim2]
  have hrSne : renderNode c lvl (Node.text (String.mk (g ++ (spaces (lvl * c.indent)
      ++ (trimWs s.data ++ ('\n' :: spaces (lvl * c.indent))))))) ≠ [] := by
    rw [hrS]
    intro hc
    exact escapeText_ne_nil c.entity_mode _ hTne (List.append_eq_nil.mp hc).2
  obtain ⟨mT, hmT⟩ := parseTextRun_escape_all c.entity_mode (g ++ (spaces (lvl * c.indent)
    ++ (trimWs s.data ++ ('\n' :: spaces (lvl * c.indent)))))
  refine ⟨NodeList.cons (Node.text (String.mk (g ++ (spaces (lvl * c.indent)
    ++ (trimWs s.data ++ ('\n' :: spaces (lvl * c.indent)))))))
    (NodeList.cons nd₂ tl₂), mT + mE + mB + 2, ?_, ?_, ?_, ?_⟩
  · intro h
    exact NodeList.noConfusion h
  · rw [renderList_cons_ne c lvl _ _ hrSne, renderList_cons_ne c lvl nd₂ tl₂ hrN2ne,
      hrS, hE2, hE1, hB2, hrl]
  · intro hall
    rw [allSimple_cons_eq, Bool.and_eq_true] at hall
    obtain ⟨_, hall2⟩ := hall
    rw [allSimple_cons_eq, Bool.and_eq_true] at hall2
    obtain ⟨hs2, hstl⟩ := hall2
    rw [inlineList_cons_eq, inlineList_cons_eq, hE3 hs2, hB3 hstl,
      show inlineNodeBytes c.entity_mode (Node.text (String.mk (g ++ (spaces (lvl * c.indent)
          ++ (trimWs s.data ++ ('\n' :: spaces (lvl * c.indent)))))))
        = g ++ (spaces (lvl * c.indent)
          ++ (escapeText c.entity_mode (trimWs s.data) ++ ('\n' :: spaces (lvl * c.indent))))
        from hescS,
      hrl]
    simp
  · intro rest fuel hm
    obtain ⟨f1, rfl⟩ : ∃ f1, fuel = f1 + 1 := ⟨fuel - 1, by omega⟩
    obtain ⟨f, rfl⟩ : ∃ f, f1 = f + 1 := ⟨f1 - 1, by omega⟩
    have hB := hB4 rest f (by omega)
    have hEc := hE4 ('\n' :: (renderList c lvl tl ++ (spaces nP ++ '<' :: '/' :: rest)))
      tl₂ ('<' :: '/' :: rest) f (by omega) hB
    obtain ⟨c0, g1, hg01⟩ : ∃ c0 g1, g = c0 :: g1 := by
      match hh : g with
      | [] => exact absurd rfl hg
      | c0 :: g1 => exact ⟨c0, g1, rfl⟩
    have hc0w : isWs c0 = true := hgws c0 (by rw [hg01]; exact List.mem_cons_self _ _)
    have hshape : g ++ (renderList c lvl (NodeList.cons (Node.text s) (NodeList.cons nt tl))
        ++ (spaces nP ++ '<' :: '/' :: rest))
        = c0 :: (g1 ++ (spaces (lvl * c.indent)
          ++ (escapeText c.entity_mode (trimWs s.data) ++ ('\n' :: (spaces (lvl * c.indent)
            ++ '<' :: (core ++ ('\n' :: (renderList c lvl tl
              ++ (spaces nP ++ '<' :: '/' :: rest))))))))) := by
      rw [hrl, hg01]
      simp
    rw [hshape]
    rw [parseNodes_text_branch (f + 1) c0 _ (isWs_ne_lt c0 hc0w)]
    have hTR := hmT ('<' :: (core ++ ('\n' :: (renderList c lvl tl
        ++ (spaces nP ++ '<' :: '/' :: rest)))))
      (Or.inr ⟨_, rfl⟩) (f + 1) (by omega)
    rw [hescS] at hTR
    have hTRshape : (g ++ (spaces (lvl * c.indent)
        ++ (escapeText c.entity_mode (trimWs s.data) ++ ('\n' :: spaces (lvl * c.indent)))))
        ++ '<' :: (core ++ ('\n' :: (renderList c lvl tl ++ (spaces nP ++ '<' :: '/' :: rest))))
        = c0 :: (g1 ++ (spaces (lvl * c.indent)
          ++ (escapeText c.entity_mode (trimWs s.data) ++ ('\n' :: (spaces (lvl * c.indent)
            ++ '<' :: (core ++ ('\n' :: (renderList c lvl tl
              ++ (spaces nP ++ '<' :: '/' :: rest))))))))) := by
      rw [hg01]
      simp
    rw [hTRshape] at hTR
    rw [hTR]
    show (do
      let (siblings, rest2) ← parseNodes (f + 1) ('<' :: (core ++ ('\n' ::
        (renderList c lvl tl ++ (spaces nP ++ '<' :: '/' :: rest)))))
      Except.ok (NodeList.cons (Node.text (String.mk (g ++ (spaces (lvl * c.indent)
        ++ (trimWs s.data ++ ('\n' :: spaces (lvl * c.indent))))))) siblings, rest2)) =
      Except.ok (NodeList.cons (Node.text (String.mk (g ++ (spaces (lvl * c.indent)
        ++ (trimWs s.data ++ ('\n' :: spaces (lvl * c.indent)))))))
        (NodeList.cons nd₂ tl₂), '<' :: '/' :: rest)
    rw [hEc]
    rfl

/-! ### The round-trip induction: non-text nodes and block regions -/

mutual
theorem wfNode_reparse (c : Config) (hitn : c.indent_text_nodes = true) :
    ∀ (nd : Node), wfNode nd = true → isTextNode nd = false → ∀ (lvl : Nat),
      ∃ (core : List Char) (nd₂ : Node) (m : Nat),
        renderNode c lvl nd = spaces (lvl * c.indent) ++ '<' :: core ∧
        renderNode c lvl nd₂ = renderNode c lvl nd ∧
        (isSimpleNode nd₂ = true →
          inlineNodeBytes c.entity_mode nd₂ = '<' :: core) ∧
        (∀ (REST : List Char) (sib : NodeList) (rest2 : List Char) (fuel : Nat), m ≤ fuel →
          parseNodes fuel REST = Except.ok (sib, rest2) →
          parseNodes (fuel + 1) ('<' :: (core ++ REST))
            = Except.ok (NodeList.cons nd₂ sib, rest2)) ∧
        (∀ (n : String) (a : List (String × String)) (ch : NodeList),
          nd = Node.element n a ch →
          ∃ chE t, nd₂ = Node.element n a chE ∧ core = n.data ++ t ∧
            ∀ (rest : List Char) (fuel : Nat), m ≤ fuel →
              parseElement fuel (core ++ rest) = Except.ok (n, a, chE, rest))
  | Node.element n a ch, hwf, _, lvl => by
    have hwf2 : (wfName n && a.all (fun x => wfName x.1) && namesNodup a && wfList ch) = true := hwf
    rw [Bool.and_eq_true, Bool.and_eq_true, Bool.and_eq_true] at hwf2
    obtain ⟨⟨⟨hn, hattrs⟩, hnd⟩, hch⟩ := hwf2
    have hattrs2 : ∀ x ∈ a, wfName x.1 = true := fun x hx => List.all_eq_true.mp hattrs x hx
    obtain ⟨ch₂B, mB, hB1, hB2, hB3, hB4⟩ := wfList_reparse c hitn ch hch (lvl + 1)
      (lvl * c.indent) ['\n'] (by simp) (by intro x hx; simp at hx; subst hx; decide)
    obtain ⟨mA1, hmA1⟩ := parseAttrs_inline_gt_all c.entity_mode a hattrs2 hnd
    obtain ⟨mA2, hmA2⟩ := parseAttrs_selfclose_all c.entity_mode a hattrs2 hnd c.end_pad
    obtain ⟨mA3, hmA3⟩ := parseAttrs_wrapped_all c.entity_mode a hattrs2 hnd
      ((lvl + 1) * c.indent) (lvl * c.indent)
    cases ch with
    | nil =>
      have helem : ∀ (rest : List Char) (fuel : Nat), mA2 + 1 ≤ fuel →
          parseElement fuel ((n.data ++ (attrsInline c.entity_mode a
            ++ (spaces c.end_pad ++ ['/', '>']))) ++ rest)
            = Except.ok (n, a, NodeList.nil, rest) := by
        intro rest fuel hf
        obtain ⟨f, rfl⟩ : ∃ f, fuel = f + 1 := ⟨fuel - 1, by omega⟩
        obtain ⟨c2, t2, hst, hc2⟩ := spaces_suffix_head c.end_pad '/' (by decide) ('>' :: rest)
        obtain ⟨c1, t1, hat, hc1⟩ := attrs_suffix_head c.entity_mode a c2 hc2 t2
        have hL : (n.data ++ (attrsInline c.entity_mode a
            ++ (spaces c.end_pad ++ ['/', '>']))) ++ rest = n.data ++ (c1 :: t1) := by
          rw [← hat, ← hst]
          simp
        have hts := name_split n.data (wfName_spec n hn).2 c1 hc1 t1
        rw [hL, parseElement_succ]
        simp only [hts.1, hts.2]
        rw [if_neg (wfName_spec n hn).1]
        have hback : c1 :: t1
            = attrsInline c.entity_mode a ++ spaces c.end_pad ++ '/' :: '>' :: rest := by
          rw [← hat, ← hst]
          simp
        rw [hback, hmA2 rest f (by omega)]
        rfl
      refine ⟨n.data ++ (attrsInline c.entity_mode a ++ (spaces c.end_pad ++ ['/', '>'])),
        Node.element n a NodeList.nil, mA2 + 1, ?_, rfl, ?_, ?_, ?_⟩
      · rw [renderNode_element]
        simp
      · intro h
        simp [isSimpleNode] at h
      · exact parseNodes_step_elem n hn _ a NodeList.nil (mA2 + 1) helem
      · intro n2 a2 ch2 heq
        injection heq with h1 h2 h3
        subst h1
        subst h2
        subst h3
        exact ⟨NodeList.nil, _, rfl, rfl, helem⟩
    | cons q qt =>
      by_cases hfit : (allSimple (NodeList.cons q qt)
          && (!c.indent_text_nodes
            || decide ((spaces (lvl * c.indent)).length
                 + (startTagInline c.entity_mode n a).length
                 + (inlineList c.entity_mode (NodeList.cons q qt)).length
                 + (endTag n).length ≤ c.max_line_length))) = true
      · have hallS : allSimple (NodeList.cons q qt) = true := by
          rw [Bool.and_eq_true] at hfit
          exact hfit.1
        obtain ⟨mS, hmS⟩ := parseNodes_inline_all c.entity_mode (NodeList.cons q qt) hch hallS
        have helem : ∀ (rest : List Char) (fuel : Nat), mA1 + mS + 1 ≤ fuel →
            parseElement fuel ((n.data ++ (attrsInline c.entity_mode a
              ++ ('>' :: (inlineList c.entity_mode (NodeList.cons q qt) ++ endTag n)))) ++ rest)
              = Except.ok (n, a, NodeList.cons q qt, rest) := by
          intro rest fuel hf
          obtain ⟨f, rfl⟩ : ∃ f, fuel = f + 1 := ⟨fuel - 1, by omega⟩
          obtain ⟨c1, t1, hat, hc1⟩ := attrs_suffix_head c.entity_mode a '>' (by decide)
            (inlineList c.entity_mode (NodeList.cons q qt)
              ++ '<' :: '/' :: (n.data ++ '>' :: rest))
          have hL : (n.data ++ (attrsInline c.entity_mode a
              ++ ('>' :: (inlineList c.entity_mode (NodeList.cons q qt) ++ endTag n)))) ++ rest
              = n.data ++ (c1 :: t1) := by
            rw [← hat]
            simp [endTag]
          have hts := name_split n.data (wfName_spec n hn).2 c1 hc1 t1
          rw [hL, parseElement_succ]
          simp only [hts.1, hts.2]
          rw [if_neg (wfName_spec n hn).1]
          have hback : c1 :: t1 = attrsInline c.entity_mode a
              ++ '>' :: (inlineList c.entity_mode (NodeList.cons q qt)
                ++ '<' :: '/' :: (n.data ++ '>' :: rest)) := by
            rw [← hat]
          rw [hback, hmA1 _ f (by omega)]
          show (do
            let (children, rest3) ← parseNodes f (inlineList c.entity_mode (NodeList.cons q qt)
              ++ '<' :: '/' :: (n.data ++ '>' :: rest))
            match rest3 with
            | '<' :: '/' :: r2 =>
              let ename := r2.takeWhile isNameChar
              if ename = n.data then
                match skipWsL (r2.dropWhile isNameChar) with
                | '>' :: r3 => Except.ok (String.mk n.data, a, children, r3)
                | _ => Except.error "malformed end tag"
              else Except.error "mismatched end tag"
            | _ => Except.error "unterminated element")
            = Except.ok (n, a, NodeList.cons q qt, rest)
          rw [hmS (n.data ++ '>' :: rest) f (by omega)]
          show (if (n.data ++ '>' :: rest).takeWhile isNameChar = n.data then
              match skipWsL ((n.data ++ '>' :: rest).dropWhile isNameChar) with
              | '>' :: r3 => Except.ok (String.mk n.data, a, NodeList.cons q qt, r3)
              | _ => Except.error "malformed end tag"
            else Except.error "mismatched end tag")
            = Except.ok (n, a, NodeList.cons q qt, rest)
          rw [(endTag_split n hn rest).1, if_pos rfl, (endTag_split n hn rest).2]
          rfl
        refine ⟨n.data ++ (attrsInline c.entity_mode a
            ++ ('>' :: (inlineList c.entity_mode (NodeList.cons q qt) ++ endTag n))),
          Node.element n a (NodeList.cons q qt), mA1 + mS + 1, ?_, rfl, ?_, ?_, ?_⟩
        · rw [renderNode_element_cons, if_pos hfit]
          simp [startTagInline]
        · intro h
          simp [isSimpleNode] at h
        · exact parseNodes_step_elem n hn _ a (NodeList.cons q qt) (mA1 + mS + 1) helem
        · intro n2 a2 ch2 heq
          injection heq with h1 h2 h3
          subst h1
          subst h2
          subst h3
          exact ⟨NodeList.cons q qt, _, rfl, rfl, helem⟩
      · obtain ⟨p, pt, rfl⟩ : ∃ p pt, ch₂B = NodeList.cons p pt := by
          match hq : ch₂B with
          | NodeList.nil => exact absurd rfl hB1
          | NodeList.cons p pt => exact ⟨p, pt, rfl⟩
        by_cases hwrap : decide (c.max_line_length < (spaces (lvl * c.indent)).length
            + (startTagInline c.entity_mode n a).length) = true
        · have hlt : c.max_line_length < (spaces (lvl * c.indent)).length
              + (startTagInline c.entity_mode n a).length := of_decide_eq_true hwrap
          have hfits2false : ∀ (L : NodeList), (allSimple L
              && (!c.indent_text_nodes
                || decide ((spaces (lvl * c.indent)).length
                     + (startTagInline c.entity_mode n a).length
                     + (inlineList c.entity_mode L).length
                     + (endTag n).length ≤ c.max_line_length))) = false := by
            intro L
            rw [hitn]
            rw [decide_eq_false (by omega :
              ¬((spaces (lvl * c.indent)).length
                + (startTagInline c.entity_mode n a).length
                + (inlineList c.entity_mode L).length
                + (endTag n).length ≤ c.max_line_length))]
            simp
          have helem : ∀ (rest : List Char) (fuel : Nat), mA3 + mB + 1 ≤ fuel →
              parseElement fuel ((n.data ++ '\n' ::
                (wrappedAttrLines c.entity_mode (spaces ((lvl + 1) * c.indent)) a
                  ++ (spaces (lvl * c.indent) ++ '>' :: ('\n' ::
                    (renderList c (lvl + 1) (NodeList.cons q qt)
                      ++ (spaces (lvl * c.indent) ++ endTag n)))))) ++ rest)
                = Except.ok (n, a, NodeList.cons p pt, rest) := by
            intro rest fuel hf
            obtain ⟨f, rfl⟩ : ∃ f, fuel = f + 1 := ⟨fuel - 1, by omega⟩
            have hL : (n.data ++ '\n' ::
                (wrappedAttrLines c.entity_mode (spaces ((lvl + 1) * c.indent)) a
                  ++ (spaces (lvl * c.indent) ++ '>' :: ('\n' ::
                    (renderList c (lvl + 1) (NodeList.cons q qt)
                      ++ (spaces (lvl * c.indent) ++ endTag n)))))) ++ rest
                = n.data ++ '\n' ::
                  (wrappedAttrLines c.entity_mode (spaces ((lvl + 1) * c.indent)) a
                    ++ (spaces (lvl * c.indent) ++ '>' :: ('\n' ::
                      (renderList c (lvl + 1) (NodeList.cons q qt)
                        ++ (spaces (lvl * c.indent)
                          ++ '<' :: '/' :: (n.data ++ '>' :: rest)))))) := by
              simp [endTag]
            have hts := name_split n.data (wfName_spec n hn).2 '\n' (by decide)
              (wrappedAttrLines c.entity_mode (spaces ((lvl + 1) * c.indent)) a
                ++ (spaces (lvl * c.indent) ++ '>' :: ('\n' ::
                  (renderList c (lvl + 1) (NodeList.cons q qt)
                    ++ (spaces (lvl * c.indent) ++ '<' :: '/' :: (n.data ++ '>' :: rest))))))
            rw [hL, parseElement_succ]
            simp only [hts.1, hts.2]
            rw [if_neg (wfName_spec n hn).1]
            rw [hmA3 _ f (by omega)]
            have hBB := hB4 (n.data ++ '>' :: rest) f (by omega)
            show (do
              let (children, rest3) ← parseNodes f ('\n' ::
                (renderList c (lvl + 1) (NodeList.cons q qt)
                  ++ (spaces (lvl * c.indent) ++ '<' :: '/' :: (n.data ++ '>' :: rest))))
              match rest3 with
              | '<' :: '/' :: r2 =>
                let ename := r2.takeWhile isNameChar
                if ename = n.data then
                  match skipWsL (r2.dropWhile isNameChar) with
                  | '>' :: r3 => Except.ok (String.mk n.data, a, children, r3)
                  | _ => Except.error "malformed end tag"
                else Except.error "mismatched end tag"
              | _ => Except.error "unterminated element")
              = Except.ok (n, a, NodeList.cons p pt, rest)
            rw [show parseNodes f ('\n' ::
                (renderList c (lvl + 1) (NodeList.cons q qt)
                  ++ (spaces (lvl * c.indent) ++ '<' :: '/' :: (n.data ++ '>' :: rest))))
              = Except.ok (NodeList.cons p pt, '<' :: '/' :: (n.data ++ '>' :: rest)) from hBB]
            show (if (n.data ++ '>' :: rest).takeWhile isNameChar = n.data then
                match skipWsL ((n.data ++ '>' :: rest).dropWhile isNameChar) with
                | '>' :: r3 => Except.ok (String.mk n.data, a, NodeList.cons p pt, r3)
                | _ => Except.error "malformed end tag"
              else Except.error "mismatched end tag")
              = Except.ok (n, a, NodeList.cons p pt, rest)
            rw [(endTag_split n hn rest).1, if_pos rfl, (endTag_split n hn rest).2]
            rfl
          have hrw1 : renderNode c lvl (Node.element n a (NodeList.cons p pt))
              = spaces (lvl * c.indent) ++ '<' :: (n.data ++ '\n' ::
                (wrappedAttrLines c.entity_mode (spaces ((lvl + 1) * c.indent)) a
                  ++ spaces (lvl * c.indent) ++ '>' :: '\n' ::
                  (renderList c (lvl + 1) (NodeList.cons p pt)
                    ++ spaces (lvl * c.indent) ++ endTag n))) := by
            rw [renderNode_element_cons,
              if_neg (by rw [hfits2false (NodeList.cons p pt)]; simp), if_pos hwrap]
          have hrw2 : renderNode c lvl (Node.element n a (NodeList.cons q qt))
              = spaces (lvl * c.indent) ++ '<' :: (n.data ++ '\n' ::
                (wrappedAttrLines c.entity_mode (spaces ((lvl + 1) * c.indent)) a
                  ++ spaces (lvl * c.indent) ++ '>' :: '\n' ::
                  (renderList c (lvl + 1) (NodeList.cons q qt)
                    ++ spaces (lvl * c.indent) ++ endTag n))) := by
            rw [renderNode_element_cons, if_neg hfit, if_pos hwrap]
          refine ⟨n.data ++ '\n' ::
              (wrappedAttrLines c.entity_mode (spaces ((lvl + 1) * c.indent)) a
                ++ (spaces (lvl * c.indent) ++ '>' :: ('\n' ::
                  (renderList c (lvl + 1) (NodeList.cons q qt)
                    ++ (spaces (lvl * c.indent) ++ endTag n))))),
            Node.element n a (NodeList.cons p pt), mA3 + mB + 1, ?_, ?_, ?_, ?_, ?_⟩
          · rw [hrw2]
            simp
          · rw [hrw1, hrw2, hB2]
          · intro h
            simp [isSimpleNode] at h
          · exact parseNodes_step_elem n hn _ a (NodeList.cons p pt) (mA3 + mB + 1) helem
          · intro n2 a2 ch2 heq
            injection heq with h1 h2 h3
            subst h1
            subst h2
            subst h3
            exact ⟨NodeList.cons p pt, _, rfl, rfl, helem⟩
        · have helem : ∀ (rest : List Char) (fuel : Nat), mA1 + mB + 1 ≤ fuel →
              parseElement fuel ((n.data ++ (attrsInline c.entity_mode a
                ++ ('>' :: ('\n' :: (renderList c (lvl + 1) (NodeList.cons q qt)
                  ++ (spaces (lvl * c.indent) ++ endTag n)))))) ++ rest)
                = Except.ok (n, a, NodeList.cons p pt, rest) := by
            intro rest fuel hf
            obtain ⟨f, rfl⟩ : ∃ f, fuel = f + 1 := ⟨fuel - 1, by omega⟩
            obtain ⟨c1, t1, hat, hc1⟩ := attrs_suffix_head c.entity_mode a '>' (by decide)
              ('\n' :: (renderList c (lvl + 1) (NodeList.cons q qt)
                ++ (spaces (lvl * c.indent) ++ '<' :: '/' :: (n.data ++ '>' :: rest))))
            have hL : (n.data ++ (attrsInline c.entity_mode a
                ++ ('>' :: ('\n' :: (renderList c (lvl + 1) (NodeList.cons q qt)
                  ++ (spaces (lvl * c.indent) ++ endTag n)))))) ++ rest
                = n.data ++ (c1 :: t1) := by
              rw [← hat]
              simp [endTag]
            have hts := name_split n.data (wfName_spec n hn).2 c1 hc1 t1
            rw [hL, parseElement_succ]
            simp only [hts.1, hts.2]
            rw [if_neg (wfName_spec n hn).1]
            have hback : c1 :: t1 = attrsInline c.entity_mode a
                ++ '>' :: ('\n' :: (renderList c (lvl + 1) (NodeList.cons q qt)
                  ++ (spaces (lvl * c.indent) ++ '<' :: '/' :: (n.data ++ '>' :: rest)))) := by
              rw [← hat]
            rw [hback, hmA1 _ f (by omega)]
            have hBB := hB4 (n.data ++ '>' :: rest) f (by omega)
            show (do
              let (children, rest3) ← parseNodes f ('\n' ::
                (renderList c (lvl + 1) (NodeList.cons q qt)
                  ++ (spaces (lvl * c.indent) ++ '<' :: '/' :: (n.data ++ '>' :: rest))))
              match rest3 with
              | '<' :: '/' :: r2 =>
                let ename := r2.takeWhile isNameChar
                if ename = n.data then
                  match skipWsL (r2.dropWhile isNameChar) with
                  | '>' :: r3 => Except.ok (String.mk n.data, a, children, r3)
                  | _ => Except.error "malformed end tag"
                else Except.error "mismatched end tag"
              | _ => Except.error "unterminated element")
              = Except.ok (n, a, NodeList.cons p pt, rest)
            rw [show parseNodes f ('\n' ::
                (renderList c (lvl + 1) (NodeList.cons q qt)
                  ++ (spaces (lvl * c.indent) ++ '<' :: '/' :: (n.data ++ '>' :: rest))))
              = Except.ok (NodeList.cons p pt, '<' :: '/' :: (n.data ++ '>' :: rest)) from hBB]
            show (if (n.data ++ '>' :: rest).takeWhile isNameChar = n.data then
                match skipWsL ((n.data ++ '>' :: rest).dropWhile isNameChar) with
                | '>' :: r3 => Except.ok (String.mk n.data, a, NodeList.cons p pt, r3)
                | _ => Except.error "malformed end tag"
              else Except.error "mismatched end tag")
              = Except.ok (n, a, NodeList.cons p pt, rest)
            rw [(endTag_split n hn rest).1, if_pos rfl, (endTag_split n hn rest).2]
            rfl
          refine ⟨n.data ++ (attrsInline c.entity_mode a
              ++ ('>' :: ('\n' :: (renderList c (lvl + 1) (NodeList.cons q qt)
                ++ (spaces (lvl * c.indent) ++ endTag n))))),
            Node.element n a (NodeList.cons p pt), mA1 + mB + 1, ?_, ?_, ?_, ?_, ?_⟩
          · rw [renderNode_element_cons, if_neg hfit, if_neg hwrap]
            simp [startTagInline]
          · by_cases hfit2 : (allSimple (NodeList.cons p pt)
                && (!c.indent_text_nodes
                  || decide ((spaces (lvl * c.indent)).length
                       + (startTagInline c.entity_mode n a).length
                       + (inlineList c.entity_mode (NodeList.cons p pt)).length
                       + (endTag n).length ≤ c.max_line_length))) = true
            · have hallS2 : allSimple (NodeList.cons p pt) = true := by
                rw [Bool.and_eq_true] at hfit2
                exact hfit2.1
              rw [renderNode_element_cons, if_pos hfit2, hB3 hallS2,
                renderNode_element_cons, if_neg hfit, if_neg hwrap]
              simp
            · rw [renderNode_element_cons, if_neg hfit2, if_neg hwrap, hB2,
                renderNode_element_cons, if_neg hfit, if_neg hwrap]
          · intro h
            simp [isSimpleNode] at h
          · exact parseNodes_step_elem n hn _ a (NodeList.cons p pt) (mA1 + mB + 1) helem
          · intro n2 a2 ch2 heq
            injection heq with h1 h2 h3
            subst h1
            subst h2
            subst h3
            exact ⟨NodeList.cons p pt, _, rfl, rfl, helem⟩
  | Node.text s, _, hnt, _ => by
    simp [isTextNode] at hnt
  | Node.comment s, hwf, _, lvl => by
    have hclean : cleanFor "-->".data s.data = true := hwf
    refine ⟨'!' :: '-' :: '-' :: (s.data ++ "-->".data), Node.comment s, 0, ?_, rfl, ?_, ?_, ?_⟩
    · rw [renderNode_comment]
      simp
    · intro _
      show "<!--".data ++ s.data ++ "-->".data = _
      simp
    · intro REST sib rest2 fuel _ hp
      have hshape : '<' :: (('!' :: '-' :: '-' :: (s.data ++ "-->".data)) ++ REST)
          = '<' :: '!' :: '-' :: '-' :: (s.data ++ ("-->".data ++ REST)) := by simp
      rw [hshape]
      show (do
        let (body, rest) ← scanUntil "-->".data (s.data ++ ("-->".data ++ REST))
        let (siblings, rest3) ← parseNodes fuel rest
        Except.ok (NodeList.cons (Node.comment (String.mk body)) siblings, rest3)) =
        Except.ok (NodeList.cons (Node.comment s) sib, rest2)
      rw [scanUntil_exact "-->".data (by decide) s.data _ hclean]
      show (do
        let (siblings, rest3) ← parseNodes fuel REST
        Except.ok (NodeList.cons (Node.comment (String.mk s.data)) siblings, rest3)) =
        Except.ok (NodeList.cons (Node.comment s) sib, rest2)
      rw [hp]
      rfl
    · intro n a ch h
      exact Node.noConfusion h
  | Node.cdata s, hwf, _, lvl => by
    have hclean : cleanFor "]]>".data s.data = true := hwf
    refine ⟨'!' :: '[' :: 'C' :: 'D' :: 'A' :: 'T' :: 'A' :: '[' :: (s.data ++ "]]>".data),
      Node.cdata s, 0, ?_, rfl, ?_, ?_, ?_⟩
    · rw [renderNode_cdata]
      simp
    · intro _
      show "<![CDATA[".data ++ s.data ++ "]]>".data = _
      simp
    · intro REST sib rest2 fuel _ hp
      have hshape : '<' ::
          (('!' :: '[' :: 'C' :: 'D' :: 'A' :: 'T' :: 'A' :: '[' :: (s.data ++ "]]>".data)) ++ REST)
          = '<' :: '!' :: '[' :: 'C' :: 'D' :: 'A' :: 'T' :: 'A' :: '[' ::
            (s.data ++ ("]]>".data ++ REST)) := by simp
      rw [hshape]
      show (do
        let (body, rest) ← scanUntil "]]>".data (s.data ++ ("]]>".data ++ REST))
        let (siblings, rest3) ← parseNodes fuel rest
        Except.ok (NodeList.cons (Node.cdata (String.mk body)) siblings, rest3)) =
        Except.ok (NodeList.cons (Node.cdata s) sib, rest2)
      rw [scanUntil_exact "]]>".data (by decide) s.data _ hclean]
      show (do
        let (siblings, rest3) ← parseNodes fuel REST
        Except.ok (NodeList.cons (Node.cdata (String.mk s.data)) siblings, rest3)) =
        Except.ok (NodeList.cons (Node.cdata s) sib, rest2)
      rw [hp]
      rfl
    · intro n a ch h
      exact Node.noConfusion h
  | Node.pi t d, hwf, _, lvl => by
    have hwf' : (noWsB t.data && cleanFor "?>".data (t.data ++ ' ' :: d.data)) = true := hwf
    rw [Bool.and_eq_true] at hwf'
    obtain ⟨hnws, hclean⟩ := hwf'
    have ht : ∀ c ∈ t.data, isWs c = false := by
      intro c hc
      have := List.all_eq_true.mp hnws c hc
      rw [← Bool.not_eq_true']
      simpa using this
    have hsplit := pi_target_split t.data d.data ht
    refine ⟨'?' :: (t.data ++ ' ' :: (d.data ++ "?>".data)), Node.pi t d, 0, ?_, rfl, ?_, ?_, ?_⟩
    · rw [renderNode_pi]
      simp
    · intro h
      simp [isSimpleNode] at h
    · intro REST sib rest2 fuel _ hp
      have hshape : '<' :: (('?' :: (t.data ++ ' ' :: (d.data ++ "?>".data))) ++ REST)
          = '<' :: '?' :: ((t.data ++ ' ' :: d.data) ++ ("?>".data ++ REST)) := by simp
      rw [hshape]
      show (do
        let (raw, rest) ← scanUntil "?>".data ((t.data ++ ' ' :: d.data) ++ ("?>".data ++ REST))
        let target := raw.takeWhile fun x => !isWs x
        let dataPart :=
          match raw.dropWhile (fun x => !isWs x) with
          | [] => []
          | _ :: u => u
        let (siblings, rest3) ← parseNodes fuel rest
        Except.ok
          (NodeList.cons (Node.pi (String.mk target) (String.mk dataPart)) siblings, rest3)) =
        Except.ok (NodeList.cons (Node.pi t d) sib, rest2)
      rw [scanUntil_exact "?>".data (by decide) (t.data ++ ' ' :: d.data) _ hclean]
      show (do
        let (siblings, rest3) ← parseNodes fuel REST
        Except.ok (NodeList.cons
          (Node.pi (String.mk ((t.data ++ ' ' :: d.data).takeWhile fun x => !isWs x))
            (String.mk (match (t.data ++ ' ' :: d.data).dropWhile (fun x => !isWs x) with
              | [] => []
              | _ :: u => u))) siblings, rest3)) =
        Except.ok (NodeList.cons (Node.pi t d) sib, rest2)
      rw [hsplit.1, hsplit.2, hp]
      rfl
    · intro n a ch h
      exact Node.noConfusion h
  | Node.doctype s, hwf, _, _ => by
    simp [wfNode] at hwf

theorem wfList_reparse (c : Config) (hitn : c.indent_text_nodes = true) :
    ∀ (ch : NodeList), wfList ch = true → ∀ (lvl nP : Nat) (g : List Char),
      g ≠ [] → (∀ x ∈ g, isWs x = true) →
      ∃ (ch₂ : NodeList) (m : Nat),
        ch₂ ≠ NodeList.nil ∧
        renderList c lvl ch₂ = renderList c lvl ch ∧
        (allSimple ch₂ = true →
          inlineList c.entity_mode ch₂ = g ++ (renderList c lvl ch ++ spaces nP)) ∧
        (∀ (rest : List Char) (fuel : Nat), m ≤ fuel →
          parseNodes fuel (g ++ (renderList c lvl ch ++ (spaces nP ++ '<' :: '/' :: rest)))
            = Except.ok (ch₂, '<' :: '/' :: rest))
  | NodeList.nil, _, lvl, nP, g, hg, hgws => by
    have hgnP : ∀ x ∈ g ++ spaces nP, isWs x = true :=
      mem_append_ws _ _ hgws (fun x hx => mem_spaces_isWs _ x hx)
    obtain ⟨mT, hmT⟩ := parseTextRun_escape_all c.entity_mode (g ++ spaces nP)
    refine ⟨NodeList.cons (Node.text (String.mk (g ++ spaces nP))) NodeList.nil,
      mT + 2, ?_, ?_, ?_, ?_⟩
    · intro h
      exact NodeList.noConfusion h
    · have htxt : renderNode c lvl (Node.text (String.mk (g ++ spaces nP))) = [] := by
        rw [renderNode_text_itn c hitn, if_pos (List.all_eq_true.mpr hgnP)]
      rw [renderList_cons_nil_head c lvl _ _ htxt]
    · intro _
      rw [inlineList_cons_eq,
        show inlineNodeBytes c.entity_mode (Node.text (String.mk (g ++ spaces nP)))
          = g ++ spaces nP from escapeText_of_ws c.entity_mode _ hgnP,
        inlineList_nil, renderList_nil]
      simp
    · intro rest fuel hm
      obtain ⟨f1, rfl⟩ : ∃ f1, fuel = f1 + 1 := ⟨fuel - 1, by omega⟩
      obtain ⟨f, rfl⟩ : ∃ f, f1 = f + 1 := ⟨f1 - 1, by omega⟩
      obtain ⟨c0, g1, hg01⟩ : ∃ c0 g1, g = c0 :: g1 := by
        match hh : g with
        | [] => exact absurd rfl hg
        | c0 :: g1 => exact ⟨c0, g1, rfl⟩
      have hc0w : isWs c0 = true := hgws c0 (by rw [hg01]; exact List.mem_cons_self _ _)
      have hshape : g ++ (renderList c lvl NodeList.nil ++ (spaces nP ++ '<' :: '/' :: rest))
          = c0 :: (g1 ++ (spaces nP ++ '<' :: '/' :: rest)) := by
        rw [renderList_nil, hg01]
        simp
      rw [hshape]
      rw [parseNodes_text_branch (f + 1) c0 _ (isWs_ne_lt c0 hc0w)]
      have hTR := hmT ('<' :: '/' :: rest) (Or.inr ⟨_, rfl⟩) (f + 1) (by omega)
      rw [escapeText_of_ws c.entity_mode _ hgnP] at hTR
      have hTRshape : (g ++ spaces nP) ++ '<' :: '/' :: rest
          = c0 :: (g1 ++ (spaces nP ++ '<' :: '/' :: rest)) := by
        rw [hg01]
        simp
      rw [hTRshape] at hTR
      rw [hTR]
      show (do
        let (siblings, rest2) ← parseNodes (f + 1) ('<' :: '/' :: rest)
        Except.ok (NodeList.cons (Node.text (String.mk (g ++ spaces nP))) siblings, rest2)) =
        Except.ok (NodeList.cons (Node.text (String.mk (g ++ spaces nP))) NodeList.nil,
          '<' :: '/' :: rest)
      rw [show parseNodes (f + 1) ('<' :: '/' :: rest)
        = Except.ok (NodeList.nil, '<' :: '/' :: rest) from by
          rw [parseNodes_cons, if_pos rfl]
          rfl]
      rfl
  | NodeList.cons (Node.text s) NodeList.nil, hwf, lvl, nP, g, hg, hgws => by
    obtain ⟨hn, _, _⟩ := wfList_cons_spec _ _ hwf
    by_cases hws : s.data.all isWs = true
    · obtain ⟨ch₂, m, h1, h2, h3, h4⟩ := wfList_reparse c hitn NodeList.nil rfl lvl nP g hg hgws
      have hdrop : renderList c lvl (NodeList.cons (Node.text s) NodeList.nil)
          = renderList c lvl NodeList.nil :=
        renderList_cons_nil_head _ _ _ _ (by rw [renderNode_text_itn c hitn, if_pos hws])
      refine ⟨ch₂, m, h1, ?_, ?_, ?_⟩
      · rw [hdrop]
        exact h2
      · rw [hdrop]
        exact h3
      · rw [hdrop]
        exact h4
    · have hws' : s.data.all isWs = false := Bool.eq_false_iff.mpr hws
      have hindws : ∀ x ∈ spaces (lvl * c.indent), isWs x = true :=
        fun x hx => mem_spaces_isWs _ x hx
      have hnlnP : ∀ x ∈ '\n' :: spaces nP, isWs x = true := by
        intro x hx
        rcases List.mem_cons.mp hx with rfl | hx2
        · decide
        · exact mem_spaces_isWs _ x hx2
      have hgind : ∀ x ∈ g ++ spaces (lvl * c.indent), isWs x = true :=
        mem_append_ws _ _ hgws hindws
      have hTne : trimWs s.data ≠ [] := trimWs_ne_nil s.data hws'
      have hrt : renderNode c lvl (Node.text s)
          = spaces (lvl * c.indent) ++ escapeText c.entity_mode (trimWs s.data) := by
        rw [renderNode_text_itn c hitn, if_neg (by simp [hws'])]
      have hrtne : renderNode c lvl (Node.text s) ≠ [] := by
        rw [hrt]
        intro hc
        exact escapeText_ne_nil c.entity_mode _ hTne (List.append_eq_nil.mp hc).2
      have hrl : renderList c lvl (NodeList.cons (Node.text s) NodeList.nil)
          = (spaces (lvl * c.indent) ++ escapeText c.entity_mode (trimWs s.data))
            ++ '\n' :: [] := by
        rw [renderList_cons_ne c lvl _ _ hrtne, hrt, renderList_nil]
      have htrim : trimWs (g ++ (spaces (lvl * c.indent)
          ++ (trimWs s.data ++ ('\n' :: spaces nP)))) = trimWs s.data := by
        have hgrp : g ++ (spaces (lvl * c.indent) ++ (trimWs s.data ++ ('\n' :: spaces nP)))
            = (g ++ spaces (lvl * c.indent)) ++ trimWs s.data ++ ('\n' :: spaces nP) := by
          simp
        rw [hgrp, trimWs_pad _ _ _ hgind hnlnP, trimWs_idem]
      have hSall : (g ++ (spaces (lvl * c.indent)
          ++ (trimWs s.data ++ ('\n' :: spaces nP)))).all isWs = false := by
        have h1 := all_isWs_trimWs (g ++ (spaces (lvl * c.indent)
          ++ (trimWs s.data ++ ('\n' :: spaces nP))))
        rw [htrim] at h1
        rw [← h1, all_isWs_trimWs]
        exact hws'
      have hescS : escapeText c.entity_mode (g ++ (spaces (lvl * c.indent)
          ++ (trimWs s.data ++ ('\n' :: spaces nP))))
          = g ++ (spaces (lvl * c.indent)
            ++ (escapeText c.entity_mode (trimWs s.data) ++ ('\n' :: spaces nP))) := by
        rw [escapeText_append, escapeText_append, escapeText_append,
          escapeText_of_ws _ g hgws, escapeText_of_ws _ _ hindws,
          escapeText_of_ws _ _ hnlnP]
      have hSall2 : (String.mk (g ++ (spaces (lvl * c.indent)
          ++ (trimWs s.data ++ ('\n' :: spaces nP))))).data.all isWs = false := hSall
      have htrim2 : trimWs (String.mk (g ++ (spaces (lvl * c.indent)
          ++ (trimWs s.data ++ ('\n' :: spaces nP))))).data = trimWs s.data := htrim
      have hrS : renderNode c lvl (Node.text (String.mk (g ++ (spaces (lvl * c.indent)
          ++ (trimWs s.data ++ ('\n' :: spaces nP))))))
          = spaces (lvl * c.indent) ++ escapeText c.entity_mode (trimWs s.data) := by
        rw [renderNode_text_itn c hitn, if_neg (by simp [hSall2]), htrim2]
      have hrSne : renderNode c lvl (Node.text (String.mk (g ++ (spaces (lvl * c.indent)
          ++ (trimWs s.data ++ ('\n' :: spaces nP)))))) ≠ [] := by
        rw [hrS]
        intro hc
        exact escapeText_ne_nil c.entity_mode _ hTne (List.append_eq_nil.mp hc).2
      obtain ⟨mT, hmT⟩ := parseTextRun_escape_all c.entity_mode
        (g ++ (spaces (lvl * c.indent) ++ (trimWs s.data ++ ('\n' :: spaces nP))))
      refine ⟨NodeList.cons (Node.text (String.mk (g ++ (spaces (lvl * c.indent)
        ++ (trimWs s.data ++ ('\n' :: spaces nP)))))) NodeList.nil, mT + 2, ?_, ?_, ?_, ?_⟩
      · intro h
        exact NodeList.noConfusion h
      · rw [renderList_cons_ne c lvl _ _ hrSne, hrS, hrl, renderList_nil]
      · intro _
        rw [inlineList_cons_eq,
          show inlineNodeBytes c.entity_mode (Node.text (String.mk (g ++ (spaces (lvl * c.indent)
              ++ (trimWs s.data ++ ('\n' :: spaces nP))))))
            = g ++ (spaces (lvl * c.indent)
              ++ (escapeText c.entity_mode (trimWs s.data) ++ ('\n' :: spaces nP)))
            from hescS,
          inlineList_nil, hrl]
        simp
      · intro rest fuel hm
        obtain ⟨f1, rfl⟩ : ∃ f1, fuel = f1 + 1 := ⟨fuel - 1, by omega⟩
        obtain ⟨f, rfl⟩ : ∃ f, f1 = f + 1 := ⟨f1 - 1, by omega⟩
        obtain ⟨c0, g1, hg01⟩ : ∃ c0 g1, g = c0 :: g1 := by
          match hh : g with
          | [] => exact absurd rfl hg
          | c0 :: g1 => exact ⟨c0, g1, rfl⟩
        have hc0w : isWs c0 = true := hgws c0 (by rw [hg01]; exact List.mem_cons_self _ _)
        have hshape : g ++ (renderList c lvl (NodeList.cons (Node.text s) NodeList.nil)
            ++ (spaces nP ++ '<' :: '/' :: rest))
            = c0 :: (g1 ++ (spaces (lvl * c.indent)
              ++ (escapeText c.entity_mode (trimWs s.data)
                ++ ('\n' :: (spaces nP ++ '<' :: '/' :: rest))))) := by
          rw [hrl, hg01]
          simp
        rw [hshape]
        rw [parseNodes_text_branch (f + 1) c0 _ (isWs_ne_lt c0 hc0w)]
        have hTR := hmT ('<' :: '/' :: rest) (Or.inr ⟨_, rfl⟩) (f + 1) (by omega)
        rw [hescS] at hTR
        have hTRshape : (g ++ (spaces (lvl * c.indent)
            ++ (escapeText c.entity_mode (trimWs s.data) ++ ('\n' :: spaces nP))))
            ++ '<' :: '/' :: rest
            = c0 :: (g1 ++ (spaces (lvl * c.indent)
              ++ (escapeText c.entity_mode (trimWs s.data)
                ++ ('\n' :: (spaces nP ++ '<' :: '/' :: rest))))) := by
          rw [hg01]
          simp
        rw [hTRshape] at hTR
        rw [hTR]
        show (do
          let (siblings, rest2) ← parseNodes (f + 1) ('<' :: '/' :: rest)
          Except.ok (NodeList.cons (Node.text (String.mk (g ++ (spaces (lvl * c.indent)
            ++ (trimWs s.data ++ ('\n' :: spaces nP)))))) siblings, rest2)) =
          Except.ok (NodeList.cons (Node.text (String.mk (g ++ (spaces (lvl * c.indent)
            ++ (trimWs s.data ++ ('\n' :: spaces nP)))))) NodeList.nil, '<' :: '/' :: rest)
        rw [show parseNodes (f + 1) ('<' :: '/' :: rest)
          = Except.ok (NodeList.nil, '<' :: '/' :: rest) from by
            rw [parseNodes_cons, if_pos rfl]
            rfl]
        rfl
  | NodeList.cons (Node.text s) (NodeList.cons nt tl'), hwf, lvl, nP, g, hg, hgws => by
    obtain ⟨hn, htl, hnadj⟩ := wfList_cons_spec _ _ hwf
    obtain ⟨hnt, htl', _⟩ := wfList_cons_spec _ _ htl
    have hntnt : isTextNode nt = false := by
      simpa [isTextNode, headIsText] using hnadj
    by_cases hws : s.data.all isWs = true
    · obtain ⟨ch₂, m, h1, h2, h3, h4⟩ :=
        wfList_reparse c hitn (NodeList.cons nt tl') htl lvl nP g hg hgws
      have hdrop : renderList c lvl (NodeList.cons (Node.text s) (NodeList.cons nt tl'))
          = renderList c lvl (NodeList.cons nt tl') :=
        renderList_cons_nil_head _ _ _ _ (by rw [renderNode_text_itn c hitn, if_pos hws])
      refine ⟨ch₂, m, h1, ?_, ?_, ?_⟩
      · rw [hdrop]
        exact h2
      · rw [hdrop]
        exact h3
      · rw [hdrop]
        exact h4
    · have hws' : s.data.all isWs = false := Bool.eq_false_iff.mpr hws
      obtain ⟨core, nd₂, mE, hE1, hE2, hE3, hE4, _⟩ :=
        wfNode_reparse c hitn nt hnt hntnt lvl
      obtain ⟨tl₂, mB, _, hB2, hB3, hB4⟩ := wfList_reparse c hitn tl' htl' lvl nP ['\n']
        (by simp) (by intro x hx; simp at hx; subst hx; decide)
      exact textCons_assemble c hitn s hws' nt tl' lvl nP g hg hgws
        core nd₂ mE hE1 hE2 hE3 hE4 tl₂ mB hB2 hB3 hB4
  | NodeList.cons (Node.element en ea ech) tl, hwf, lvl, nP, g, hg, hgws => by
    obtain ⟨hn, htl, _⟩ := wfList_cons_spec _ _ hwf
    obtain ⟨core, nd₂, mE, hE1, hE2, hE3, hE4, _⟩ :=
      wfNode_reparse c hitn (Node.element en ea ech) hn rfl lvl
    obtain ⟨tl₂, mB, _, hB2, hB3, hB4⟩ := wfList_reparse c hitn tl htl lvl nP ['\n']
      (by simp) (by intro x hx; simp at hx; subst hx; decide)
    exact blockCons_assemble c hitn (Node.element en ea ech) tl lvl nP g hg hgws
      core nd₂ mE hE1 hE2 hE3 hE4 tl₂ mB hB2 hB3 hB4
  | NodeList.cons (Node.comment s) tl, hwf, lvl, nP, g, hg, hgws => by
    obtain ⟨hn, htl, _⟩ := wfList_cons_spec _ _ hwf
    obtain ⟨core, nd₂, mE, hE1, hE2, hE3, hE4, _⟩ :=
      wfNode_reparse c hitn (Node.comment s) hn rfl lvl
    obtain ⟨tl₂, mB, _, hB2, hB3, hB4⟩ := wfList_reparse c hitn tl htl lvl nP ['\n']
      (by simp) (by intro x hx; simp at hx; subst hx; decide)
    exact blockCons_assemble c hitn (Node.comment s) tl lvl nP g hg hgws
      core nd₂ mE hE1 hE2 hE3 hE4 tl₂ mB hB2 hB3 hB4
  | NodeList.cons (Node.cdata s) tl, hwf, lvl, nP, g, hg, hgws => by
    obtain ⟨hn, htl, _⟩ := wfList_cons_spec _ _ hwf
    obtain ⟨core, nd₂, mE, hE1, hE2, hE3, hE4, _⟩ :=
      wfNode_reparse c hitn (Node.cdata s) hn rfl lvl
    obtain ⟨tl₂, mB, _, hB2, hB3, hB4⟩ := wfList_reparse c hitn tl htl lvl nP ['\n']
      (by simp) (by intro x hx; simp at hx; subst hx; decide)
    exact blockCons_assemble c hitn (Node.cdata s) tl lvl nP g hg hgws
      core nd₂ mE hE1 hE2 hE3 hE4 tl₂ mB hB2 hB3 hB4
  | NodeList.cons (Node.pi pt pd) tl, hwf, lvl, nP, g, hg, hgws => by
    obtain ⟨hn, htl, _⟩ := wfList_cons_spec _ _ hwf
    obtain ⟨core, nd₂, mE, hE1, hE2, hE3, hE4, _⟩ :=
      wfNode_reparse c hitn (Node.pi pt pd) hn rfl lvl
    obtain ⟨tl₂, mB, _, hB2, hB3, hB4⟩ := wfList_reparse c hitn tl htl lvl nP ['\n']
      (by simp) (by intro x hx; simp at hx; subst hx; decide)
    exact blockCons_assemble c hitn (Node.pi pt pd) tl lvl nP g hg hgws
      core nd₂ mE hE1 hE2 hE3 hE4 tl₂ mB hB2 hB3 hB4
  | NodeList.cons (Node.doctype s) tl, hwf, lvl, nP, g, hg, hgws => by
    obtain ⟨hn, _, _⟩ := wfList_cons_spec _ _ hwf
    simp [wfNode] at hn
end

/-! ### Document-level round trip: Misc nodes and the whole document -/

theorem spaces_zero_mul (k : Nat) : spaces (0 * k) = [] := by
  rw [Nat.zero_mul]
  rfl

theorem renderNode_doctype (c : Config) (lvl : Nat) (s : String) :
    renderNode c lvl (Node.doctype s) =
      spaces (lvl * c.indent) ++ "<!DOCTYPE".data ++ s.data ++ ['>'] := rfl

theorem renderAfter_cons (c : Config) (n : Node) (rest : NodeList) :
    renderAfter c (NodeList.cons n rest) = '\n' :: (renderNode c 0 n ++ renderAfter c rest) := rfl

theorem renderMisc_comment (c : Config) (s : String) :
    renderNode c 0 (Node.comment s) = '<' :: ('!' :: '-' :: '-' :: (s.data ++ "-->".data)) := by
  rw [renderNode_comment, spaces_zero_mul]
  simp

theorem renderMisc_pi (c : Config) (t d : String) :
    renderNode c 0 (Node.pi t d) = '<' :: ('?' :: (t.data ++ ' ' :: (d.data ++ "?>".data))) := by
  rw [renderNode_pi, spaces_zero_mul]
  simp

theorem renderMisc_doctype (c : Config) (s : String) :
    renderNode c 0 (Node.doctype s)
      = '<' :: ('!' :: 'D' :: 'O' :: 'C' :: 'T' :: 'Y' :: 'P' :: 'E' :: (s.data ++ ['>'])) := by
  rw [renderNode_doctype, spaces_zero_mul]
  simp

theorem parseMisc_succ (fuel : Nat) (l : List Char) :
    parseMisc (fuel + 1) l =
      (match skipWsL l with
      | [] => Except.ok (NodeList.nil, [])
      | c :: r =>
        if c = '<' then
          match r with
          | [] => Except.ok (NodeList.nil, skipWsL l)
          | c2 :: r2 =>
            if c2 = '!' then
              match r2 with
              | '-' :: '-' :: r3 =>
                (do
                  let (body, rest) ← scanUntil "-->".data r3
                  let (more, rest2) ← parseMisc fuel rest
                  Except.ok (NodeList.cons (Node.comment (String.mk body)) more, rest2))
              | 'D' :: 'O' :: 'C' :: 'T' :: 'Y' :: 'P' :: 'E' :: r3 =>
                (do
                  let (body, rest) ← scanUntil ['>'] r3
                  let (more, rest2) ← parseMisc fuel rest
                  Except.ok (NodeList.cons (Node.doctype (String.mk body)) more, rest2))
              | _ => Except.ok (NodeList.nil, skipWsL l)
            else if c2 = '?' then
              (do
                let (raw, rest) ← scanUntil "?>".data r2
                let target := raw.takeWhile fun d => !isWs d
                let dataPart :=
                  match raw.dropWhile (fun d => !isWs d) with
                  | [] => []
                  | _ :: t => t
                let (more, rest2) ← parseMisc fuel rest
                Except.ok
                  (NodeList.cons (Node.pi (String.mk target) (String.mk dataPart)) more, rest2))
            else Except.ok (NodeList.nil, skipWsL l)
        else Except.ok (NodeList.nil, skipWsL l)) := rfl

theorem parseMisc_stop (fuel : Nat) (l : List Char) (c1 : Char) (r2 : List Char)
    (h : skipWsL l = '<' :: c1 :: r2) (h1 : ¬c1 = '!') (h2 : ¬c1 = '?') :
    parseMisc (fuel + 1) l = Except.ok (NodeList.nil, '<' :: c1 :: r2) := by
  rw [parseMisc_succ, h]
  show (if c1 = '!' then
      (match r2 with
       | '-' :: '-' :: r3 =>
         (do
           let (body, rest) ← scanUntil "-->".data r3
           let (more, rest3) ← parseMisc fuel rest
           Except.ok (NodeList.cons (Node.comment (String.mk body)) more, rest3))
       | 'D' :: 'O' :: 'C' :: 'T' :: 'Y' :: 'P' :: 'E' :: r3 =>
         (do
           let (body, rest) ← scanUntil ['>'] r3
           let (more, rest3) ← parseMisc fuel rest
           Except.ok (NodeList.cons (Node.doctype (String.mk body)) more, rest3))
       | _ => Except.ok (NodeList.nil, '<' :: c1 :: r2))
    else if c1 = '?' then
      (do
        let (raw, rest) ← scanUntil "?>".data r2
        let target := raw.takeWhile fun x => !isWs x
        let dataPart :=
          match raw.dropWhile (fun x => !isWs x) with
          | [] => []
          | _ :: u => u
        let (more, rest3) ← parseMisc fuel rest
        Except.ok (NodeList.cons (Node.pi (String.mk target) (String.mk dataPart)) more, rest3))
    else Except.ok (NodeList.nil, '<' :: c1 :: r2)) = Except.ok (NodeList.nil, '<' :: c1 :: r2)
  rw [if_neg h1, if_neg h2]

theorem parseMisc_comment (fuel : Nat) (l : List Char) (s : String) (REST : List Char)
    (hclean : cleanFor "-->".data s.data = true)
    (h : skipWsL l = '<' :: '!' :: '-' :: '-' :: (s.data ++ ("-->".data ++ REST)))
    (more : NodeList) (rest2 : List Char)
    (hrec : parseMisc fuel REST = Except.ok (more, rest2)) :
    parseMisc (fuel + 1) l = Except.ok (NodeList.cons (Node.comment s) more, rest2) := by
  rw [parseMisc_succ, h]
  show (do
    let (body, rest) ← scanUntil "-->".data (s.data ++ ("-->".data ++ REST))
    let (more2, rest3) ← parseMisc fuel rest
    Except.ok (NodeList.cons (Node.comment (String.mk body)) more2, rest3)) =
    Except.ok (NodeList.cons (Node.comment s) more, rest2)
  rw [scanUntil_exact "-->".data (by decide) s.data _ hclean]
  show (do
    let (more2, rest3) ← parseMisc fuel REST
    Except.ok (NodeList.cons (Node.comment (String.mk s.data)) more2, rest3)) =
    Except.ok (NodeList.cons (Node.comment s) more, rest2)
  rw [hrec]
  rfl

theorem parseMisc_doctype (fuel : Nat) (l : List Char) (s : String) (REST : List Char)
    (hclean : cleanFor ['>'] s.data = true)
    (h : skipWsL l = '<' :: '!' :: 'D' :: 'O' :: 'C' :: 'T' :: 'Y' :: 'P' :: 'E' ::
      (s.data ++ (['>'] ++ REST)))
    (more : NodeList) (rest2 : List Char)
    (hrec : parseMisc fuel REST = Except.ok (more, rest2)) :
    parseMisc (fuel + 1) l = Except.ok (NodeList.cons (Node.doctype s) more, rest2) := by
  rw [parseMisc_succ, h]
  show (do
    let (body, rest) ← scanUntil ['>'] (s.data ++ (['>'] ++ REST))
    let (more2, rest3) ← parseMisc fuel rest
    Except.ok (NodeList.cons (Node.doctype (String.mk body)) more2, rest3)) =
    Except.ok (NodeList.cons (Node.doctype s) more, rest2)
  rw [scanUntil_exact ['>'] (by simp) s.data _ hclean]
  show (do
    let (more2, rest3) ← parseMisc fuel REST
    Except.ok (NodeList.cons (Node.doctype (String.mk s.data)) more2, rest3)) =
    Except.ok (NodeList.cons (Node.doctype s) more, rest2)
  rw [hrec]
  rfl

theorem parseMisc_pi (fuel : Nat) (l : List Char) (t d : String) (REST : List Char)
    (ht : ∀ x ∈ t.data, isWs x = false)
    (hclean : cleanFor "?>".data (t.data ++ ' ' :: d.data) = true)
    (h : skipWsL l = '<' :: '?' :: ((t.data ++ ' ' :: d.data) ++ ("?>".data ++ REST)))
    (more : NodeList) (rest2 : List Char)
    (hrec : parseMisc fuel REST = Except.ok (more, rest2)) :
    parseMisc (fuel + 1) l = Except.ok (NodeList.cons (Node.pi t d) more, rest2) := by
  rw [parseMisc_succ, h]
  show (do
    let (raw, rest) ← scanUntil "?>".data ((t.data ++ ' ' :: d.data) ++ ("?>".data ++ REST))
    let target := raw.takeWhile fun x => !isWs x
    let dataPart :=
      match raw.dropWhile (fun x => !isWs x) with
      | [] => []
      | _ :: u => u
    let (more2, rest3) ← parseMisc fuel rest
    Except.ok (NodeList.cons (Node.pi (String.mk target) (String.mk dataPart)) more2, rest3)) =
    Except.ok (NodeList.cons (Node.pi t d) more, rest2)
  rw [scanUntil_exact "?>".data (by decide) _ _ hclean]
  show (do
    let (more2, rest3) ← parseMisc fuel REST
    Except.ok (NodeList.cons
      (Node.pi (String.mk ((t.data ++ ' ' :: d.data).takeWhile fun x => !isWs x))
        (String.mk (match (t.data ++ ' ' :: d.data).dropWhile (fun x => !isWs x) with
          | [] => []
          | _ :: u => u))) more2, rest3)) =
    Except.ok (NodeList.cons (Node.pi t d) more, rest2)
  rw [(pi_target_split t.data d.data ht).1, (pi_target_split t.data d.data ht).2, hrec]
  rfl

theorem parseMisc_renderList (c : Config) :
    ∀ (ms : NodeList), wfMisc ms = true →
      ∃ m, ∀ (pre X : List Char), (∀ x ∈ pre, isWs x = true) →
        (X = [] ∨ ∃ c1 r2, X = '<' :: c1 :: r2 ∧ isNameChar c1 = true) →
        ∀ fuel, m ≤ fuel →
        parseMisc fuel (pre ++ (renderList c 0 ms ++ X)) = Except.ok (ms, X)
  | NodeList.nil, _ => by
    refine ⟨1, fun pre X hpre hX fuel hf => ?_⟩
    obtain ⟨f, rfl⟩ : ∃ f, fuel = f + 1 := ⟨fuel - 1, by omega⟩
    rcases hX with rfl | ⟨c1, r2, rfl, hc1⟩
    · have hin : pre ++ (renderList c 0 NodeList.nil ++ ([] : List Char)) = pre := by
        rw [renderList_nil]
        simp
      rw [hin, parseMisc_succ, show skipWsL pre = [] from dropWhile_of_all_ws pre hpre]
    · have hin : pre ++ (renderList c 0 NodeList.nil ++ ('<' :: c1 :: r2))
          = pre ++ '<' :: c1 :: r2 := by
        rw [renderList_nil]
        simp
      have hsk : skipWsL (pre ++ '<' :: c1 :: r2) = '<' :: c1 :: r2 := by
        rw [show skipWsL (pre ++ '<' :: c1 :: r2) = skipWsL ('<' :: c1 :: r2) from
          dropWhile_append_of_all isWs pre _ hpre, skipWsL_of_head_neg _ _ (by decide)]
      rw [hin]
      exact parseMisc_stop f _ c1 r2 hsk (nameChar_ne_bang c1 hc1) (nameChar_ne_ques c1 hc1)
  | NodeList.cons nd rest, hwf => by
    have hwf2 : (wfMiscNode nd && wfMisc rest) = true := hwf
    rw [Bool.and_eq_true] at hwf2
    obtain ⟨hnd, hrest⟩ := hwf2
    obtain ⟨m, hm⟩ := parseMisc_renderList c rest hrest
    cases nd with
    | comment s =>
      have hclean : cleanFor "-->".data s.data = true := hnd
      refine ⟨m + 1, fun pre X hpre hX fuel hf => ?_⟩
      obtain ⟨f, rfl⟩ : ∃ f, fuel = f + 1 := ⟨fuel - 1, by omega⟩
      have hrne : renderNode c 0 (Node.comment s) ≠ [] := by
        rw [renderMisc_comment]
        simp
      have hb : pre ++ (renderList c 0 (NodeList.cons (Node.comment s) rest) ++ X)
          = pre ++ '<' :: ('!' :: '-' :: '-' ::
            (s.data ++ ("-->".data ++ ('\n' :: (renderList c 0 rest ++ X))))) := by
        rw [renderList_cons_ne c 0 _ _ hrne, renderMisc_comment]
        simp
      have hsk : skipWsL (pre ++ (renderList c 0 (NodeList.cons (Node.comment s) rest) ++ X))
          = '<' :: '!' :: '-' :: '-' ::
            (s.data ++ ("-->".data ++ ('\n' :: (renderList c 0 rest ++ X)))) := by
        rw [hb, show skipWsL (pre ++ '<' :: ('!' :: '-' :: '-' ::
            (s.data ++ ("-->".data ++ ('\n' :: (renderList c 0 rest ++ X))))))
          = skipWsL ('<' :: ('!' :: '-' :: '-' ::
            (s.data ++ ("-->".data ++ ('\n' :: (renderList c 0 rest ++ X))))))
          from dropWhile_append_of_all isWs pre _ hpre,
          skipWsL_of_head_neg _ _ (by decide)]
      exact parseMisc_comment f _ s ('\n' :: (renderList c 0 rest ++ X)) hclean hsk _ _
        (hm ['\n'] X (by intro x hx; simp at hx; subst hx; decide) hX f (by omega))
    | doctype s =>
      have hclean : cleanFor ['>'] s.data = true := hnd
      refine ⟨m + 1, fun pre X hpre hX fuel hf => ?_⟩
      obtain ⟨f, rfl⟩ : ∃ f, fuel = f + 1 := ⟨fuel - 1, by omega⟩
      have hrne : renderNode c 0 (Node.doctype s) ≠ [] := by
        rw [renderMisc_doctype]
        simp
      have hb : pre ++ (renderList c 0 (NodeList.cons (Node.doctype s) rest) ++ X)
          = pre ++ '<' :: ('!' :: 'D' :: 'O' :: 'C' :: 'T' :: 'Y' :: 'P' :: 'E' ::
            (s.data ++ (['>'] ++ ('\n' :: (renderList c 0 rest ++ X))))) := by
        rw [renderList_cons_ne c 0 _ _ hrne, renderMisc_doctype]
        simp
      have hsk : skipWsL (pre ++ (renderList c 0 (NodeList.cons (Node.doctype s) rest) ++ X))
          = '<' :: '!' :: 'D' :: 'O' :: 'C' :: 'T' :: 'Y' :: 'P' :: 'E' ::
            (s.data ++ (['>'] ++ ('\n' :: (renderList c 0 rest ++ X)))) := by
        rw [hb, show skipWsL (pre ++ '<' :: ('!' :: 'D' :: 'O' :: 'C' :: 'T' :: 'Y' :: 'P' :: 'E' ::
            (s.data ++ (['>'] ++ ('\n' :: (renderList c 0 rest ++ X))))))
          = skipWsL ('<' :: ('!' :: 'D' :: 'O' :: 'C' :: 'T' :: 'Y' :: 'P' :: 'E' ::
            (s.data ++ (['>'] ++ ('\n' :: (renderList c 0 rest ++ X))))))
          from dropWhile_append_of_all isWs pre _ hpre,
          skipWsL_of_head_neg _ _ (by decide)]
      exact parseMisc_doctype f _ s ('\n' :: (renderList c 0 rest ++ X)) hclean hsk _ _
        (hm ['\n'] X (by intro x hx; simp at hx; subst hx; decide) hX f (by omega))
    | pi t dta =>
      have hnd2 : (noWsB t.data && cleanFor "?>".data (t.data ++ ' ' :: dta.data)) = true := hnd
      rw [Bool.and_eq_true] at hnd2
      obtain ⟨hnws, hclean⟩ := hnd2
      have ht : ∀ x ∈ t.data, isWs x = false := by
        intro x hx
        have := List.all_eq_true.mp hnws x hx
        rw [← Bool.not_eq_true']
        simpa using this
      refine ⟨m + 1, fun pre X hpre hX fuel hf => ?_⟩
      obtain ⟨f, rfl⟩ : ∃ f, fuel = f + 1 := ⟨fuel - 1, by omega⟩
      have hrne : renderNode c 0 (Node.pi t dta) ≠ [] := by
        rw [renderMisc_pi]
        simp
      have hb : pre ++ (renderList c 0 (NodeList.cons (Node.pi t dta) rest) ++ X)
          = pre ++ '<' :: ('?' :: ((t.data ++ ' ' :: dta.data)
            ++ ("?>".data ++ ('\n' :: (renderList c 0 rest ++ X))))) := by
        rw [renderList_cons_ne c 0 _ _ hrne, renderMisc_pi]
        simp
      have hsk : skipWsL (pre ++ (renderList c 0 (NodeList.cons (Node.pi t dta) rest) ++ X))
          = '<' :: '?' :: ((t.data ++ ' ' :: dta.data)
            ++ ("?>".data ++ ('\n' :: (renderList c 0 rest ++ X)))) := by
        rw [hb, show skipWsL (pre ++ '<' :: ('?' :: ((t.data ++ ' ' :: dta.data)
            ++ ("?>".data ++ ('\n' :: (renderList c 0 rest ++ X))))))
          = skipWsL ('<' :: ('?' :: ((t.data ++ ' ' :: dta.data)
            ++ ("?>".data ++ ('\n' :: (renderList c 0 rest ++ X))))))
          from dropWhile_append_of_all isWs pre _ hpre,
          skipWsL_of_head_neg _ _ (by decide)]
      exact parseMisc_pi f _ t dta ('\n' :: (renderList c 0 rest ++ X)) ht hclean hsk _ _
        (hm ['\n'] X (by intro x hx; simp at hx; subst hx; decide) hX f (by omega))
    | element en ea ech =>
      simp [wfMiscNode] at hnd
    | text s =>
      simp [wfMiscNode] at hnd
    | cdata s =>
      simp [wfMiscNode] at hnd

theorem parseMisc_renderAfter (c : Config) :
    ∀ (ms : NodeList), wfMisc ms = true →
      ∃ m, ∀ fuel, m ≤ fuel → parseMisc fuel (renderAfter c ms) = Except.ok (ms, [])
  | NodeList.nil, _ => by
    refine ⟨1, fun fuel hf => ?_⟩
    obtain ⟨f, rfl⟩ : ∃ f, fuel = f + 1 := ⟨fuel - 1, by omega⟩
    rfl
  | NodeList.cons nd rest, hwf => by
    have hwf2 : (wfMiscNode nd && wfMisc rest) = true := hwf
    rw [Bool.and_eq_true] at hwf2
    obtain ⟨hnd, hrest⟩ := hwf2
    obtain ⟨m, hm⟩ := parseMisc_renderAfter c rest hrest
    cases nd with
    | comment s =>
      have hclean : cleanFor "-->".data s.data = true := hnd
      refine ⟨m + 1, fun fuel hf => ?_⟩
      obtain ⟨f, rfl⟩ : ∃ f, fuel = f + 1 := ⟨fuel - 1, by omega⟩
      have hsk : skipWsL (renderAfter c (NodeList.cons (Node.comment s) rest))
          = '<' :: '!' :: '-' :: '-' :: (s.data ++ ("-->".data ++ renderAfter c rest)) := by
        rw [renderAfter_cons, renderMisc_comment, skipWsL_cons_ws '\n' _ (by decide),
          List.cons_append, skipWsL_of_head_neg _ _ (by decide)]
        simp
      exact parseMisc_comment f _ s (renderAfter c rest) hclean hsk _ _ (hm f (by omega))
    | doctype s =>
      have hclean : cleanFor ['>'] s.data = true := hnd
      refine ⟨m + 1, fun fuel hf => ?_⟩
      obtain ⟨f, rfl⟩ : ∃ f, fuel = f + 1 := ⟨fuel - 1, by omega⟩
      have hsk : skipWsL (renderAfter c (NodeList.cons (Node.doctype s) rest))
          = '<' :: '!' :: 'D' :: 'O' :: 'C' :: 'T' :: 'Y' :: 'P' :: 'E' ::
            (s.data ++ (['>'] ++ renderAfter c rest)) := by
        rw [renderAfter_cons, renderMisc_doctype, skipWsL_cons_ws '\n' _ (by decide),
          List.cons_append, skipWsL_of_head_neg _ _ (by decide)]
        simp
      exact parseMisc_doctype f _ s (renderAfter c rest) hclean hsk _ _ (hm f (by omega))
    | pi t dta =>
      have hnd2 : (noWsB t.data && cleanFor "?>".data (t.data ++ ' ' :: dta.data)) = true := hnd
      rw [Bool.and_eq_true] at hnd2
      obtain ⟨hnws, hclean⟩ := hnd2
      have ht : ∀ x ∈ t.data, isWs x = false := by
        intro x hx
        have := List.all_eq_true.mp hnws x hx
        rw [← Bool.not_eq_true']
        simpa using this
      refine ⟨m + 1, fun fuel hf => ?_⟩
      obtain ⟨f, rfl⟩ : ∃ f, fuel = f + 1 := ⟨fuel - 1, by omega⟩
      have hsk : skipWsL (renderAfter c (NodeList.cons (Node.pi t dta) rest))
          = '<' :: '?' :: ((t.data ++ ' ' :: dta.data) ++ ("?>".data ++ renderAfter c rest)) := by
        rw [renderAfter_cons, renderMisc_pi, skipWsL_cons_ws '\n' _ (by decide),
          List.cons_append, skipWsL_of_head_neg _ _ (by decide)]
        simp
      exact parseMisc_pi f _ t dta (renderAfter c rest) ht hclean hsk _ _ (hm f (by omega))
    | element en ea ech =>
      simp [wfMiscNode] at hnd
    | text s =>
      simp [wfMiscNode] at hnd
    | cdata s =>
      simp [wfMiscNode] at hnd

/-- The whole-document reparse: a well-formed document rendered under a
configuration with text indentation re-parses (with sufficient fuel for the
fuel-bounded parser model) to a document with an identical rendering. -/
theorem parseDocument_render (c : Config) (hitn : c.indent_text_nodes = true)
    (d : XmlDocument) (hwf : wfDoc d = true) :
    ∃ (d₂ : XmlDocument) (m : Nat),
      (∀ fuel, m ≤ fuel → parseDocument fuel (renderDocument c d) = Except.ok d₂) ∧
      renderDocument c d₂ = renderDocument c d := by
  have hwf2 : (wfMisc d.before && wfName d.rootName && d.rootAttrs.all (fun x => wfName x.1)
      && namesNodup d.rootAttrs && wfList d.rootChildren && wfMisc d.after) = true := hwf
  rw [Bool.and_eq_true, Bool.and_eq_true, Bool.and_eq_true, Bool.and_eq_true,
    Bool.and_eq_true] at hwf2
  obtain ⟨⟨⟨⟨⟨hbef, hn⟩, hatt⟩, hnd⟩, hch⟩, haft⟩ := hwf2
  have hroot : wfNode (Node.element d.rootName d.rootAttrs d.rootChildren) = true := by
    show (wfName d.rootName && d.rootAttrs.all (fun x => wfName x.1)
      && namesNodup d.rootAttrs && wfList d.rootChildren) = true
    rw [hn, hatt, hnd, hch]
    rfl
  obtain ⟨core, nd₂, mE, hE1, hE2, hE3, hE4, hE5⟩ :=
    wfNode_reparse c hitn (Node.element d.rootName d.rootAttrs d.rootChildren) hroot rfl 0
  obtain ⟨chE, t, hnd₂, hcore, helem⟩ := hE5 d.rootName d.rootAttrs d.rootChildren rfl
  obtain ⟨mM1, hm1⟩ := parseMisc_renderList c d.before hbef
  obtain ⟨mM2, hm2⟩ := parseMisc_renderAfter c d.after haft
  obtain ⟨c1, nm, hnm⟩ : ∃ c1 nm, d.rootName.data = c1 :: nm := by
    match hh : d.rootName.data with
    | [] => exact absurd hh (wfName_spec _ hn).1
    | c1 :: nm => exact ⟨c1, nm, rfl⟩
  have hc1 : isNameChar c1 = true :=
    (wfName_spec _ hn).2 c1 (by rw [hnm]; exact List.mem_cons_self _ _)
  have hE1z : renderNode c 0 (Node.element d.rootName d.rootAttrs d.rootChildren)
      = '<' :: core := by
    rw [hE1, spaces_zero_mul]
    rfl
  have hdoc : renderDocument c d
      = renderList c 0 d.before ++ ('<' :: c1 :: (nm ++ (t ++ renderAfter c d.after))) := by
    show renderList c 0 d.before
        ++ renderNode c 0 (Node.element d.rootName d.rootAttrs d.rootChildren)
        ++ renderAfter c d.after = _
    rw [hE1z, hcore, hnm]
    simp
  refine ⟨XmlDocument.mk d.before d.rootName d.rootAttrs chE d.after,
    mM1 + mE + mM2 + 1, ?_, ?_⟩
  · intro fuel hf
    have hM1 : parseMisc fuel (renderList c 0 d.before
        ++ ('<' :: c1 :: (nm ++ (t ++ renderAfter c d.after))))
        = Except.ok (d.before, '<' :: c1 :: (nm ++ (t ++ renderAfter c d.after))) :=
      hm1 [] ('<' :: c1 :: (nm ++ (t ++ renderAfter c d.after)))
        (by intro x hx; simp at hx) (Or.inr ⟨c1, _, rfl, hc1⟩) fuel (by omega)
    have hel : parseElement fuel (c1 :: (nm ++ (t ++ renderAfter c d.after)))
        = Except.ok (d.rootName, d.rootAttrs, chE, renderAfter c d.after) := by
      have hsh : c1 :: (nm ++ (t ++ renderAfter c d.after)) = core ++ renderAfter c d.after := by
        rw [hcore, hnm]
        simp
      rw [hsh]
      exact helem (renderAfter c d.after) fuel (by omega)
    have hM2 := hm2 fuel (by omega)
    rw [hdoc]
    show (do
      let (before, rest) ← parseMisc fuel (renderList c 0 d.before
        ++ ('<' :: c1 :: (nm ++ (t ++ renderAfter c d.after))))
      match rest with
      | '<' :: r => do
        let (name, attrs, children, rest2) ← parseElement fuel r
        let (after, rest3) ← parseMisc fuel rest2
        match rest3 with
        | [] =>
          Except.ok (XmlDocument.mk before name attrs children after)
        | '<' :: _ => Except.error "multiple root elements"
        | _ => Except.error "unexpected content after root element"
      | _ => Except.error "expected root element") = _
    rw [hM1]
    show (do
      let (name, attrs, children, rest2) ← parseElement fuel
        (c1 :: (nm ++ (t ++ renderAfter c d.after)))
      let (after, rest3) ← parseMisc fuel rest2
      match rest3 with
      | [] =>
        Except.ok (XmlDocument.mk d.before name attrs children after)
      | '<' :: _ => Except.error "multiple root elements"
      | _ => Except.error "unexpected content after root element") = _
    rw [hel]
    show (do
      let (after, rest3) ← parseMisc fuel (renderAfter c d.after)
      match rest3 with
      | [] =>
        Except.ok (XmlDocument.mk d.before d.rootName d.rootAttrs chE after)
      | '<' :: _ => Except.error "multiple root elements"
      | _ => Except.error "unexpected content after root element") = _
    rw [hM2]
    rfl
  · show renderList c 0 d.before
        ++ renderNode c 0 (Node.element d.rootName d.rootAttrs chE)
        ++ renderAfter c d.after = renderDocument c d
    rw [← hnd₂, hE2]
    rfl

/-! ### Parser output is well-formed -/

theorem ok_inv {α : Type} {x v : α} (h : (Except.ok x : Except String α) = Except.ok v) :
    x = v := by
  injection h

theorem pair_inv {α β : Type} {x v : α} {y r : β}
    (h : (Except.ok (x, y) : Except String (α × β)) = Except.ok (v, r)) : x = v ∧ y = r := by
  have h2 := ok_inv h
  rw [Prod.mk.injEq] at h2
  exact h2

theorem bind_ok_inv {α β : Type} (x : Except String α) (f : α → Except String β) (v : β)
    (h : (x >>= f) = Except.ok v) :
    ∃ a, x = Except.ok a ∧ f a = Except.ok v := by
  match hx : x with
  | Except.error e =>
    have h2 : (Except.error e : Except String β) = Except.ok v := h
    exact Except.noConfusion h2
  | Except.ok a =>
    have h2 : f a = Except.ok v := h
    exact ⟨a, rfl, h2⟩

theorem wfList_cons_intro (n : Node) (rest : NodeList) (h1 : wfNode n = true)
    (h2 : wfList rest = true) (h3 : (isTextNode n && headIsText rest) = false) :
    wfList (NodeList.cons n rest) = true := by
  show (wfNode n && wfList rest && !(isTextNode n && headIsText rest)) = true
  rw [h1, h2, h3]
  rfl

theorem pair_prefix_iff (a b x y : Char) (L : List Char) :
    (a :: b :: [] : List Char) <+: (x :: y :: L) ↔ a = x ∧ b = y := by
  rw [show (a :: b :: [] : List Char) = a :: [b] from rfl, List.cons_prefix_cons,
    show ([b] : List Char) = b :: [] from rfl, List.cons_prefix_cons]
  simp

theorem qgt_not_prefix_ws (sep : Char) (hsep : isWs sep = true) (Z : List Char) :
    ¬("?>".data <+: sep :: Z) := by
  intro hc
  rw [show ("?>".data : List Char) = '?' :: ['>'] from rfl, List.cons_prefix_cons] at hc
  rw [← hc.1] at hsep
  exact absurd hsep (by decide)

theorem cleanFor_qgt_subst : ∀ (t d : List Char) (sep : Char), isWs sep = true →
    cleanFor "?>".data (t ++ sep :: d) = true → cleanFor "?>".data (t ++ ' ' :: d) = true
  | [], d, sep, hsep, h => by
    rw [show ([] : List Char) ++ sep :: d = sep :: d from rfl] at h
    rw [show ([] : List Char) ++ ' ' :: d = ' ' :: d from rfl]
    rw [cleanFor_cons_iff] at h ⊢
    exact ⟨by rw [List.cons_append]; exact qgt_not_prefix_ws ' ' (by decide) _, h.2⟩
  | x :: t2, d, sep, hsep, h => by
    rw [List.cons_append] at h ⊢
    rw [cleanFor_cons_iff] at h ⊢
    refine ⟨?_, cleanFor_qgt_subst t2 d sep hsep h.2⟩
    intro hc
    match t2 with
    | [] =>
      rw [show (x :: (([] : List Char) ++ ' ' :: d)) ++ "?>".data
        = x :: ' ' :: (d ++ "?>".data) from by simp] at hc
      rw [show ("?>".data : List Char) = '?' :: '>' :: [] from rfl,
        pair_prefix_iff] at hc
      exact absurd hc.2.symm (by decide)
    | z :: t3 =>
      rw [show (x :: ((z :: t3) ++ ' ' :: d)) ++ "?>".data
        = x :: z :: ((t3 ++ ' ' :: d) ++ "?>".data) from by simp] at hc
      rw [show ("?>".data : List Char) = '?' :: '>' :: [] from rfl,
        pair_prefix_iff] at hc
      apply h.1
      rw [show (x :: ((z :: t3) ++ sep :: d)) ++ "?>".data
        = x :: z :: ((t3 ++ sep :: d) ++ "?>".data) from by simp]
      rw [show ("?>".data : List Char) = '?' :: '>' :: [] from rfl,
        pair_prefix_iff]
      exact hc

theorem cleanFor_qgt_snoc : ∀ (t : List Char), cleanFor "?>".data t = true →
    cleanFor "?>".data (t ++ [' ']) = true
  | [], _ => by decide
  | x :: t2, h => by
    rw [cleanFor_cons_iff] at h
    rw [List.cons_append, cleanFor_cons_iff]
    refine ⟨?_, cleanFor_qgt_snoc t2 h.2⟩
    intro hc
    match t2 with
    | [] =>
      rw [show (x :: (([] : List Char) ++ [' '])) ++ "?>".data
        = x :: ' ' :: "?>".data from by simp] at hc
      rw [show ("?>".data : List Char) = '?' :: '>' :: [] from rfl,
        pair_prefix_iff] at hc
      exact absurd hc.2.symm (by decide)
    | z :: t3 =>
      rw [show (x :: ((z :: t3) ++ [' '])) ++ "?>".data
        = x :: z :: ((t3 ++ [' ']) ++ "?>".data) from by simp] at hc
      rw [show ("?>".data : List Char) = '?' :: '>' :: [] from rfl,
        pair_prefix_iff] at hc
      apply h.1
      rw [show (x :: (z :: t3)) ++ "?>".data
        = x :: z :: (t3 ++ "?>".data) from by simp]
      rw [show ("?>".data : List Char) = '?' :: '>' :: [] from rfl,
        pair_prefix_iff]
      exact hc

theorem dropWhile_head_false (p : Char → Bool) : ∀ (l : List Char) (c : Char) (r : List Char),
    l.dropWhile p = c :: r → p c = false
  | [], c, r, h => by cases h
  | x :: xs, c, r, h => by
    rw [List.dropWhile_cons] at h
    by_cases hx : p x = true
    · rw [if_pos hx] at h
      exact dropWhile_head_false p xs c r h
    · rw [if_neg hx] at h
      injection h with h1 h2
      subst h1
      exact Bool.eq_false_iff.mpr hx

/-- The target and data extracted from a cleanly scanned processing
instruction body satisfy the parser invariants. -/
theorem pi_parts_ok (raw : List Char) (hclean : cleanFor "?>".data raw = true) :
    (noWsB (raw.takeWhile fun x => !isWs x) &&
      cleanFor "?>".data ((raw.takeWhile fun x => !isWs x) ++ ' ' ::
        (match raw.dropWhile (fun x => !isWs x) with
         | [] => []
         | _ :: u => u))) = true := by
  have hnw : noWsB (raw.takeWhile fun x => !isWs x) = true := by
    apply List.all_eq_true.mpr
    intro x hx
    have h0 := List.mem_takeWhile_imp hx
    simpa using h0
  match hdrop : raw.dropWhile (fun x => !isWs x) with
  | [] =>
    have h2 := List.takeWhile_append_dropWhile (fun x => !isWs x) raw
    rw [hdrop, List.append_nil] at h2
    rw [hnw]
    rw [show cleanFor "?>".data ((raw.takeWhile fun x => !isWs x) ++ ' ' :: []) = true from by
      rw [h2]
      exact cleanFor_qgt_snoc raw hclean]
    rfl
  | sep :: dtail =>
    have h2 := List.takeWhile_append_dropWhile (fun x => !isWs x) raw
    rw [hdrop] at h2
    have hsep : isWs sep = true := by
      have h3 := dropWhile_head_false (fun x => !isWs x) raw sep dtail hdrop
      simpa using h3
    have hcl2 : cleanFor "?>".data ((raw.takeWhile fun x => !isWs x) ++ sep :: dtail) = true := by
      rw [h2]
      exact hclean
    rw [hnw, cleanFor_qgt_subst _ dtail sep hsep hcl2]
    rfl

theorem parseTextRun_rest_head : ∀ (fuel : Nat) (l txt rest : List Char),
    parseTextRun fuel l = Except.ok (txt, rest) → rest = [] ∨ ∃ u, rest = '<' :: u
  | 0, _, _, _, h => Except.noConfusion h
  | fuel + 1, [], txt, rest, h => by
    have h2 : (Except.ok (([] : List Char), ([] : List Char))
      : Except String (List Char × List Char)) = Except.ok (txt, rest) := h
    obtain ⟨h5, h6⟩ := pair_inv h2
    exact Or.inl h6.symm
  | fuel + 1, c :: r, txt, rest, h => by
    rw [parseTextRun_cons] at h
    by_cases hc : c = '<'
    · rw [if_pos hc] at h
      obtain ⟨h5, h6⟩ := pair_inv h
      subst h6
      exact Or.inr ⟨r, by rw [hc]⟩
    · rw [if_neg hc] at h
      by_cases ha : c = '&'
      · rw [if_pos ha] at h
        obtain ⟨⟨body, rest0⟩, hs, h1⟩ := bind_ok_inv _ _ _ h
        obtain ⟨dch, hd, h2⟩ := bind_ok_inv _ _ _ h1
        obtain ⟨⟨more, rest2⟩, hp, h3⟩ := bind_ok_inv _ _ _ h2
        obtain ⟨h5, h6⟩ := pair_inv h3
        subst h6
        exact parseTextRun_rest_head fuel rest0 more rest2 hp
      · rw [if_neg ha] at h
        obtain ⟨⟨more, rest2⟩, hp, h3⟩ := bind_ok_inv _ _ _ h
        obtain ⟨h5, h6⟩ := pair_inv h3
        subst h6
        exact parseTextRun_rest_head fuel r more rest2 hp

theorem parseTextRun_ne_nil : ∀ (fuel : Nat) (c : Char) (r txt rest : List Char),
    ¬c = '<' → parseTextRun fuel (c :: r) = Except.ok (txt, rest) → txt ≠ []
  | 0, _, _, _, _, _, h => Except.noConfusion h
  | fuel + 1, c, r, txt, rest, hc, h => by
    rw [parseTextRun_cons, if_neg hc] at h
    by_cases ha : c = '&'
    · rw [if_pos ha] at h
      obtain ⟨⟨body, rest0⟩, hs, h1⟩ := bind_ok_inv _ _ _ h
      obtain ⟨dch, hd, h2⟩ := bind_ok_inv _ _ _ h1
      obtain ⟨⟨more, rest2⟩, hp, h3⟩ := bind_ok_inv _ _ _ h2
      obtain ⟨h5, h6⟩ := pair_inv h3
      subst h5
      simp
    · rw [if_neg ha] at h
      obtain ⟨⟨more, rest2⟩, hp, h3⟩ := bind_ok_inv _ _ _ h
      obtain ⟨h5, h6⟩ := pair_inv h3
      subst h5
      simp

theorem parseAttrsCore_wf : ∀ (fuel : Nat) (l : List Char) (attrs : List (String × String))
    (flag : Bool) (rest : List Char),
    parseAttrsCore fuel l = Except.ok (attrs, flag, rest) →
    (∀ x ∈ attrs, wfName x.1 = true) ∧ namesNodup attrs = true
  | 0, _, _, _, _, h => Except.noConfusion h
  | fuel + 1, [], _, _, _, h => Except.noConfusion h
  | fuel + 1, c :: r, attrs, flag, rest, h => by
    rw [parseAttrsCore_cons] at h
    by_cases hc : c = '/'
    · rw [if_pos hc] at h
      split at h
      · obtain ⟨h5, h6⟩ := pair_inv h
        subst h5
        exact ⟨by intro x hx; simp at hx, rfl⟩
      · exact Except.noConfusion h
    · rw [if_neg hc] at h
      by_cases hgt : c = '>'
      · rw [if_pos hgt] at h
        obtain ⟨h5, h6⟩ := pair_inv h
        subst h5
        exact ⟨by intro x hx; simp at hx, rfl⟩
      · rw [if_neg hgt] at h
        by_cases hname : (c :: r).takeWhile isNameChar = []
        · rw [if_pos hname] at h
          exact Except.noConfusion h
        · rw [if_neg hname] at h
          split at h
          · obtain ⟨⟨value, r3⟩, hpv, h1⟩ := bind_ok_inv _ _ _ h
            obtain ⟨⟨attrs2, selfClose, r4⟩, hpa, h2⟩ := bind_ok_inv _ _ _ h1
            have h2b : (if attrs2.any (fun b => b.1 = String.mk ((c :: r).takeWhile isNameChar))
                then (Except.error "duplicate attribute"
                  : Except String (List (String × String) × Bool × List Char))
                else Except.ok ((String.mk ((c :: r).takeWhile isNameChar),
                  String.mk value) :: attrs2, selfClose, r4)) = Except.ok (attrs, flag, rest) := h2
            by_cases hdup :
              attrs2.any (fun b => b.1 = String.mk ((c :: r).takeWhile isNameChar)) = true
            · rw [if_pos hdup] at h2b
              exact Except.noConfusion h2b
            · rw [if_neg hdup] at h2b
              obtain ⟨h5, h6⟩ := pair_inv h2b
              subst h5
              obtain ⟨hwfall, hnodup⟩ := parseAttrsCore_wf fuel (skipWsL r3) attrs2 selfClose r4 hpa
              constructor
              · intro x hx
                rcases List.mem_cons.mp hx with rfl | hx2
                · have hne : ((c :: r).takeWhile isNameChar).isEmpty = false := by
                    match hh : (c :: r).takeWhile isNameChar with
                    | [] => exact absurd hh hname
                    | y :: ys => rfl
                  have hall : ((c :: r).takeWhile isNameChar).all isNameChar = true := by
                    apply List.all_eq_true.mpr
                    intro y hy
                    exact List.mem_takeWhile_imp hy
                  show (!((c :: r).takeWhile isNameChar).isEmpty
                    && ((c :: r).takeWhile isNameChar).all isNameChar) = true
                  rw [hne, hall]
                  rfl
                · exact hwfall x hx2
              · show (!(attrs2.any fun b => b.1 = String.mk ((c :: r).takeWhile isNameChar))
                  && namesNodup attrs2) = true
                rw [Bool.eq_false_iff.mpr hdup, hnodup]
                rfl
          · exact Except.noConfusion h

theorem quad_inv {α β γ δ : Type} {x1 v1 : α} {x2 v2 : β} {x3 v3 : γ} {x4 v4 : δ}
    (h : (Except.ok (x1, x2, x3, x4) : Except String (α × β × γ × δ))
      = Except.ok (v1, v2, v3, v4)) :
    x1 = v1 ∧ x2 = v2 ∧ x3 = v3 ∧ x4 = v4 := by
  have h2 := ok_inv h
  rw [Prod.mk.injEq, Prod.mk.injEq, Prod.mk.injEq] at h2
  exact h2

theorem parseElement_succ2 (fuel : Nat) (l : List Char) :
    parseElement (fuel + 1) l =
      (if l.takeWhile isNameChar = [] then Except.error "expected element name"
       else
         (do
           let (attrs, selfClose, rest) ← parseAttrs fuel (l.dropWhile isNameChar)
           if selfClose then
             Except.ok (String.mk (l.takeWhile isNameChar), attrs, NodeList.nil, rest)
           else do
             let (children, rest2) ← parseNodes fuel rest
             match rest2 with
             | '<' :: '/' :: r2 =>
               if r2.takeWhile isNameChar = l.takeWhile isNameChar then
                 match skipWsL (r2.dropWhile isNameChar) with
                 | '>' :: r3 =>
                   Except.ok (String.mk (l.takeWhile isNameChar), attrs, children, r3)
                 | _ => Except.error "malformed end tag"
               else Except.error "mismatched end tag"
             | _ => Except.error "unterminated element")) := rfl

theorem parse_wf_aux : ∀ (fuel : Nat),
    (∀ (l : List Char) (v : NodeList) (rest : List Char),
      parseNodes fuel l = Except.ok (v, rest) →
      wfList v = true ∧ (∀ u, l = '<' :: u → headIsText v = false) ∧
        (l = [] → headIsText v = false)) ∧
    (∀ (l : List Char) (n : String) (a : List (String × String)) (ch : NodeList)
      (rest : List Char),
      parseElement fuel l = Except.ok (n, a, ch, rest) →
      wfName n = true ∧ (∀ x ∈ a, wfName x.1 = true) ∧ namesNodup a = true ∧ wfList ch = true)
  | 0 => by
    constructor
    · intro l v rest h
      exact Except.noConfusion h
    · intro l n a ch rest h
      exact Except.noConfusion h
  | fuel + 1 => by
    obtain ⟨ihN, ihE⟩ := parse_wf_aux fuel
    constructor
    · intro l v rest h
      match l with
      | [] =>
        have h2 : (Except.ok (NodeList.nil, ([] : List Char))
          : Except String (NodeList × List Char)) = Except.ok (v, rest) := h
        obtain ⟨h5, h6⟩ := pair_inv h2
        subst h5
        exact ⟨rfl, fun u hu => List.noConfusion hu, fun _ => rfl⟩
      | c :: r =>
        rw [parseNodes_cons] at h
        by_cases hc : c = '<'
        · rw [if_pos hc] at h
          split at h
          · exact Except.noConfusion h
          · rename_i c2 r2
            by_cases h2 : c2 = '/'
            · rw [if_pos h2] at h
              obtain ⟨h5, h6⟩ := pair_inv h
              subst h5
              exact ⟨rfl, fun _ _ => rfl, fun _ => rfl⟩
            · rw [if_neg h2] at h
              by_cases h3 : c2 = '!'
              · rw [if_pos h3] at h
                split at h
                · obtain ⟨⟨body, rest0⟩, hs, h1⟩ := bind_ok_inv _ _ _ h
                  obtain ⟨⟨siblings, rest2⟩, hp, h4⟩ := bind_ok_inv _ _ _ h1
                  obtain ⟨h5, h6⟩ := pair_inv h4
                  subst h5
                  obtain ⟨hwfs, _, _⟩ := ihN _ _ _ hp
                  refine ⟨?_, fun _ _ => rfl, fun _ => rfl⟩
                  apply wfList_cons_intro
                  · exact (scanUntil_sound "-->".data _ body rest0 hs).1
                  · exact hwfs
                  · rfl
                · obtain ⟨⟨body, rest0⟩, hs, h1⟩ := bind_ok_inv _ _ _ h
                  obtain ⟨⟨siblings, rest2⟩, hp, h4⟩ := bind_ok_inv _ _ _ h1
                  obtain ⟨h5, h6⟩ := pair_inv h4
                  subst h5
                  obtain ⟨hwfs, _, _⟩ := ihN _ _ _ hp
                  refine ⟨?_, fun _ _ => rfl, fun _ => rfl⟩
                  apply wfList_cons_intro
                  · exact (scanUntil_sound "]]>".data _ body rest0 hs).1
                  · exact hwfs
                  · rfl
                · exact Except.noConfusion h
              · rw [if_neg h3] at h
                by_cases h5q : c2 = '?'
                · rw [if_pos h5q] at h
                  obtain ⟨⟨raw, rest0⟩, hs, h1⟩ := bind_ok_inv _ _ _ h
                  obtain ⟨⟨siblings, rest2⟩, hp, h4⟩ := bind_ok_inv _ _ _ h1
                  obtain ⟨h5, h6⟩ := pair_inv h4
                  subst h5
                  obtain ⟨hwfs, _, _⟩ := ihN _ _ _ hp
                  refine ⟨?_, fun _ _ => rfl, fun _ => rfl⟩
                  apply wfList_cons_intro
                  · exact pi_parts_ok raw (scanUntil_sound "?>".data _ raw rest0 hs).1
                  · exact hwfs
                  · rfl
                · rw [if_neg h5q] at h
                  obtain ⟨⟨n2, a2, ch2, rest0⟩, hpe, h1⟩ := bind_ok_inv _ _ _ h
                  obtain ⟨⟨siblings, rest2⟩, hp, h4⟩ := bind_ok_inv _ _ _ h1
                  obtain ⟨h5, h6⟩ := pair_inv h4
                  subst h5
                  obtain ⟨hwfs, _, _⟩ := ihN _ _ _ hp
                  obtain ⟨hn2, ha2, hnd2, hch2⟩ := ihE _ _ _ _ _ hpe
                  refine ⟨?_, fun _ _ => rfl, fun _ => rfl⟩
                  apply wfList_cons_intro
                  · show (wfName n2 && a2.all (fun x => wfName x.1)
                      && namesNodup a2 && wfList ch2) = true
                    rw [hn2, List.all_eq_true.mpr ha2, hnd2, hch2]
                    rfl
                  · exact hwfs
                  · rfl
        · rw [if_neg hc] at h
          obtain ⟨⟨txt, rest0⟩, htr, h1⟩ := bind_ok_inv _ _ _ h
          obtain ⟨⟨siblings, rest2⟩, hp, h4⟩ := bind_ok_inv _ _ _ h1
          obtain ⟨h5, h6⟩ := pair_inv h4
          subst h5
          obtain ⟨hwfs, hhead1, hhead2⟩ := ihN _ _ _ hp
          have htne : txt ≠ [] := parseTextRun_ne_nil fuel c r txt rest0 hc htr
          refine ⟨?_, ?_, ?_⟩
          · apply wfList_cons_intro
            · show (!txt.isEmpty) = true
              match htt : txt with
              | [] => exact absurd rfl htne
              | y :: ys => rfl
            · exact hwfs
            · show (true && headIsText siblings) = false
              rw [Bool.true_and]
              rcases parseTextRun_rest_head fuel (c :: r) txt rest0 htr with h7 | ⟨u, h7⟩
              · subst h7
                exact hhead2 rfl
              · exact hhead1 u h7
          · intro u hu
            injection hu with hu1 hu2
            exact absurd hu1 hc
          · intro hl
            exact List.noConfusion hl
    · intro l n a ch rest h
      rw [parseElement_succ2] at h
      by_cases hname : l.takeWhile isNameChar = []
      · rw [if_pos hname] at h
        exact Except.noConfusion h
      · rw [if_neg hname] at h
        obtain ⟨⟨attrs2, selfClose0, rest0⟩, hpa, h1⟩ := bind_ok_inv _ _ _ h
        obtain ⟨hawf, hand⟩ :=
          parseAttrsCore_wf fuel (skipWsL (l.dropWhile isNameChar)) attrs2 selfClose0 rest0 hpa
        have hnwf : wfName (String.mk (l.takeWhile isNameChar)) = true := by
          have hne : (l.takeWhile isNameChar).isEmpty = false := by
            match hh : l.takeWhile isNameChar with
            | [] => exact absurd hh hname
            | y :: ys => rfl
          have hall : (l.takeWhile isNameChar).all isNameChar = true := by
            apply List.all_eq_true.mpr
            intro y hy
            exact List.mem_takeWhile_imp hy
          show (!(l.takeWhile isNameChar).isEmpty
            && (l.takeWhile isNameChar).all isNameChar) = true
          rw [hne, hall]
          rfl
        rcases Bool.eq_false_or_eq_true selfClose0 with hsc | hsc
        · rw [hsc] at h1
          have h2 : (Except.ok (String.mk (l.takeWhile isNameChar), attrs2, NodeList.nil, rest0)
            : Except String (String × List (String × String) × NodeList × List Char))
            = Except.ok (n, a, ch, rest) := h1
          obtain ⟨e1, e2, e3, e4⟩ := quad_inv h2
          subst e1
          subst e2
          subst e3
          exact ⟨hnwf, hawf, hand, rfl⟩
        · rw [hsc] at h1
          have h2 : (do
            let (children, rest2) ← parseNodes fuel rest0
            match rest2 with
            | '<' :: '/' :: r2 =>
              if r2.takeWhile isNameChar = l.takeWhile isNameChar then
                match skipWsL (r2.dropWhile isNameChar) with
                | '>' :: r3 =>
                  Except.ok (String.mk (l.takeWhile isNameChar), attrs2, children, r3)
                | _ => Except.error "malformed end tag"
              else Except.error "mismatched end tag"
            | _ => Except.error "unterminated element") = Except.ok (n, a, ch, rest) := h1
          obtain ⟨⟨children, rest2⟩, hp, h3⟩ := bind_ok_inv _ _ _ h2
          obtain ⟨hwfch, _, _⟩ := ihN _ _ _ hp
          have h3b : (match rest2 with
            | '<' :: '/' :: r2 =>
              if r2.takeWhile isNameChar = l.takeWhile isNameChar then
                match skipWsL (r2.dropWhile isNameChar) with
                | '>' :: r3 =>
                  Except.ok (String.mk (l.takeWhile isNameChar), attrs2, children, r3)
                | _ => Except.error "malformed end tag"
              else Except.error "mismatched end tag"
            | _ => Except.error "unterminated element") = Except.ok (n, a, ch, rest) := h3
          split at h3b
          · rename_i r2x
            by_cases hen : r2x.takeWhile isNameChar = l.takeWhile isNameChar
            · rw [if_pos hen] at h3b
              split at h3b
              · obtain ⟨e1, e2, e3, e4⟩ := quad_inv h3b
                subst e1
                subst e2
                subst e3
                exact ⟨hnwf, hawf, hand, hwfch⟩
              · exact Except.noConfusion h3b
            · rw [if_neg hen] at h3b
              exact Except.noConfusion h3b
          · exact Except.noConfusion h3b

theorem parseMisc_wf : ∀ (fuel : Nat) (l : List Char) (ms : NodeList) (rest : List Char),
    parseMisc fuel l = Except.ok (ms, rest) → wfMisc ms = true
  | 0, _, _, _, h => Except.noConfusion h
  | fuel + 1, l, ms, rest, h => by
    rw [parseMisc_succ] at h
    split at h
    · obtain ⟨h5, h6⟩ := pair_inv h
      subst h5
      rfl
    · split at h
      · split at h
        · obtain ⟨h5, h6⟩ := pair_inv h
          subst h5
          rfl
        · split at h
          · split at h
            · obtain ⟨⟨body, rest0⟩, hs, h1⟩ := bind_ok_inv _ _ _ h
              obtain ⟨⟨more, rest2⟩, hp, h4⟩ := bind_ok_inv _ _ _ h1
              obtain ⟨h5, h6⟩ := pair_inv h4
              subst h5
              show (wfMiscNode (Node.comment (String.mk body)) && wfMisc more) = true
              rw [show wfMiscNode (Node.comment (String.mk body)) = true from
                (scanUntil_sound "-->".data _ body rest0 hs).1,
                parseMisc_wf fuel rest0 more rest2 hp]
              rfl
            · obtain ⟨⟨body, rest0⟩, hs, h1⟩ := bind_ok_inv _ _ _ h
              obtain ⟨⟨more, rest2⟩, hp, h4⟩ := bind_ok_inv _ _ _ h1
              obtain ⟨h5, h6⟩ := pair_inv h4
              subst h5
              show (wfMiscNode (Node.doctype (String.mk body)) && wfMisc more) = true
              rw [show wfMiscNode (Node.doctype (String.mk body)) = true from
                (scanUntil_sound ['>'] _ body rest0 hs).1,
                parseMisc_wf fuel rest0 more rest2 hp]
              rfl
            · obtain ⟨h5, h6⟩ := pair_inv h
              subst h5
              rfl
          · split at h
            · obtain ⟨⟨raw, rest0⟩, hs, h1⟩ := bind_ok_inv _ _ _ h
              obtain ⟨⟨more, rest2⟩, hp, h4⟩ := bind_ok_inv _ _ _ h1
              obtain ⟨h5, h6⟩ := pair_inv h4
              subst h5
              show (wfMiscNode (Node.pi
                (String.mk (raw.takeWhile fun x => !isWs x))
                (String.mk (match raw.dropWhile (fun x => !isWs x) with
                  | [] => []
                  | _ :: u => u))) && wfMisc more) = true
              rw [show wfMiscNode (Node.pi
                  (String.mk (raw.takeWhile fun x => !isWs x))
                  (String.mk (match raw.dropWhile (fun x => !isWs x) with
                    | [] => []
                    | _ :: u => u))) = true from
                pi_parts_ok raw (scanUntil_sound "?>".data _ raw rest0 hs).1,
                parseMisc_wf fuel rest0 more rest2 hp]
              rfl
            · obtain ⟨h5, h6⟩ := pair_inv h
              subst h5
              rfl
      · obtain ⟨h5, h6⟩ := pair_inv h
        subst h5
        rfl

/-- Every document the parser accepts satisfies the structural invariants
`wfDoc` (names, unique attributes, nonempty non-adjacent text runs, clean
delimited contents, doctypes only at document level). -/
theorem parse_wf (input : List Char) (d : XmlDocument) (h : parse input = Except.ok d) :
    wfDoc d = true := by
  have h0 : parseDocument (4 * input.length + 16) input = Except.ok d := h
  obtain ⟨⟨before, rest⟩, hm1, h1⟩ := bind_ok_inv _ _ _ h0
  have h1b : (match rest with
    | '<' :: r =>
      (do
        let (name, attrs, children, rest2) ← parseElement (4 * input.length + 16) r
        let (after, rest3) ← parseMisc (4 * input.length + 16) rest2
        match rest3 with
        | [] => Except.ok (XmlDocument.mk before name attrs children after)
        | '<' :: _ => Except.error "multiple root elements"
        | _ => Except.error "unexpected content after root element")
    | _ => (Except.error "expected root element" : Except String XmlDocument)) =
      Except.ok d := h1
  split at h1b
  · obtain ⟨⟨n2, a2, ch2, rest2⟩, hpe, h2⟩ := bind_ok_inv _ _ _ h1b
    obtain ⟨⟨after, rest3⟩, hm2, h3⟩ := bind_ok_inv _ _ _ h2
    have h3b : (match rest3 with
      | [] => Except.ok (XmlDocument.mk before n2 a2 ch2 after)
      | '<' :: _ => (Except.error "multiple root elements" : Except String XmlDocument)
      | _ => Except.error "unexpected content after root element") = Except.ok d := h3
    split at h3b
    · have h4 := ok_inv h3b
      subst h4
      obtain ⟨hn, ha, hnd, hch⟩ := (parse_wf_aux (4 * input.length + 16)).2 _ _ _ _ _ hpe
      have hbef := parseMisc_wf _ _ _ _ hm1
      have haft := parseMisc_wf _ _ _ _ hm2
      show (wfMisc before && wfName n2 && a2.all (fun x => wfName x.1)
        && namesNodup a2 && wfList ch2 && wfMisc after) = true
      rw [hbef, hn, List.all_eq_true.mpr ha, hnd, hch, haft]
      rfl
    · exact Except.noConfusion h3b
    · exact Except.noConfusion h3b
  · exact Except.noConfusion h1b

/-- **C3, counterexample.** Round-trip idempotence fails for the
configuration the program builds under `--no-text-indent`
(`indent_text_nodes = false`): for the input `<a>hi<b/></a>`, the first
render puts `hi` on its own indented line; re-parsing makes that
structural whitespace part of the text node, and because text is then
emitted verbatim, the second render is not byte-identical to the first. -/
theorem roundtrip_fails_without_text_indent :
    parse "<a>hi<b/></a>".data = Except.ok docMixed ∧
    renderDocument cfgNoTextIndent docMixed = "<a>\n  hi\n  <b />\n</a>".data ∧
    parse "<a>\n  hi\n  <b />\n</a>".data = Except.ok docMixedReparsed ∧
    renderDocument cfgNoTextIndent docMixedReparsed ≠ "<a>\n  hi\n  <b />\n</a>".data := by
  refine ⟨rfl, rfl, rfl, ?_⟩
  decide

/-- **C3, amended.** With text-node indentation enabled
(`indent_text_nodes = true`, the configuration built unless
`--no-text-indent` is passed), prettifying is idempotent: for every
document the parser accepts, re-parsing the rendered output succeeds
(with any sufficiently large fuel) and yields a document whose own
rendering is byte-identical to that output, so running the tool on its
own output reproduces it exactly. -/
theorem roundtrip_stable_with_text_indent (c : Config)
    (hitn : c.indent_text_nodes = true) (input : List Char) (d : XmlDocument)
    (h : parse input = Except.ok d) :
    ∃ (d₂ : XmlDocument) (m : Nat),
      (∀ fuel, m ≤ fuel → parseDocument fuel (renderDocument c d) = Except.ok d₂) ∧
      renderDocument c d₂ = renderDocument c d :=
  parseDocument_render c hitn d (parse_wf input d h)

/-- Witness for the amended round-trip theorem: the default configuration
(text-node indentation on) and the concrete document `<a>hi<b/></a>`. -/
theorem roundtrip_stable_with_text_indent_witness :
    (prettifyConfig none none none false true).indent_text_nodes = true ∧
    parse "<a>hi<b/></a>".data = Except.ok docMixed ∧
    (∃ (d₂ : XmlDocument) (m : Nat),
      (∀ fuel, m ≤ fuel →
        parseDocument fuel
          (renderDocument (prettifyConfig none none none false true) docMixed) =
          Except.ok d₂) ∧
      renderDocument (prettifyConfig none none none false true) d₂ =
        renderDocument (prettifyConfig none none none false true) docMixed) :=
  ⟨rfl, rfl,
    roundtrip_stable_with_text_indent (prettifyConfig none none none false true) rfl
      "<a>hi<b/></a>".data docMixed rfl⟩

/-- **C2, counterexample.** The claim says translation of `\n` to a
platform-specific line ending before writing is optional, not performed
unconditionally. Line 94 performs `text.replace("\n", "\r\n")`
unconditionally (the `#[cfg(windows)]` selection is commented out): for the
rendered text `<a>\n</a>` the bytes printed to stdout are `<a>\r\n</a>`,
not the rendered string. -/
theorem crlf_translation_unconditional_cex :
    text_with_crlf "<a>\n</a>" = "<a>\r\n</a>" ∧
    mainLoop false none (fun _ => Except.ok "<a>\n</a>") ["doc.xml"] =
      ([Effect.stdoutLine "<a>\r\n</a>"], none) := by
  constructor
  · rfl
  · rfl

/-- **C2, amended.** The rendered string reaches `main` with `\n`
separators, and `main` unconditionally replaces every `\n` with `\r\n`
before writing, on every platform and for both file and stdout
destinations: the payload of the single effect produced for a successfully
prettified document is always `text_with_crlf text`. -/
theorem written_payload_is_crlf_translated (is_replace : Bool)
    (output_path : Option String) (text fp : String) :
    (mainLoop is_replace output_path (fun _ => Except.ok text) [fp]).1 =
      [fileEffect is_replace output_path fp text] ∧
    ∀ p contents, fileEffect is_replace output_path fp text = Effect.writeFile p contents →
      contents = text_with_crlf text := by
  constructor
  · rfl
  · intro p contents h
    unfold fileEffect at h
    cases hc : chooseOutputPath is_replace output_path fp with
    | none => rw [hc] at h; cases h
    | some q => rw [hc] at h; cases h; rfl

/-- Witness for `written_payload_is_crlf_translated` at a concrete input
(the second conjunct carries a hypothesis). -/
theorem written_payload_is_crlf_translated_witness :
    (mainLoop true none (fun _ => Except.ok "a\nb") ["d.xml"]).1 =
      [fileEffect true none "d.xml" "a\nb"] ∧
    "a\r\nb" = text_with_crlf "a\nb" := by
  refine ⟨(written_payload_is_crlf_translated true none "a\nb" "d.xml").1, ?_⟩
  exact (written_payload_is_crlf_translated true none "a\nb" "d.xml").2 "d.xml" "a\r\nb" rfl

/-- **C4.** When the indent, end-pad and max-line-length options are not
supplied, `prettify` configures the renderer with `indent = 2`,
`end_pad = 1` and `max_line_length = 120` (the `unwrap_or` calls of
lines 137–139), whatever the remaining flags are. -/
theorem prettify_defaults (uses_hex_entities indent_text_nodes : Bool) :
    (prettifyConfig none none none uses_hex_entities indent_text_nodes).indent = 2 ∧
    (prettifyConfig none none none uses_hex_entities indent_text_nodes).end_pad = 1 ∧
    (prettifyConfig none none none uses_hex_entities indent_text_nodes).max_line_length = 120 :=
  ⟨rfl, rfl, rfl⟩

/-- **C8.** For every combination of command-line arguments, the renderer
configuration built by `prettify` has `is_pretty = true` (the literal
`true` of line 136); no argument reaches that field, so the compact
non-pretty mode is unreachable through this program. -/
theorem is_pretty_always_true (a : Args) :
    (prettifyConfigOfArgs a).is_pretty = true := rfl

/-- **C9.** Whenever `find_xml_files` returns an error, `main` prints
`Error: {err}` to stderr (line 72), continues with an empty input list
(line 73), hence processes zero documents, and returns `Ok(())` (modelled
by the `none` error component). -/
theorem find_error_prints_and_succeeds (e : String) (is_replace : Bool)
    (output_path : Option String) (pretty : String → Except String String) :
    runMain (Except.error e) is_replace output_path pretty =
      ([Effect.stderrLine ("Error: " ++ e)], none) := rfl

/-- **C10.** Destination selection (lines 88–92): with `--replace` the
output path for each document is its own input path, regardless of any
explicit `--output-path`; without it, the explicit output path is used
when present, and stdout otherwise. The per-file effect writes accordingly. -/
theorem replace_flag_selects_input_path (output_path : Option String)
    (fp text p : String) :
    chooseOutputPath true output_path fp = some fp ∧
    chooseOutputPath false (some p) fp = some p ∧
    chooseOutputPath false none fp = none ∧
    fileEffect true output_path fp text = Effect.writeFile fp (text_with_crlf text) ∧
    fileEffect false (some p) fp text = Effect.writeFile p (text_with_crlf text) ∧
    fileEffect false none fp text = Effect.stdoutLine (text_with_crlf text) :=
  ⟨rfl, rfl, rfl, rfl, rfl, rfl⟩

end XmlPretty
